import Mathlib

/-!
# EVENTSEC agent: store-and-forward spool and transport helpers

A shallow embedding of `agent/common/queue/spool.go` and of the pure helpers of
`agent/common/transport/client.go`.

The spool directory is modelled as the list of its directory entries.  Every
operation of `DiskQueue` is a function from the directory before the call to the
directory after the call together with the Go `error` it returns (`none` is
`nil`).  Strings and file contents are byte lists; times are nanoseconds since
the Unix epoch (`time.Time.UnixNano`), durations are nanoseconds.

Library calls are modelled by their documented behaviour on a directory that no
other process touches: `os.ReadDir` lists the entries sorted by file name,
`filepath.Walk` visits every regular file beneath the directory, `os.Remove`
fails on a missing file, `os.WriteFile` creates or truncates a regular file and
fails on a directory.  The clock readings of one call (`time.Now()` and the
modification time the file system stamps on a written file) are explicit
arguments.
-/

namespace EventSec

/-! ## Byte strings -/

/-- A Go string or byte slice. -/
abbrev Bytes := List Nat

/-- Byte-wise lexicographic "less than", the order of Go string comparison and
of `sort.Strings`. -/
def lexLt : Bytes → Bytes → Bool
  | [], [] => false
  | [], _ :: _ => true
  | _ :: _, [] => false
  | a :: as, b :: bs => if a < b then true else if b < a then false else lexLt as bs

/-- Byte-wise lexicographic "less or equal". -/
def lexLe (a b : Bytes) : Bool := !lexLt b a

/-- The call `sort.Strings(names)`: ascending byte-wise order. -/
def sortStrings (names : List Bytes) : List Bytes :=
  names.insertionSort (fun a b => lexLe a b = true)

/-- The call `strings.HasSuffix(s, suffix)`. -/
def hasSuffix (s suffix : Bytes) : Bool := suffix.isSuffixOf s

/-- The literal `".json"`. -/
def dotJson : Bytes := [46, 106, 115, 111, 110]

/-- Digit loop of the decimal rendering: the digits of `n` are put in front of
`acc`, least significant first; `fuel` bounds the number of digits. -/
def decimalAux : Nat → Nat → Bytes → Bytes
  | 0, _, acc => acc
  | fuel + 1, n, acc =>
    if n < 10 then (48 + n) :: acc else decimalAux fuel (n / 10) ((48 + n % 10) :: acc)

/-- Decimal digits of a natural number, most significant first, as ASCII. -/
def decimal (n : Nat) : Bytes := decimalAux (n + 1) n []

/-- The verb `%d` of `fmt.Sprintf` applied to an `int64`: unpadded decimal with
a leading `-` for negative numbers. -/
def fmtD (t : Int) : Bytes :=
  if t < 0 then 45 :: decimal t.natAbs else decimal t.natAbs

/-- The call `filepath.Join(dir, name)` for a clean `dir` and a plain file name. -/
def joinPath (dir name : Bytes) : Bytes := dir ++ 47 :: name

/-! ## The spool directory -/

/-- One entry of the spool directory.  For a regular file `data` is its content
and `info.Size()` is `data.length`; for a sub-directory `children` is the number
of entries directly inside it and `below` the total size of the regular files
beneath it (what `filepath.Walk` adds up there). -/
structure Entry where
  name : Bytes
  modTime : Int
  data : Bytes
  isDir : Bool := false
  children : Nat := 0
  below : Nat := 0
deriving DecidableEq, Repr

/-- The directory: its entries, in no particular order. -/
abbrev Dir := List Entry

/-- Directory entries never share a name. -/
def Dir.WF (fs : Dir) : Prop := (fs.map Entry.name).Nodup

instance (fs : Dir) : Decidable fs.WF := by unfold Dir.WF; infer_instance

/-- Errors returned by the queue. -/
inductive QErr where
  | dirRequired
  | payloadRequired
  | marshal
  | spoolFull
  | pathRequired
  | notExist
  | isDirectory
  | dirNotEmpty
  | outOfFuel
deriving DecidableEq, Repr

/-- State after a call and the Go `error` it returned (`none` is `nil`). -/
structure Outcome where
  fs : Dir
  err : Option QErr
deriving DecidableEq, Repr

/-- The call `info.Size()` of a regular file. -/
def Entry.size (e : Entry) : Int := (e.data.length : Int)

/-- The test both listing loops apply: not a directory and named `*.json`. -/
def Entry.isItem (e : Entry) : Bool := !e.isDir && hasSuffix e.name dotJson

/-- The call `os.ReadDir(dir)`: all entries, sorted by file name. -/
def readDir (fs : Dir) : List Entry :=
  fs.insertionSort (fun a b => lexLe a.name b.name = true)

/-- The call `os.Stat(path)`.  A path names an entry of the spool directory in
the one form `filepath.Join(dir, name)`, the form of every path the package
builds itself (`Item.Path` included); any other spelling of the same file, such
as `./dir/name`, names nothing here, so the model speaks for such paths only as
far as they have that form. -/
def osStat (dir : Bytes) (fs : Dir) (path : Bytes) : Option Entry :=
  fs.find? (fun e => joinPath dir e.name == path)

/-- The call `os.Remove(path)`: fails when nothing is at `path` or when it is a
directory that is not empty. -/
def osRemove (dir : Bytes) (fs : Dir) (path : Bytes) : Outcome :=
  match osStat dir fs path with
  | none => ⟨fs, some .notExist⟩
  | some e =>
    if e.isDir && e.children != 0 then ⟨fs, some .dirNotEmpty⟩
    else ⟨fs.filter (fun x => !(joinPath dir x.name == path)), none⟩

/-- The call `os.ReadFile(path)`. -/
def osReadFile (dir : Bytes) (fs : Dir) (path : Bytes) : Except QErr Bytes :=
  match osStat dir fs path with
  | none => .error .notExist
  | some e => if e.isDir then .error .isDirectory else .ok e.data

/-- The call `os.WriteFile(filepath.Join(dir, name), data, 0o640)`, the file
system stamping modification time `mtime`: an existing regular file is
truncated and rewritten, a new file is created otherwise. -/
def osWriteFile (fs : Dir) (name data : Bytes) (mtime : Int) : Outcome :=
  match fs.find? (fun e => e.name == name) with
  | some e =>
    if e.isDir then ⟨fs, some .isDirectory⟩
    else ⟨fs.map (fun x => if x.name == name then ⟨name, mtime, data, false, 0, 0⟩ else x), none⟩
  | none => ⟨fs ++ [⟨name, mtime, data, false, 0, 0⟩], none⟩

/-- The function `dirSize`: `filepath.Walk` adds the size of everything that is
not a directory, at any depth. -/
def dirSize (fs : Dir) : Int :=
  (fs.map (fun e => if e.isDir then (e.below : Int) else e.size)).sum

/-! ## `DiskQueue` -/

/-- The struct `DiskQueue`. -/
structure DiskQueue where
  dir : Bytes
  maxBytes : Int
  retention : Int
deriving DecidableEq, Repr

/-- The struct `Item`. -/
structure Item where
  Path : Bytes
  Data : Bytes
deriving DecidableEq, Repr

/-- One hour, `time.Hour`, in nanoseconds. -/
def hour : Int := 3600 * 1000000000

/-- Wrap-around of 64-bit signed arithmetic (`int`, `int64`, `time.Duration`). -/
def wrap64 (x : Int) : Int := (x + 2 ^ 63) % 2 ^ 64 - 2 ^ 63

/-- The constructor `NewDiskQueue(dir, maxMB, retention)` (the directory it
creates is the empty `Dir`); the product `int64(maxMB) * 1024 * 1024` wraps
around in 64 bits. -/
def NewDiskQueue (dir : Bytes) (maxMB : Int) (retention : Int) : Except QErr DiskQueue :=
  if dir = [] then .error .dirRequired
  else
    let maxMB := if maxMB ≤ 0 then 256 else maxMB
    let retention := if retention ≤ 0 then 7 * 24 * hour else retention
    .ok { dir := dir, maxBytes := wrap64 (wrap64 (maxMB * 1024) * 1024), retention := retention }

/-- The loop of `oldestFile` over the listed entries, carrying `oldest` and
`oldestTime`. -/
def oldestFileLoop (dir : Bytes) : List Entry → Bytes × Int → Bytes × Int
  | [], acc => acc
  | e :: es, (oldest, oldestTime) =>
    if e.isDir || !hasSuffix e.name dotJson then oldestFileLoop dir es (oldest, oldestTime)
    else if oldest == [] || e.modTime < oldestTime then
      oldestFileLoop dir es (joinPath dir e.name, e.modTime)
    else oldestFileLoop dir es (oldest, oldestTime)

/-- The method `oldestFile`: path of the item with the least modification time,
the first listed among equals; the empty string when there is no item. -/
def DiskQueue.oldestFile (q : DiskQueue) (fs : Dir) : Bytes :=
  (oldestFileLoop q.dir (readDir fs) ([], 0)).1

/-- The loop of `pruneOlderThan` over the listed entries. -/
def pruneLoop (dir : Bytes) (cutoff : Int) : List Entry → Dir → Outcome
  | [], fs => ⟨fs, none⟩
  | e :: es, fs =>
    if e.isDir || !hasSuffix e.name dotJson then pruneLoop dir cutoff es fs
    else if e.modTime < cutoff then
      match osRemove dir fs (joinPath dir e.name) with
      | ⟨fs1, none⟩ => pruneLoop dir cutoff es fs1
      | ⟨fs1, some err⟩ => ⟨fs1, some err⟩
    else pruneLoop dir cutoff es fs

/-- The method `pruneOlderThan(cutoff)`. -/
def DiskQueue.pruneOlderThan (q : DiskQueue) (fs : Dir) (cutoff : Int) : Outcome :=
  pruneLoop q.dir cutoff (readDir fs) fs

/-- The `for total+incoming > q.maxBytes` loop of `enforceLimits`; `fuel` bounds
the number of iterations. -/
def evictLoop (q : DiskQueue) (incoming : Int) : Nat → Dir → Int → Outcome
  | 0, fs, _ => ⟨fs, some .outOfFuel⟩
  | fuel + 1, fs, total =>
    if total + incoming > q.maxBytes then
      let oldest := q.oldestFile fs
      if oldest == [] then ⟨fs, some .spoolFull⟩
      else
        match osStat q.dir fs oldest with
        | none => ⟨fs, some .notExist⟩
        | some info =>
          match osRemove q.dir fs oldest with
          | ⟨fs1, some err⟩ => ⟨fs1, some err⟩
          | ⟨fs1, none⟩ => evictLoop q incoming fuel fs1 (total - info.size)
    else ⟨fs, none⟩

/-- The method `enforceLimits(incoming)` with `now` the reading of `time.Now()`.
Every iteration of the loop removes an entry, so one more iteration than there
are entries is enough. -/
def DiskQueue.enforceLimits (q : DiskQueue) (fs : Dir) (now : Int) (incoming : Int) : Outcome :=
  let total := dirSize fs
  let deadline := now - q.retention
  match q.pruneOlderThan fs deadline with
  | ⟨fs1, some err⟩ => ⟨fs1, some err⟩
  | ⟨fs1, none⟩ => evictLoop q incoming (fs1.length + 1) fs1 total

/-- The clock readings of one `Enqueue` call: `time.Now()` in `enforceLimits`,
the two `time.Now().UnixNano()` of the file name, and the modification time the
file system gives the written file. -/
structure Clock where
  now : Int
  nameA : Int
  nameB : Int
  mtime : Int
deriving DecidableEq, Repr

/-- The file name `fmt.Sprintf("%d_%d.json", a, b)`. -/
def fileName (a b : Int) : Bytes := fmtD a ++ 95 :: (fmtD b ++ dotJson)

/-- The method `Enqueue(payload)`.  A `nil` payload is `none`; `marshal` is
`json.Marshal`. -/
def DiskQueue.Enqueue {P : Type} (marshal : P → Except QErr Bytes) (q : DiskQueue) (fs : Dir)
    (clk : Clock) (payload : Option P) : Outcome :=
  match payload with
  | none => ⟨fs, some .payloadRequired⟩
  | some p =>
    match marshal p with
    | .error err => ⟨fs, some err⟩
    | .ok data =>
      match q.enforceLimits fs clk.now (data.length : Int) with
      | ⟨fs1, some err⟩ => ⟨fs1, some err⟩
      | ⟨fs1, none⟩ => osWriteFile fs1 (fileName clk.nameA clk.nameB) data clk.mtime

/-- The listing loops of `DequeueBatch` and `Depth`: names of the entries that
are not directories and end in `.json`. -/
def itemNames (fs : Dir) : List Bytes :=
  ((readDir fs).filter Entry.isItem).map Entry.name

/-- The reading loop of `DequeueBatch`. -/
def readItems (dir : Bytes) (fs : Dir) : List Bytes → Except QErr (List Item)
  | [] => .ok []
  | name :: rest =>
    match osReadFile dir fs (joinPath dir name) with
    | .error err => .error err
    | .ok data =>
      match readItems dir fs rest with
      | .error err => .error err
      | .ok items => .ok (⟨joinPath dir name, data⟩ :: items)

/-- The method `DequeueBatch(limit)`; the directory is not modified. -/
def DiskQueue.DequeueBatch (q : DiskQueue) (fs : Dir) (limit : Int) : Except QErr (List Item) :=
  let limit := if limit ≤ 0 then 100 else limit
  let filenames := sortStrings (itemNames fs)
  let filenames := if (filenames.length : Int) > limit then filenames.take limit.toNat else filenames
  readItems q.dir fs filenames

/-- The method `Ack(path)`; `path` is looked up as `osStat` does, by the form
`filepath.Join(dir, name)` that `DequeueBatch` returns. -/
def DiskQueue.Ack (q : DiskQueue) (fs : Dir) (path : Bytes) : Outcome :=
  if path == [] then ⟨fs, some .pathRequired⟩ else osRemove q.dir fs path

/-- The method `Depth()`; the directory is not modified. -/
def DiskQueue.Depth (_q : DiskQueue) (fs : Dir) : Nat :=
  ((readDir fs).filter Entry.isItem).length

/-! ## Vocabulary of the statements -/

/-- Total size of the stored items (the regular `*.json` files). -/
def storedBytes (fs : Dir) : Int := ((fs.filter Entry.isItem).map Entry.size).sum

/-- An item whose modification time is before `cutoff`: what `pruneOlderThan`
deletes. -/
def Entry.expired (cutoff : Int) (e : Entry) : Bool := e.isItem && decide (e.modTime < cutoff)

/-- What `dirSize` adds for one entry. -/
def Entry.walkBytes (e : Entry) : Int := if e.isDir then (e.below : Int) else e.size

/-- The entry `Enqueue` writes for the serialized payload `data`. -/
def freshEntry (clk : Clock) (data : Bytes) : Entry :=
  { name := fileName clk.nameA clk.nameB, modTime := clk.mtime, data := data }

/-- The choice `oldestFile` makes, on entries instead of paths: `acc` is the
entry whose path and time the loop currently holds. -/
def pickOldest : List Entry → Option Entry → Option Entry
  | [], acc => acc
  | e :: es, acc =>
    if e.isItem then
      match acc with
      | none => pickOldest es (some e)
      | some o => if e.modTime < o.modTime then pickOldest es (some e) else pickOldest es (some o)
    else pickOldest es acc

/-- The stored items as `os.ReadDir` lists them: ascending file name. -/
def items (fs : Dir) : List Entry := (readDir fs).filter Entry.isItem

/-- The `Item` that `DequeueBatch` builds for an entry. -/
def Entry.toItem (dir : Bytes) (e : Entry) : Item := ⟨joinPath dir e.name, e.data⟩

/-- The acknowledgement loop of `flushSpool`, `for _, item := range items
{ _ = spool.Ack(item.Path) }`: every item is acknowledged, errors are dropped. -/
def ackAll (q : DiskQueue) : List Item → Dir → Dir
  | [], fs => fs
  | item :: rest, fs => ackAll q rest (q.Ack fs item.Path).fs

/-- The limit `DequeueBatch` works with: 100 when the argument is not positive. -/
def batchLimit (limit : Int) : Nat := (if limit ≤ 0 then 100 else limit).toNat

/-- A run of `Enqueue` calls, each with its clock readings and payload: the
directory after the last call, `none` as soon as one call returns an error. -/
def enqueueAll {P : Type} (marshal : P → Except QErr Bytes) (q : DiskQueue) :
    List (Clock × P) → Dir → Option Dir
  | [], fs => some fs
  | (clk, p) :: rest, fs =>
    match q.Enqueue marshal fs clk (some p) with
    | ⟨fs1, none⟩ => enqueueAll marshal q rest fs1
    | ⟨_, some _⟩ => none

/-- The serialization of a payload, empty when it does not serialize. -/
def bytesOf {P : Type} (marshal : P → Except QErr Bytes) (p : P) : Bytes :=
  match marshal p with
  | .ok data => data
  | .error _ => []

/-- The files a run of `Enqueue` calls writes, in the order of the calls. -/
def created {P : Type} (marshal : P → Except QErr Bytes) (calls : List (Clock × P)) : List Entry :=
  calls.map (fun c => freshEntry c.1 (bytesOf marshal c.2))

/-- The order of creation on files: by modification time, and by file name
among files of equal modification time. -/
def Entry.createdBefore (a b : Entry) : Prop :=
  a.modTime < b.modTime ∨ (a.modTime = b.modTime ∧ lexLt a.name b.name = true)

instance (a b : Entry) : Decidable (a.createdBefore b) := by
  unfold Entry.createdBefore; infer_instance

/-- Clock readings of successive calls between which the clock does not step
back: the files get pairwise different names, the modification times do not
decrease from call to call, and of two calls whose files get the same
modification time the later one gets the greater file name. -/
def Chronological (clks : List Clock) : Prop :=
  clks.Pairwise (fun a b =>
    fileName a.nameA a.nameB ≠ fileName b.nameA b.nameB
      ∧ (a.mtime < b.mtime
          ∨ (a.mtime = b.mtime
              ∧ lexLt (fileName a.nameA a.nameB) (fileName b.nameA b.nameB) = true)))

instance (clks : List Clock) : Decidable (Chronological clks) := by
  unfold Chronological; infer_instance

/-- A list of items in creation order: names are pairwise different and every
item is created before the items after it. -/
def CreationOrdered (l : List Entry) : Prop :=
  l.Pairwise (fun a b => a.name ≠ b.name ∧ a.createdBefore b)
    ∧ ∀ e ∈ l, e.isItem = true

instance (l : List Entry) : Decidable (CreationOrdered l) := by
  unfold CreationOrdered; infer_instance

/-- Clock readings of a call during which the clock reads `t` throughout. -/
def clockAt (t : Int) : Clock := ⟨t, t, t, t⟩

/-- A file content of 1048576 bytes (1 MiB of blanks). -/
def mebibyte : Bytes := List.replicate 1048576 32

/-! ## Transport helpers -/

/-- The function `gzipPayload(data)`; `gz` is what `gzip.NewWriter` writes for
the whole input. -/
def gzipPayload (gz : Bytes → Bytes) (data : Bytes) : Bytes × String :=
  if data.length < 512 then (data, "") else (gz data, "gzip")

/-- The constant `time.Second`, in nanoseconds. -/
def second : Int := 1000000000

/-- The constant `time.Millisecond`, in nanoseconds. -/
def millisecond : Int := 1000000

/-- The function `BackoffDelay(attempt)`; `r` is the outcome of `rand.Intn(500)`.
The products and the sum are 64-bit. -/
def BackoffDelay (attempt : Int) (r : Fin 500) : Int :=
  let attempt := if attempt ≤ 0 then 1 else attempt
  let base := wrap64 (wrap64 (attempt * attempt) * second)
  let jitter := wrap64 ((r.val : Int) * millisecond)
  wrap64 (base + jitter)

/-- Errors returned by the transport client. -/
inductive TErr where
  | marshal
  | transport
  | requestFailed (detail : Bytes)
  | decode
deriving DecidableEq, Repr

/-- An outgoing HTTP request. -/
structure Request where
  method : String
  path : String
  headers : List (String × String)
  body : Bytes
deriving DecidableEq, Repr

/-- An HTTP response: status code and the body as read by `io.ReadAll`. -/
structure Response where
  status : Int
  body : Bytes
deriving DecidableEq, Repr

/-- The struct `Client` (the base URL is fixed and left out). -/
structure Client where
  apiKey : String
  userAgent : String
deriving DecidableEq, Repr

/-- What one `doJSON` call did: the request handed to the HTTP client (if the
body could be serialized), the Go `error`, and the decoded result. -/
structure Exchange (O : Type) where
  request : Option Request
  err : Option TErr
  out : Option O

/-- The method `doJSON`.  `marshal` is `json.Marshal`, `gz` the gzip
compressor, `roundTrip` is `c.client.Do`, `decode` is the JSON decoder into
`out`; `wantOut` says that `out` is not nil. -/
def Client.doJSON {P O : Type} (c : Client) (marshal : P → Except TErr Bytes) (gz : Bytes → Bytes)
    (roundTrip : Request → Except TErr Response) (decode : Bytes → Except TErr O)
    (method path : String) (payload : P) (wantOut : Bool) (apiKey : String) : Exchange O :=
  match marshal payload with
  | .error err => ⟨none, some err, none⟩
  | .ok body =>
    let compressed := (gzipPayload gz body).1
    let contentEncoding := (gzipPayload gz body).2
    let headers := [("Content-Type", "application/json"), ("User-Agent", c.userAgent)]
      ++ (if contentEncoding != "" then [("Content-Encoding", contentEncoding)] else [])
      ++ (if apiKey != "" then [("X-Agent-Key", apiKey)] else [])
    let req : Request := ⟨method, path, headers, compressed⟩
    match roundTrip req with
    | .error err => ⟨some req, some err, none⟩
    | .ok resp =>
      if resp.status ≥ 400 then ⟨some req, some (.requestFailed resp.body), none⟩
      else if wantOut then
        match decode resp.body with
        | .error err => ⟨some req, some err, none⟩
        | .ok v => ⟨some req, none, some v⟩
      else ⟨some req, none, none⟩

/-- A `map[string]interface{}` of attributes, as key and encoded value. -/
abbrev Attrs := List (Bytes × Bytes)

/-- The struct `schema.Event`; a nil `Attributes` map is `none`, the time is in
nanoseconds since the Unix epoch. -/
structure Event where
  SchemaVersion : Bytes
  EventType : Bytes
  EventID : Bytes
  AgentID : Bytes
  Host : Bytes
  OS : Bytes
  TimestampUTC : Int
  Severity : Bytes
  Attributes : Option Attrs
deriving DecidableEq, Repr

/-- The body `SendEvents` builds for one event. -/
structure EventBody where
  event_type : Bytes
  severity : Bytes
  category : Bytes
  details : Option Attrs
deriving DecidableEq, Repr

/-- The map literal of `SendEvents`; `category` is the string "agent". -/
def eventBody (event : Event) : EventBody :=
  ⟨event.EventType, event.Severity, [97, 103, 101, 110, 116], event.Attributes⟩

/-- What `SendEvents` did: the events `doJSON` was called for, in order, and the
Go `error`. -/
structure SendResult where
  calls : List Event
  err : Option TErr
deriving DecidableEq, Repr

/-- The call `c.doJSON(ctx, POST, "/events", payload, nil, c.apiKey)` of
`SendEvents` for one event, as exchange number `i` of the HTTP client. -/
def Client.sendEvent (c : Client) (marshal : EventBody → Except TErr Bytes) (gz : Bytes → Bytes)
    (roundTrip : Nat → Request → Except TErr Response) (i : Nat) (event : Event) : Option TErr :=
  (c.doJSON marshal gz (roundTrip i) (fun _ => (Except.ok () : Except TErr Unit))
    "POST" "/events" (eventBody event) false c.apiKey).err

/-- The method `SendEvents`, the first call being exchange number `i`. -/
def Client.SendEvents (c : Client) (marshal : EventBody → Except TErr Bytes) (gz : Bytes → Bytes)
    (roundTrip : Nat → Request → Except TErr Response) : Nat → List Event → SendResult
  | _, [] => ⟨[], none⟩
  | i, event :: rest =>
    match c.sendEvent marshal gz roundTrip i event with
    | some err => ⟨[event], some err⟩
    | none =>
      ⟨event :: (Client.SendEvents c marshal gz roundTrip (i + 1) rest).calls,
        (Client.SendEvents c marshal gz roundTrip (i + 1) rest).err⟩

/-! ## The agent: `flushSpool`, `sendInventory`, the run loop, enrollment -/

/-- Errors of the agent's helpers: from the spool, from the transport, the
missing key, or from writing a file of the state directory. -/
inductive AgentErr where
  | spool (e : QErr)
  | transport (e : TErr)
  | keyRequired
  | stateWrite
deriving DecidableEq, Repr

/-- The directory after a helper of the agent ran, the inventory batches it
handed to `client.SendInventory`, in order, and the Go `error`. -/
structure AgentOutcome (S : Type) where
  fs : Dir
  pushed : List (List S)
  err : Option AgentErr

/-- The first loop of `flushSpool`: an item that does not decode is
acknowledged (the error of `Ack` is dropped) and skipped, the others are
collected.  `unmarshal` is `json.Unmarshal` into a snapshot map, `none` when it
returns an error. -/
def flushLoop {S : Type} (unmarshal : Bytes → Option S) (q : DiskQueue) :
    List Item → Dir → List S → Dir × List S
  | [], fs, snapshots => (fs, snapshots)
  | item :: rest, fs, snapshots =>
    match unmarshal item.Data with
    | none => flushLoop unmarshal q rest (q.Ack fs item.Path).fs snapshots
    | some snap => flushLoop unmarshal q rest fs (snapshots ++ [snap])

/-- The function `flushSpool`; `push` is the result of
`client.SendInventory(ctx, agentID, ·)`. -/
def flushSpool {S : Type} (push : List S → Option TErr) (unmarshal : Bytes → Option S)
    (q : DiskQueue) (fs : Dir) : AgentOutcome S :=
  match q.DequeueBatch fs 50 with
  | .error err => ⟨fs, [], some (.spool err)⟩
  | .ok items =>
    if items.length = 0 then ⟨fs, [], none⟩
    else
      let fs1 := (flushLoop unmarshal q items fs []).1
      let snapshots := (flushLoop unmarshal q items fs []).2
      match push snapshots with
      | some err => ⟨fs1, [snapshots], some (.transport err)⟩
      | none => ⟨ackAll q items fs1, [snapshots], none⟩

/-- The loop of `sendInventory` after a failed push: every snapshot is
enqueued, a failure is logged and the loop goes on.  Each snapshot comes with
the clock readings of its `Enqueue` call. -/
def spoolAll {S : Type} (marshal : S → Except QErr Bytes) (q : DiskQueue) :
    List (Clock × S) → Dir → Dir
  | [], fs => fs
  | (clk, snap) :: rest, fs => spoolAll marshal q rest (q.Enqueue marshal fs clk (some snap)).fs

/-- The function `sendInventory` for the snapshots the collector returned. -/
def sendInventory {S : Type} (push : List S → Option TErr) (marshal : S → Except QErr Bytes)
    (q : DiskQueue) (fs : Dir) (snapshots : List (Clock × S)) : AgentOutcome S :=
  match push (snapshots.map Prod.snd) with
  | some err => ⟨spoolAll marshal q snapshots fs, [snapshots.map Prod.snd], some (.transport err)⟩
  | none => ⟨fs, [snapshots.map Prod.snd], none⟩

/-- The four branches of the `select` in the loop of `runCmd`. -/
inductive Branch where
  | shutdown
  | heartbeat
  | inventory
  | flush
deriving DecidableEq, Repr

/-- Which channels of the `select` can be received from when an iteration
starts: `ctx.Done()`, `heartbeatTicker.C`, `inventoryTicker.C`. -/
structure Ready where
  done : Bool
  heartbeat : Bool
  inventory : Bool
deriving DecidableEq, Repr

/-- The `select` statement of `runCmd`: the branches an iteration may take.  Go
picks one of the cases that can proceed, by a uniform pseudo-random choice, and
takes `default` only when none can. -/
def selectable (r : Ready) : List Branch :=
  let ready := (if r.done then [Branch.shutdown] else [])
    ++ (if r.heartbeat then [Branch.heartbeat] else [])
    ++ (if r.inventory then [Branch.inventory] else [])
  if ready = [] then [Branch.flush] else ready

/-- The choice the specification describes: strict priority from top to
bottom. -/
def priorityChoice (r : Ready) : Branch :=
  if r.done then .shutdown
  else if r.heartbeat then .heartbeat
  else if r.inventory then .inventory
  else .flush

/-- The fields of `config.Config` that enrollment reads. -/
structure Config where
  APIKey : Bytes
  EnrollmentKey : Bytes
  ServerAgentID : Bytes
deriving DecidableEq, Repr

/-- The files `api_key` and `server_agent_id` of the state directory: the
content, or `none` when `os.ReadFile` fails. -/
structure StateDir where
  apiKey : Option Bytes
  serverAgentID : Option Bytes
deriving DecidableEq, Repr

/-- The struct `transport.EnrollRequest`. -/
structure EnrollRequest where
  EnrollmentKey : Bytes
  Name : Bytes
  OS : Bytes
  IPAddress : Bytes
  Version : Bytes
deriving DecidableEq, Repr

/-- The struct `transport.EnrollResponse`. -/
structure EnrollResponse where
  AgentID : Int
  APIKey : Bytes
deriving DecidableEq, Repr

/-- What `ensureEnrollment` did: the identifier and error it returns, the state
directory afterwards, the API key the client holds afterwards when it was
set, and the enrollment request when the exchange was made. -/
structure EnrollOutcome where
  id : Bytes
  err : Option AgentErr
  state : StateDir
  clientKey : Option Bytes
  exchange : Option EnrollRequest
deriving DecidableEq, Repr

/-- The block `if stored, err := config.LoadServerAgentID(stateDir); err == nil
&& stored != ""` of `ensureEnrollment`: the stored identifier it returns, `none`
when control falls through to the enrollment. -/
def storedIdentifier (cfg : Config) (st : StateDir) : Option Bytes :=
  match st.serverAgentID with
  | some stored =>
    if stored ≠ [] then
      if cfg.APIKey ≠ [] then some stored
      else if st.apiKey.isSome then some stored
      else none
    else none
  | none => none

/-- The function `config.SaveAPIKey(stateDir, apiKey)`; `fails` says that
`os.MkdirAll` or `os.WriteFile` returns an error, and the file is then taken to
be as it was. -/
def SaveAPIKey (fails : Bool) (st : StateDir) (apiKey : Bytes) : StateDir × Option AgentErr :=
  if fails then (st, some .stateWrite) else (⟨some apiKey, st.serverAgentID⟩, none)

/-- The function `config.SaveServerAgentID(stateDir, agentID)`, with `fails`
as in `SaveAPIKey`. -/
def SaveServerAgentID (fails : Bool) (st : StateDir) (agentID : Bytes) :
    StateDir × Option AgentErr :=
  if fails then (st, some .stateWrite) else (⟨st.apiKey, some agentID⟩, none)

/-- The function `ensureEnrollment`.  `enroll` is `client.Enroll`; `hostname`,
`ip` and `version` are `os.Hostname()`, `firstIP()` and the build version, `os`
is `runtime.GOOS`; `keyFails` and `idFails` say whether writing the file
`api_key`, respectively `server_agent_id`, fails.  The errors of the two writes
are dropped when the configuration supplies credential and identifier, and
returned after an enrollment. -/
def ensureEnrollment (enroll : EnrollRequest → Except TErr EnrollResponse) (cfg : Config)
    (st : StateDir) (keyFails idFails : Bool) (hostname os ip version : Bytes) : EnrollOutcome :=
  if cfg.EnrollmentKey = [] ∧ cfg.APIKey = [] then ⟨[], some .keyRequired, st, none, none⟩
  else if cfg.APIKey ≠ [] ∧ cfg.ServerAgentID ≠ [] then
    let st1 := (SaveAPIKey keyFails st cfg.APIKey).1
    let st2 := (SaveServerAgentID idFails st1 cfg.ServerAgentID).1
    ⟨cfg.ServerAgentID, none, st2, none, none⟩
  else
    match storedIdentifier cfg st with
    | some stored => ⟨stored, none, st, none, none⟩
    | none =>
      let req : EnrollRequest := ⟨cfg.EnrollmentKey, hostname, os, ip, version⟩
      match enroll req with
      | .error err => ⟨[], some (.transport err), st, none, some req⟩
      | .ok resp =>
        match SaveAPIKey keyFails st resp.APIKey with
        | (st1, some err) => ⟨[], some err, st1, some resp.APIKey, some req⟩
        | (st1, none) =>
          match SaveServerAgentID idFails st1 (fmtD resp.AgentID) with
          | (st2, some err) => ⟨[], some err, st2, some resp.APIKey, some req⟩
          | (st2, none) => ⟨fmtD resp.AgentID, none, st2, some resp.APIKey, some req⟩

/-! ## Package `schema` -/

/-- The constant `CurrentSchemaVersion`, "1.0.0". -/
def CurrentSchemaVersion : Bytes := [49, 46, 48, 46, 48]

/-- The zero `time.Time` (January 1 of year 1, 00:00:00 UTC) in nanoseconds
since the Unix epoch. -/
def zeroTime : Int := -62135596800 * 1000000000

/-- The function `Validate`: the message of the error, `none` for `nil`. -/
def Validate (event : Event) : Option String :=
  if event.SchemaVersion = [] then some "schema_version is required"
  else if event.EventType = [] then some "event_type is required"
  else if event.EventID = [] then some "event_id is required"
  else if event.AgentID = [] then some "agent_id is required"
  else if event.Host = [] then some "host is required"
  else if event.OS = [] then some "os is required"
  else if event.TimestampUTC = zeroTime then some "timestamp_utc is required"
  else if event.Attributes = none then some "attributes is required"
  else none

/-- One lower-case hexadecimal digit, as ASCII. -/
def hexDigit (d : Nat) : Nat := if d < 10 then 48 + d else 87 + d

/-- The verb `%x` with two digits per byte, as `fmt` prints a byte slice. -/
def hexBytes : List Nat → Bytes
  | [] => []
  | b :: rest => hexDigit (b / 16 % 16) :: hexDigit (b % 16) :: hexBytes rest

/-- Modelled from the spec: the helper `newUUID` that `schema.NewEvent` calls
is not among the sources of package `schema`; the event `identifier` of the
data model is produced as by the function of the same name in
`config/identity.go`, translated here.  `b` are the 16 bytes of `rand.Read`. -/
def newUUID (b : List Nat) : Bytes :=
  let b := (List.range 16).map (fun i => b.getD i 0 % 256)
  let b := b.set 6 (b.getD 6 0 % 16 + 64)
  let b := b.set 8 (b.getD 8 0 % 64 + 128)
  hexBytes (b.take 4) ++ 45 :: (hexBytes ((b.drop 4).take 2) ++ 45 :: (hexBytes ((b.drop 6).take 2)
    ++ 45 :: (hexBytes ((b.drop 8).take 2) ++ 45 :: hexBytes ((b.drop 10).take 6))))

/-- The function `NewEvent`; `rnd` are the random bytes of `newUUID()` and `now`
is `time.Now().UTC()`.  `Severity` keeps its zero value. -/
def NewEvent (rnd : List Nat) (now : Int) (eventType agentID host osName : Bytes)
    (attributes : Option Attrs) : Event :=
  { SchemaVersion := CurrentSchemaVersion
    EventType := eventType
    EventID := newUUID rnd
    AgentID := agentID
    Host := host
    OS := osName
    TimestampUTC := now
    Severity := []
    Attributes := attributes }

/-- Condition (1) of the bootstrap decision: the configuration supplies both a
credential and a server identifier. -/
def preProvisioned (cfg : Config) : Bool := cfg.APIKey != [] && cfg.ServerAgentID != []

/-- Whether a file of the state directory holds something: it reads and is not
empty. -/
def holds (file : Option Bytes) : Bool :=
  match file with
  | some content => content != []
  | none => false

/-- Condition (2) of the bootstrap decision: the state directory holds a server
identifier and a credential is supplied by the configuration or held in the
state directory. -/
def reusable (cfg : Config) (st : StateDir) : Bool :=
  holds st.serverAgentID && (cfg.APIKey != [] || holds st.apiKey)

/-- The zero value `Event{}`. -/
def zeroEvent : Event := ⟨[], [], [], [], [], [], zeroTime, [], none⟩

/-- The entries behind the batch `flushSpool` dequeues: the first 50 items in
file-name order. -/
def flushBatch (fs : Dir) : List Entry := (items fs).take 50

/-- The snapshots of the entries that decode, in order. -/
def validSnapshots {S : Type} (unmarshal : Bytes → Option S) (l : List Entry) : List S :=
  l.filterMap (fun e => unmarshal e.data)

/-! ## Basic facts about the directory model -/

theorem joinPath_inj (dir a b : Bytes) : joinPath dir a = joinPath dir b ↔ a = b := by
  unfold joinPath
  constructor
  · intro h
    have h1 := List.append_cancel_left h
    exact (List.cons.inj h1).2
  · intro h; rw [h]

theorem joinPath_ne_nil (dir a : Bytes) : joinPath dir a ≠ [] := by
  unfold joinPath; simp

theorem mem_readDir {fs : Dir} {e : Entry} : e ∈ readDir fs ↔ e ∈ fs := by
  unfold readDir; exact List.mem_insertionSort _

theorem readDir_perm (fs : Dir) : (readDir fs).Perm fs := by
  unfold readDir; exact List.perm_insertionSort _ _

theorem WF_readDir {fs : Dir} (h : fs.WF) : Dir.WF (readDir fs) := by
  unfold Dir.WF at *
  exact ((readDir_perm fs).map Entry.name).nodup_iff.mpr h

theorem WF_filter {fs : Dir} (h : fs.WF) (p : Entry → Bool) : Dir.WF (fs.filter p) := by
  unfold Dir.WF at *
  exact h.sublist ((List.filter_sublist fs).map Entry.name)

theorem WF_eq_of_name {fs : Dir} (h : fs.WF) {a b : Entry} (ha : a ∈ fs) (hb : b ∈ fs)
    (hn : a.name = b.name) : a = b := by
  unfold Dir.WF at h
  exact List.inj_on_of_nodup_map h ha hb hn

theorem osStat_of_mem {fs : Dir} (h : fs.WF) (dir : Bytes) {e : Entry} (he : e ∈ fs) :
    osStat dir fs (joinPath dir e.name) = some e := by
  unfold osStat
  induction fs with
  | nil => cases he
  | cons x xs ih =>
    rw [List.find?_cons]
    by_cases hx : x = e
    · subst hx; simp
    · have hne : x.name ≠ e.name := by
        intro hn
        exact hx (WF_eq_of_name h (List.mem_cons_self _ _) he hn)
      have : (joinPath dir x.name == joinPath dir e.name) = false := by
        simp [joinPath_inj, hne]
      rw [this]
      have he2 : e ∈ xs := by
        rcases List.mem_cons.mp he with h1 | h1
        · exact absurd h1.symm hx
        · exact h1
      have hwf : Dir.WF xs := by
        unfold Dir.WF at *
        exact (List.nodup_cons.mp (by simpa using h)).2
      exact ih hwf he2

/-- Removing the path of a regular file of the directory deletes exactly that
entry. -/
theorem osRemove_of_mem {fs : Dir} (h : fs.WF) (dir : Bytes) {e : Entry} (he : e ∈ fs)
    (hd : e.isDir = false) :
    osRemove dir fs (joinPath dir e.name) = ⟨fs.filter (fun x => decide (x ≠ e)), none⟩ := by
  unfold osRemove
  rw [osStat_of_mem h dir he]
  simp only [hd, Bool.false_and]
  simp only [Bool.false_eq_true, if_false]
  congr 1
  apply List.filter_congr
  intro x hx
  by_cases hxe : x = e
  · subst hxe; simp
  · have hne : x.name ≠ e.name := fun hn => hxe (WF_eq_of_name h hx he hn)
    simp [joinPath_inj, hne, hxe]

theorem pruneLoop_eq (dir : Bytes) (cutoff : Int) :
    ∀ (L : List Entry) (cur : Dir), cur.WF → (L.map Entry.name).Nodup → (∀ x ∈ L, x ∈ cur) →
      pruneLoop dir cutoff L cur
        = ⟨cur.filter (fun x => !(decide (x ∈ L) && x.expired cutoff)), none⟩ := by
  intro L
  induction L with
  | nil => intro cur _ _ _; simp [pruneLoop]
  | cons e es ih =>
    intro cur hwf hnd hmem
    have hnd2 : (es.map Entry.name).Nodup := (List.nodup_cons.mp (by simpa using hnd)).2
    have hnotin : e.name ∉ es.map Entry.name := (List.nodup_cons.mp (by simpa using hnd)).1
    have hmem2 : ∀ x ∈ es, x ∈ cur := fun x hx => hmem x (List.mem_cons_of_mem _ hx)
    have hecur : e ∈ cur := hmem e (List.mem_cons_self _ _)
    have hne : ∀ x ∈ es, x ≠ e := by
      intro x hx hxe
      exact hnotin (hxe ▸ List.mem_map_of_mem Entry.name hx)
    unfold pruneLoop
    by_cases hitem : (e.isDir || !hasSuffix e.name dotJson) = true
    · rw [if_pos hitem, ih cur hwf hnd2 hmem2]
      congr 1
      apply List.filter_congr
      intro x _
      have hexp : e.expired cutoff = false := by
        unfold Entry.expired Entry.isItem
        cases hd : e.isDir <;> simp_all
      by_cases hxe : x = e
      · subst hxe; simp [hexp]
      · simp [hxe]
    · rw [if_neg hitem]
      have hd : e.isDir = false := by
        cases hd : e.isDir <;> simp_all
      have hit : e.isItem = true := by
        unfold Entry.isItem
        cases hs : hasSuffix e.name dotJson <;> simp_all
      by_cases hcut : e.modTime < cutoff
      · rw [if_pos hcut, osRemove_of_mem hwf dir hecur hd]
        simp only
        rw [ih _ (WF_filter hwf _) hnd2 (fun x hx => List.mem_filter.mpr ⟨hmem2 x hx, by simpa using hne x hx⟩)]
        rw [List.filter_filter]
        congr 1
        apply List.filter_congr
        intro x _
        by_cases hxe : x = e
        · subst hxe; simp [Entry.expired, hit, hcut]
        · simp [hxe]
      · rw [if_neg hcut, ih cur hwf hnd2 hmem2]
        congr 1
        apply List.filter_congr
        intro x _
        by_cases hxe : x = e
        · subst hxe; simp [Entry.expired, hcut]
        · simp [hxe]

theorem pruneOlderThan_eq (q : DiskQueue) {fs : Dir} (h : fs.WF) (cutoff : Int) :
    q.pruneOlderThan fs cutoff = ⟨fs.filter (fun x => !x.expired cutoff), none⟩ := by
  unfold DiskQueue.pruneOlderThan
  rw [pruneLoop_eq q.dir cutoff (readDir fs) fs h (WF_readDir h) (fun x hx => mem_readDir.mp hx)]
  congr 1
  apply List.filter_congr
  intro x hx
  simp [mem_readDir.mpr hx]

theorem walkBytes_nonneg (e : Entry) : 0 ≤ e.walkBytes := by
  unfold Entry.walkBytes Entry.size
  split <;> omega

theorem dirSize_eq (fs : Dir) : dirSize fs = (fs.map Entry.walkBytes).sum := rfl

theorem dirSize_nil : dirSize [] = 0 := rfl

theorem dirSize_cons (e : Entry) (fs : Dir) : dirSize (e :: fs) = e.walkBytes + dirSize fs := by
  simp [dirSize_eq]

theorem dirSize_append (a b : Dir) : dirSize (a ++ b) = dirSize a + dirSize b := by
  simp [dirSize_eq]

theorem dirSize_nonneg (fs : Dir) : 0 ≤ dirSize fs := by
  induction fs with
  | nil => simp [dirSize_nil]
  | cons e es ih => rw [dirSize_cons]; have := walkBytes_nonneg e; omega

theorem dirSize_filter_le (p : Entry → Bool) (fs : Dir) : dirSize (fs.filter p) ≤ dirSize fs := by
  induction fs with
  | nil => simp
  | cons e es ih =>
    rw [List.filter_cons]
    have := walkBytes_nonneg e
    split
    · rw [dirSize_cons, dirSize_cons]; omega
    · rw [dirSize_cons]; omega

theorem filter_ne_of_not_mem {fs : Dir} {e : Entry} (h : e ∉ fs) :
    fs.filter (fun x => decide (x ≠ e)) = fs := by
  apply List.filter_eq_self.mpr
  intro x hx
  have : x ≠ e := fun hxe => h (hxe ▸ hx)
  simpa using this

theorem dirSize_remove {fs : Dir} (h : fs.Nodup) {e : Entry} (he : e ∈ fs) :
    dirSize (fs.filter (fun x => decide (x ≠ e))) = dirSize fs - e.walkBytes := by
  induction fs with
  | nil => cases he
  | cons x xs ih =>
    have hx : x ∉ xs := (List.nodup_cons.mp h).1
    have hxs : xs.Nodup := (List.nodup_cons.mp h).2
    rw [List.filter_cons]
    by_cases hxe : x = e
    · subst hxe
      simp only [ne_eq, not_true_eq_false, decide_False, Bool.false_eq_true, if_false]
      rw [filter_ne_of_not_mem hx, dirSize_cons]; omega
    · have he2 : e ∈ xs := by
        rcases List.mem_cons.mp he with h1 | h1
        · exact absurd h1.symm hxe
        · exact h1
      simp only [ne_eq, hxe, not_false_eq_true, decide_True, if_true]
      rw [dirSize_cons, dirSize_cons, ih hxs he2]; omega

theorem WF_nodup {fs : Dir} (h : fs.WF) : fs.Nodup := by
  unfold Dir.WF at h
  exact List.Nodup.of_map _ h

theorem storedBytes_le_dirSize (fs : Dir) : storedBytes fs ≤ dirSize fs := by
  unfold storedBytes
  induction fs with
  | nil => simp [dirSize_nil]
  | cons e es ih =>
    rw [List.filter_cons, dirSize_cons]
    by_cases hi : e.isItem = true
    · rw [if_pos hi]
      have hd : e.isDir = false := by
        unfold Entry.isItem at hi
        cases hd : e.isDir <;> simp_all
      simp only [List.map_cons, List.sum_cons]
      have : e.walkBytes = e.size := by simp [Entry.walkBytes, hd]
      omega
    · rw [if_neg hi]
      have := walkBytes_nonneg e
      omega

theorem isItem_isDir {e : Entry} (h : e.isItem = true) : e.isDir = false := by
  unfold Entry.isItem at h
  cases hd : e.isDir <;> simp_all

theorem isItem_walkBytes {e : Entry} (h : e.isItem = true) : e.walkBytes = e.size := by
  simp [Entry.walkBytes, isItem_isDir h]

theorem oldestFileLoop_fst (dir : Bytes) :
    ∀ (L : List Entry) (acc : Option Entry) (t : Int),
      (oldestFileLoop dir L
          (match acc with | none => [] | some o => joinPath dir o.name,
           match acc with | none => t | some o => o.modTime)).1
        = match pickOldest L acc with | none => [] | some o => joinPath dir o.name := by
  intro L
  induction L with
  | nil => intro acc t; cases acc <;> simp [oldestFileLoop, pickOldest]
  | cons e es ih =>
    intro acc t
    unfold oldestFileLoop pickOldest
    by_cases hi : e.isItem = true
    · have hcond : ¬ ((e.isDir || !hasSuffix e.name dotJson) = true) := by
        unfold Entry.isItem at hi
        cases hd : e.isDir <;> cases hs : hasSuffix e.name dotJson <;> simp_all
      rw [if_neg hcond, if_pos hi]
      cases acc with
      | none =>
        simp only [beq_self_eq_true, Bool.true_or, if_true]
        exact ih (some e) t
      | some o =>
        have hne : (joinPath dir o.name == []) = false := by
          simp [joinPath_ne_nil]
        simp only [hne, Bool.false_or, decide_eq_true_eq]
        by_cases hlt : e.modTime < o.modTime
        · rw [if_pos hlt, if_pos hlt]; exact ih (some e) t
        · rw [if_neg hlt, if_neg hlt]; exact ih (some o) t
    · have hcond : (e.isDir || !hasSuffix e.name dotJson) = true := by
        unfold Entry.isItem at hi
        cases hd : e.isDir <;> cases hs : hasSuffix e.name dotJson <;> simp_all
      rw [if_pos hcond, if_neg hi]
      exact ih acc t

theorem oldestFile_eq (q : DiskQueue) (fs : Dir) :
    q.oldestFile fs
      = match pickOldest (readDir fs) none with | none => [] | some o => joinPath q.dir o.name := by
  unfold DiskQueue.oldestFile
  exact oldestFileLoop_fst q.dir (readDir fs) none 0

theorem pickOldest_some (L : List Entry) (o : Entry) : ∃ r, pickOldest L (some o) = some r := by
  induction L generalizing o with
  | nil => exact ⟨o, rfl⟩
  | cons e es ih =>
    unfold pickOldest
    split
    · simp only
      split
      · exact ih e
      · exact ih o
    · exact ih o

theorem pickOldest_eq_none {L : List Entry} :
    pickOldest L none = none ↔ ∀ e ∈ L, e.isItem = false := by
  induction L with
  | nil => simp [pickOldest]
  | cons e es ih =>
    unfold pickOldest
    by_cases hi : e.isItem = true
    · rw [if_pos hi]
      simp only
      obtain ⟨r, hr⟩ := pickOldest_some es e
      rw [hr]
      simp [hi]
    · rw [if_neg hi, ih]
      simp at hi
      simp [hi]

theorem pickOldest_mem {L : List Entry} {acc : Option Entry} {r : Entry}
    (h : pickOldest L acc = some r) : acc = some r ∨ (r ∈ L ∧ r.isItem = true) := by
  induction L generalizing acc with
  | nil => left; simpa [pickOldest] using h
  | cons e es ih =>
    unfold pickOldest at h
    by_cases hi : e.isItem = true
    · rw [if_pos hi] at h
      cases acc with
      | none =>
        simp only at h
        rcases ih h with h1 | h1
        · right; simp at h1; subst h1; exact ⟨List.mem_cons_self _ _, hi⟩
        · right; exact ⟨List.mem_cons_of_mem _ h1.1, h1.2⟩
      | some o =>
        simp only at h
        by_cases hlt : e.modTime < o.modTime
        · rw [if_pos hlt] at h
          rcases ih h with h1 | h1
          · right; simp at h1; subst h1; exact ⟨List.mem_cons_self _ _, hi⟩
          · right; exact ⟨List.mem_cons_of_mem _ h1.1, h1.2⟩
        · rw [if_neg hlt] at h
          rcases ih h with h1 | h1
          · left; exact h1
          · right; exact ⟨List.mem_cons_of_mem _ h1.1, h1.2⟩
    · rw [if_neg hi] at h
      rcases ih h with h1 | h1
      · left; exact h1
      · right; exact ⟨List.mem_cons_of_mem _ h1.1, h1.2⟩

/-- One iteration of the eviction loop, on entries. -/
theorem evictLoop_succ (q : DiskQueue) (incoming : Int) (fuel : Nat) {fs : Dir} (h : fs.WF)
    (total : Int) :
    evictLoop q incoming (fuel + 1) fs total
      = if total + incoming > q.maxBytes then
          match pickOldest (readDir fs) none with
          | none => ⟨fs, some .spoolFull⟩
          | some e => evictLoop q incoming fuel (fs.filter (fun x => decide (x ≠ e))) (total - e.size)
        else ⟨fs, none⟩ := by
  rw [evictLoop]
  by_cases hc : total + incoming > q.maxBytes
  · rw [if_pos hc, if_pos hc]
    simp only
    rw [oldestFile_eq]
    cases hp : pickOldest (readDir fs) none with
    | none => simp
    | some e =>
      have hm := pickOldest_mem hp
      simp at hm
      have he : e ∈ fs := mem_readDir.mp hm.1
      have hne : (joinPath q.dir e.name == []) = false := by simp [joinPath_ne_nil]
      simp only [hne, Bool.false_eq_true, if_false]
      rw [osStat_of_mem h q.dir he, osRemove_of_mem h q.dir he (isItem_isDir hm.2)]
  · rw [if_neg hc, if_neg hc]

theorem evictLoop_fits (q : DiskQueue) (incoming : Int) :
    ∀ (fuel : Nat) (fs : Dir) (total : Int), fs.WF → dirSize fs ≤ total →
      (evictLoop q incoming fuel fs total).err = none →
      dirSize (evictLoop q incoming fuel fs total).fs + incoming ≤ q.maxBytes := by
  intro fuel
  induction fuel with
  | zero => intro fs total _ _ h; simp [evictLoop] at h
  | succ n ih =>
    intro fs total hwf hle h
    rw [evictLoop_succ q incoming n hwf] at h ⊢
    by_cases hc : total + incoming > q.maxBytes
    · rw [if_pos hc] at h ⊢
      cases hp : pickOldest (readDir fs) none with
      | none => rw [hp] at h; simp at h
      | some e =>
        rw [hp] at h
        simp only at h ⊢
        have hm := pickOldest_mem hp
        simp at hm
        have he : e ∈ fs := mem_readDir.mp hm.1
        apply ih _ _ (WF_filter hwf _) _ h
        rw [dirSize_remove (WF_nodup hwf) he, isItem_walkBytes hm.2]
        omega
    · rw [if_neg hc] at h ⊢
      simp only
      omega

theorem enforceLimits_eq (q : DiskQueue) {fs : Dir} (h : fs.WF) (now incoming : Int) :
    q.enforceLimits fs now incoming
      = evictLoop q incoming ((fs.filter (fun x => !x.expired (now - q.retention))).length + 1)
          (fs.filter (fun x => !x.expired (now - q.retention))) (dirSize fs) := by
  unfold DiskQueue.enforceLimits
  simp only [pruneOlderThan_eq q h]

theorem osWriteFile_map_le (name data : Bytes) (mtime : Int) :
    ∀ (fs : Dir), fs.WF →
      dirSize (fs.map (fun x => if x.name == name then ⟨name, mtime, data, false, 0, 0⟩ else x))
        ≤ dirSize fs + (data.length : Int) := by
  intro fs
  induction fs with
  | nil => intro _; simp [dirSize_nil]
  | cons x xs ih =>
    intro hwf
    have hwf2 : Dir.WF xs := by
      unfold Dir.WF at *
      exact (List.nodup_cons.mp (by simpa using hwf)).2
    rw [List.map_cons, dirSize_cons, dirSize_cons]
    have hih := ih hwf2
    by_cases hn : x.name = name
    · have hnot : ∀ y ∈ xs, ¬ (y.name = name) := by
        intro y hy hyn
        have : x.name ∉ xs.map Entry.name := by
          unfold Dir.WF at hwf
          exact (List.nodup_cons.mp (by simpa using hwf)).1
        exact this (hn ▸ hyn ▸ List.mem_map_of_mem Entry.name hy)
      have hmap : xs.map (fun x => if x.name == name then ⟨name, mtime, data, false, 0, 0⟩ else x) = xs := by
        conv_rhs => rw [← List.map_id xs]
        apply List.map_congr_left
        intro y hy
        simp [hnot y hy]
      rw [hmap]
      simp only [hn, beq_self_eq_true, if_true]
      have h0 := walkBytes_nonneg x
      unfold Entry.walkBytes Entry.size at *
      simp only
      split
      · simp_all
      · simp_all; omega
    · have : (x.name == name) = false := by simpa using hn
      simp only [this, Bool.false_eq_true, if_false]
      omega

theorem osWriteFile_le {fs : Dir} (h : fs.WF) (name data : Bytes) (mtime : Int) :
    dirSize (osWriteFile fs name data mtime).fs ≤ dirSize fs + (data.length : Int) := by
  unfold osWriteFile
  split
  · split
    · simp only; have : (0 : Int) ≤ (data.length : Int) := by omega
      omega
    · exact osWriteFile_map_le name data mtime fs h
  · simp only
    rw [dirSize_append, dirSize_cons, dirSize_nil]
    simp [Entry.walkBytes, Entry.size]

theorem evictLoop_WF (q : DiskQueue) (incoming : Int) :
    ∀ (fuel : Nat) (fs : Dir) (total : Int), fs.WF →
      Dir.WF (evictLoop q incoming fuel fs total).fs := by
  intro fuel
  induction fuel with
  | zero => intro fs total h; simpa [evictLoop] using h
  | succ n ih =>
    intro fs total hwf
    rw [evictLoop_succ q incoming n hwf]
    split
    · split
      · exact hwf
      · exact ih _ _ (WF_filter hwf _)
    · exact hwf

/-- C1. Whenever `Enqueue` returns without error, the items stored afterwards,
the newly written one included, take at most `maxBytes` bytes in total; this
holds from every initial directory, also one that is over capacity. -/
theorem Enqueue_within_capacity {P : Type} (marshal : P → Except QErr Bytes) (q : DiskQueue)
    (fs : Dir) (clk : Clock) (payload : Option P) (hwf : fs.WF)
    (hok : (q.Enqueue marshal fs clk payload).err = none) :
    storedBytes (q.Enqueue marshal fs clk payload).fs ≤ q.maxBytes := by
  refine le_trans (storedBytes_le_dirSize _) ?_
  unfold DiskQueue.Enqueue at hok ⊢
  cases payload with
  | none => simp at hok
  | some p =>
    simp only at hok ⊢
    cases hm : marshal p with
    | error e => rw [hm] at hok; simp at hok
    | ok data =>
      rw [hm] at hok
      simp only at hok ⊢
      rw [enforceLimits_eq q hwf] at hok ⊢
      have hfit := evictLoop_fits q (data.length : Int)
        ((fs.filter (fun x => !x.expired (clk.now - q.retention))).length + 1)
        (fs.filter (fun x => !x.expired (clk.now - q.retention))) (dirSize fs)
        (WF_filter hwf _) (dirSize_filter_le _ _)
      have hwf2 := evictLoop_WF q (data.length : Int)
        ((fs.filter (fun x => !x.expired (clk.now - q.retention))).length + 1)
        (fs.filter (fun x => !x.expired (clk.now - q.retention))) (dirSize fs)
        (WF_filter hwf _)
      generalize evictLoop q (data.length : Int)
        ((fs.filter (fun x => !x.expired (clk.now - q.retention))).length + 1)
        (fs.filter (fun x => !x.expired (clk.now - q.retention))) (dirSize fs) = out at *
      obtain ⟨fs1, err1⟩ := out
      cases err1 with
      | some e => simp at hok
      | none =>
        simp only at hok hfit hwf2 ⊢
        have := osWriteFile_le hwf2 (fileName clk.nameA clk.nameB) data clk.mtime
        have := hfit trivial
        omega

/-- A directory that is over capacity (17 bytes stored, capacity 10) admits a
payload of 3 bytes after evicting, and ends within capacity. -/
theorem Enqueue_within_capacity_witness :
    storedBytes
      ((DiskQueue.mk [115] 10 10000).Enqueue (fun (b : Bytes) => Except.ok b)
        [{ name := fileName 5000 5000, modTime := 5000, data := [1, 2, 3, 4, 5, 6, 7, 8] },
         { name := fileName 6000 6000, modTime := 6000, data := [1, 2, 3, 4, 5, 6, 7, 8, 9] }]
        ⟨6500, 6500, 6501, 6502⟩ (some [123, 125, 10])).fs ≤ 10 :=
  Enqueue_within_capacity _ (DiskQueue.mk [115] 10 10000) _ _ _ (by decide) (by decide)

theorem evictLoop_sublist (q : DiskQueue) (incoming : Int) :
    ∀ (fuel : Nat) (fs : Dir) (total : Int), fs.WF →
      (evictLoop q incoming fuel fs total).fs.Sublist fs := by
  intro fuel
  induction fuel with
  | zero => intro fs total _; simp [evictLoop]
  | succ n ih =>
    intro fs total hwf
    rw [evictLoop_succ q incoming n hwf]
    split
    · split
      · exact List.Sublist.refl _
      · exact (ih _ _ (WF_filter hwf _)).trans (List.filter_sublist _)
    · exact List.Sublist.refl _

theorem enforceLimits_sublist (q : DiskQueue) {fs : Dir} (h : fs.WF) (now incoming : Int) :
    (q.enforceLimits fs now incoming).fs.Sublist
      (fs.filter (fun x => !x.expired (now - q.retention))) := by
  rw [enforceLimits_eq q h]
  exact evictLoop_sublist q incoming _ _ _ (WF_filter h _)

theorem find?_name_eq_none {fs : Dir} {name : Bytes} :
    fs.find? (fun e => e.name == name) = none ↔ ∀ x ∈ fs, x.name ≠ name := by
  simp [List.find?_eq_none]

theorem osWriteFile_new {fs : Dir} {name : Bytes} (h : ∀ x ∈ fs, x.name ≠ name) (data : Bytes)
    (mtime : Int) : osWriteFile fs name data mtime = ⟨fs ++ [⟨name, mtime, data, false, 0, 0⟩], none⟩ := by
  unfold osWriteFile
  rw [find?_name_eq_none.mpr h]

theorem mem_osWriteFile {fs : Dir} {name data : Bytes} {mtime : Int} {x : Entry}
    (h : x ∈ (osWriteFile fs name data mtime).fs) :
    x ∈ fs ∨ x = ⟨name, mtime, data, false, 0, 0⟩ := by
  unfold osWriteFile at h
  split at h
  · split at h
    · left; exact h
    · simp only [List.mem_map] at h
      obtain ⟨y, hy, hxy⟩ := h
      split at hxy
      · right; exact hxy.symm
      · left; exact hxy ▸ hy
  · simp only [List.mem_append, List.mem_singleton] at h
    exact h

/-- What `Enqueue` does once the payload is serialized. -/
theorem Enqueue_some {P : Type} (marshal : P → Except QErr Bytes) (q : DiskQueue) (fs : Dir)
    (clk : Clock) {p : P} {data : Bytes} (hm : marshal p = .ok data) :
    q.Enqueue marshal fs clk (some p)
      = match q.enforceLimits fs clk.now (data.length : Int) with
        | ⟨fs1, some err⟩ => ⟨fs1, some err⟩
        | ⟨fs1, none⟩ => osWriteFile fs1 (fileName clk.nameA clk.nameB) data clk.mtime := by
  unfold DiskQueue.Enqueue
  simp only [hm]

/-- C2 (amended). For a payload that is not nil and serializes, an item whose
modification time is before `now - retention` does not survive the call,
whether the call succeeds or fails and whatever the capacity: the only entry
that can bear its file name afterwards is the file this very call writes. -/
theorem Enqueue_sweeps_expired {P : Type} (marshal : P → Except QErr Bytes) (q : DiskQueue)
    (fs : Dir) (clk : Clock) (p : P) (data : Bytes) (e : Entry) (hwf : fs.WF)
    (hm : marshal p = .ok data) (he : e ∈ fs) (hexp : e.expired (clk.now - q.retention) = true) :
    ∀ x ∈ (q.Enqueue marshal fs clk (some p)).fs, x.name = e.name →
      (q.Enqueue marshal fs clk (some p)).err = none ∧ x = freshEntry clk data := by
  have hsub := enforceLimits_sublist q hwf clk.now (data.length : Int)
  have hgone : ∀ x ∈ (q.enforceLimits fs clk.now (data.length : Int)).fs, x.name ≠ e.name := by
    intro x hx hn
    have hx2 := List.mem_filter.mp (hsub.subset hx)
    have : x = e := WF_eq_of_name hwf hx2.1 he hn
    subst this
    simp [hexp] at hx2
  rw [Enqueue_some marshal q fs clk hm]
  generalize q.enforceLimits fs clk.now (data.length : Int) = out at hgone
  obtain ⟨fs1, err1⟩ := out
  simp only at hgone
  cases err1 with
  | some err => intro x hx hn; exact absurd hn (hgone x hx)
  | none =>
    simp only
    intro x hx hn
    rcases mem_osWriteFile hx with h1 | h1
    · exact absurd hn (hgone x h1)
    · subst h1
      simp only at hn
      rw [osWriteFile_new (fun y hy => hn ▸ hgone y hy)]
      exact ⟨rfl, rfl⟩

/-- An item written two hours ago is gone after an enqueue into a queue of one
hour retention: no entry bears its name afterwards. -/
theorem Enqueue_sweeps_expired_witness :
    ((DiskQueue.mk [115] 1048576 hour).Enqueue (fun (b : Bytes) => Except.ok b)
        [{ name := fileName 1762239600000000000 1762239600000000001,
           modTime := 1762239600000000002, data := [123, 125] }]
        ⟨1762246800000000000, 1762246800000000001, 1762246800000000002, 1762246800000000003⟩
        (some [91, 93])).fs.any
      (fun x => decide (x.name = fileName 1762239600000000000 1762239600000000001)) = false := by
  rw [List.any_eq_false]
  intro x hx hname
  have h := Enqueue_sweeps_expired (fun (b : Bytes) => Except.ok b)
    (DiskQueue.mk [115] 1048576 hour)
    [{ name := fileName 1762239600000000000 1762239600000000001,
       modTime := 1762239600000000002, data := [123, 125] }]
    ⟨1762246800000000000, 1762246800000000001, 1762246800000000002, 1762246800000000003⟩
    [91, 93] [91, 93]
    { name := fileName 1762239600000000000 1762239600000000001,
      modTime := 1762239600000000002, data := [123, 125] }
    (by decide) rfl (by decide) (by decide) x hx (of_decide_eq_true hname)
  have hn := of_decide_eq_true hname
  rw [h.2] at hn
  revert hn
  decide

/-- C2 as stated fails: with a nil payload, or with one that does not
serialize, `Enqueue` returns before the retention sweep and an item written two
hours ago stays in a queue of one hour retention. -/
theorem Enqueue_nil_payload_keeps_expired :
    (Entry.expired (1762246800000000000 - (DiskQueue.mk [115] 1048576 hour).retention)
        { name := fileName 1762239600000000000 1762239600000000001,
          modTime := 1762239600000000002, data := [123, 125] } = true)
    ∧ ((DiskQueue.mk [115] 1048576 hour).Enqueue (fun (b : Bytes) => Except.ok b)
        [{ name := fileName 1762239600000000000 1762239600000000001,
           modTime := 1762239600000000002, data := [123, 125] }]
        ⟨1762246800000000000, 1762246800000000001, 1762246800000000002, 1762246800000000003⟩
        none
        = ⟨[{ name := fileName 1762239600000000000 1762239600000000001,
              modTime := 1762239600000000002, data := [123, 125] }], some .payloadRequired⟩)
    ∧ ((DiskQueue.mk [115] 1048576 hour).Enqueue (fun (_ : Bytes) => Except.error QErr.marshal)
        [{ name := fileName 1762239600000000000 1762239600000000001,
           modTime := 1762239600000000002, data := [123, 125] }]
        ⟨1762246800000000000, 1762246800000000001, 1762246800000000002, 1762246800000000003⟩
        (some [91, 93])
        = ⟨[{ name := fileName 1762239600000000000 1762239600000000001,
              modTime := 1762239600000000002, data := [123, 125] }], some .marshal⟩) := by
  refine ⟨by decide, by decide, by decide⟩

/-- The total taken before the retention sweep stays in `total` after it: when
the only stored item is expired and its size plus the incoming size is over
capacity, the call fails on an empty directory. -/
theorem Enqueue_stale_total {P : Type} (marshal : P → Except QErr Bytes) (q : DiskQueue)
    (clk : Clock) (p : P) (data : Bytes) (e : Entry) (hm : marshal p = .ok data)
    (hexp : e.expired (clk.now - q.retention) = true)
    (hbig : e.size + (data.length : Int) > q.maxBytes) :
    q.Enqueue marshal [e] clk (some p) = ⟨[], some .spoolFull⟩ := by
  have hwf : Dir.WF [e] := by simp [Dir.WF]
  have hitem : e.isItem = true := by
    unfold Entry.expired at hexp
    cases h : e.isItem <;> simp_all
  rw [Enqueue_some marshal q [e] clk hm, enforceLimits_eq q hwf]
  have hf : List.filter (fun x => !x.expired (clk.now - q.retention)) [e] = [] := by
    simp [hexp]
  rw [hf]
  have hsize : dirSize [e] = e.size := by
    rw [dirSize_cons, dirSize_nil, isItem_walkBytes hitem]; omega
  rw [hsize]
  have hnil : Dir.WF [] := by simp [Dir.WF]
  rw [List.length_nil, evictLoop_succ q _ 0 hnil, if_pos hbig]
  simp [readDir, pickOldest]

theorem mebibyte_length : mebibyte.length = 1048576 := by
  unfold mebibyte; exact List.length_replicate _ _

/-- C3, the code at a failing input. A queue made by `NewDiskQueue(dir, 1,
time.Hour)` (capacity 1048576 bytes) holds one item of 1048576 bytes written two
hours ago.  Enqueueing the 2-byte payload `{}` deletes the item and then fails
with "spool is full", although the payload fits the capacity and the directory
is empty. -/
theorem Enqueue_full_although_payload_fits :
    NewDiskQueue [115] 1 hour = .ok (DiskQueue.mk [115] 1048576 hour)
    ∧ ((([123, 125] : Bytes).length : Int) ≤ (DiskQueue.mk [115] 1048576 hour).maxBytes)
    ∧ (DiskQueue.mk [115] 1048576 hour).Enqueue (fun (b : Bytes) => Except.ok b)
        [{ name := fileName 1762239600000000000 1762239600000000001,
           modTime := 1762239600000000002, data := mebibyte }]
        ⟨1762246800000000000, 1762246800000000001, 1762246800000000002, 1762246800000000003⟩
        (some [123, 125])
      = ⟨[], some .spoolFull⟩ := by
  refine ⟨rfl, by decide, ?_⟩
  apply Enqueue_stale_total _ _ _ _ [123, 125] _ rfl
  · decide
  · show ((mebibyte.length : Nat) : Int) + 2 > 1048576
    rw [mebibyte_length]; decide

/-! ## File names and the byte-wise order -/

theorem lexLt_irrefl (a : Bytes) : lexLt a a = false := by
  induction a with
  | nil => rfl
  | cons x xs ih => simp [lexLt, ih]

theorem lexLt_append_of_length_eq :
    ∀ (xs ys : Bytes), xs.length = ys.length → lexLt xs ys = true →
      ∀ (r1 r2 : Bytes), lexLt (xs ++ r1) (ys ++ r2) = true := by
  intro xs
  induction xs with
  | nil =>
    intro ys hl h
    cases ys with
    | nil => simp [lexLt] at h
    | cons y ys => simp at hl
  | cons x xs ih =>
    intro ys hl h r1 r2
    cases ys with
    | nil => simp at hl
    | cons y ys =>
      simp only [List.cons_append, lexLt] at h ⊢
      by_cases h1 : x < y
      · simp [h1]
      · by_cases h2 : y < x
        · simp [h1, h2] at h
        · simp only [h1, h2, if_false] at h ⊢
          exact ih ys (by simpa using hl) h r1 r2

theorem decimalAux_eq :
    ∀ (fuel n : Nat) (acc : Bytes), n < fuel → 0 < n →
      decimalAux fuel n acc = (Nat.digits 10 n).reverse.map (fun d => 48 + d) ++ acc := by
  intro fuel
  induction fuel with
  | zero => intro n acc h; omega
  | succ f ih =>
    intro n acc hlt hpos
    unfold decimalAux
    by_cases h10 : n < 10
    · rw [if_pos h10, Nat.digits_of_lt 10 n (by omega) h10]
      simp
    · rw [if_neg h10, ih (n / 10) _ (by omega) (by omega)]
      rw [Nat.digits_def' (by norm_num) hpos]
      simp

theorem decimal_eq {n : Nat} (h : 0 < n) :
    decimal n = (Nat.digits 10 n).reverse.map (fun d => 48 + d) := by
  unfold decimal
  rw [decimalAux_eq (n + 1) n [] (by omega) h]
  simp

/-- Value of a list of decimal digits, most significant first. -/
theorem ofDigits_reverse_cons (x : Nat) (xs : List Nat) :
    Nat.ofDigits 10 (x :: xs).reverse = x * 10 ^ xs.length + Nat.ofDigits 10 xs.reverse := by
  rw [List.reverse_cons, Nat.ofDigits_append, Nat.ofDigits_singleton, List.length_reverse]
  ring

theorem lexLt_of_value_lt :
    ∀ (xs ys : List Nat), xs.length = ys.length → (∀ d ∈ xs, d < 10) → (∀ d ∈ ys, d < 10) →
      Nat.ofDigits 10 xs.reverse < Nat.ofDigits 10 ys.reverse →
      lexLt (xs.map (fun d => 48 + d)) (ys.map (fun d => 48 + d)) = true := by
  intro xs
  induction xs with
  | nil =>
    intro ys hl _ _ h
    cases ys with
    | nil => simp at h
    | cons y ys => simp at hl
  | cons x xs ih =>
    intro ys hl hx hy h
    cases ys with
    | nil => simp at hl
    | cons y ys =>
      have hlen : xs.length = ys.length := by simpa using hl
      rw [ofDigits_reverse_cons, ofDigits_reverse_cons, hlen] at h
      have bx : Nat.ofDigits 10 xs.reverse < 10 ^ xs.length := by
        have := Nat.ofDigits_lt_base_pow_length (b := 10) (l := xs.reverse) (by norm_num)
          (fun d hd => hx d (List.mem_cons_of_mem _ (List.mem_reverse.mp hd)))
        simpa using this
      have by1 : Nat.ofDigits 10 ys.reverse < 10 ^ ys.length := by
        have := Nat.ofDigits_lt_base_pow_length (b := 10) (l := ys.reverse) (by norm_num)
          (fun d hd => hy d (List.mem_cons_of_mem _ (List.mem_reverse.mp hd)))
        simpa using this
      simp only [List.map_cons, lexLt]
      by_cases h1 : x < y
      · have : 48 + x < 48 + y := by omega
        simp [this]
      · by_cases h2 : y < x
        · exfalso
          rw [hlen] at bx
          have : (y + 1) * 10 ^ ys.length ≤ x * 10 ^ ys.length :=
            Nat.mul_le_mul_right _ (by omega)
          have e : (y + 1) * 10 ^ ys.length = y * 10 ^ ys.length + 10 ^ ys.length := by ring
          omega
        · have hxy : x = y := by omega
          subst hxy
          have n1 : ¬ (48 + x < 48 + x) := by omega
          simp only [n1, if_false]
          exact ih ys hlen (fun d hd => hx d (List.mem_cons_of_mem _ hd))
            (fun d hd => hy d (List.mem_cons_of_mem _ hd)) (by omega)

theorem decimal_lexLt {a b : Nat} (ha : 0 < a) (hab : a < b)
    (hl : (Nat.digits 10 a).length = (Nat.digits 10 b).length) :
    lexLt (decimal a) (decimal b) = true := by
  rw [decimal_eq ha, decimal_eq (by omega)]
  apply lexLt_of_value_lt
  · simpa using hl
  · intro d hd; exact Nat.digits_lt_base (by norm_num) (List.mem_reverse.mp hd)
  · intro d hd; exact Nat.digits_lt_base (by norm_num) (List.mem_reverse.mp hd)
  · simpa [Nat.ofDigits_digits] using hab

theorem digits_length_19 {n : Nat} (h1 : 10 ^ 18 ≤ n) (h2 : n < 10 ^ 19) :
    (Nat.digits 10 n).length = 19 := by
  have hn : n ≠ 0 := by
    have : 0 < 10 ^ 18 := by norm_num
    omega
  rw [Nat.digits_len 10 n (by norm_num) hn, Nat.log_eq_of_pow_le_of_lt_pow h1 h2]

theorem fmtD_of_nonneg {t : Int} (h : 0 ≤ t) : fmtD t = decimal t.toNat := by
  unfold fmtD
  rw [if_neg (by omega)]
  congr 1
  omega

theorem length_decimal {n : Nat} (h : 0 < n) : (decimal n).length = (Nat.digits 10 n).length := by
  rw [decimal_eq h]; simp

theorem lexLt_asymm : ∀ (a b : Bytes), lexLt a b = true → lexLt b a = false := by
  intro a
  induction a with
  | nil => intro b _; cases b <;> simp [lexLt]
  | cons x xs ih =>
    intro b h
    cases b with
    | nil => simp [lexLt] at h
    | cons y ys =>
      simp only [lexLt] at h ⊢
      by_cases h1 : x < y
      · have h2 : ¬ (y < x) := by omega
        simp [h1, h2]
      · by_cases h2 : y < x
        · simp [h1, h2] at h
        · simp only [h1, h2, if_false] at h ⊢
          exact ih ys h

theorem lexLt_trans : ∀ (a b c : Bytes), lexLt a b = true → lexLt b c = true → lexLt a c = true := by
  intro a
  induction a with
  | nil =>
    intro b c h1 h2
    cases b with
    | nil => simp [lexLt] at h1
    | cons y ys =>
      cases c with
      | nil => simp [lexLt] at h2
      | cons z zs => simp [lexLt]
  | cons x xs ih =>
    intro b c h1 h2
    cases b with
    | nil => simp [lexLt] at h1
    | cons y ys =>
      cases c with
      | nil => simp [lexLt] at h2
      | cons z zs =>
        simp only [lexLt] at h1 h2 ⊢
        by_cases hxy : x < y
        · by_cases hyz : y < z
          · have : x < z := by omega
            simp [this]
          · by_cases hzy : z < y
            · simp [hyz, hzy] at h2
            · have : x < z := by omega
              simp [this]
        · by_cases hyx : y < x
          · simp [hxy, hyx] at h1
          · simp only [hxy, hyx, if_false] at h1
            have hxy2 : x = y := by omega
            subst hxy2
            by_cases hxz : x < z
            · simp [hxz]
            · by_cases hzx : z < x
              · simp [hxz, hzx] at h2
              · simp only [hxz, hzx, if_false] at h2 ⊢
                exact ih ys zs h1 h2

theorem lexLt_trichotomy : ∀ (a b : Bytes), lexLt a b = true ∨ a = b ∨ lexLt b a = true := by
  intro a
  induction a with
  | nil => intro b; cases b <;> simp [lexLt]
  | cons x xs ih =>
    intro b
    cases b with
    | nil => simp [lexLt]
    | cons y ys =>
      simp only [lexLt]
      by_cases h1 : x < y
      · simp [h1]
      · by_cases h2 : y < x
        · simp [h1, h2]
        · have hxy : x = y := by omega
          subst hxy
          simp only [h1, if_false, List.cons.injEq, true_and]
          exact ih ys

theorem lexLe_total (a b : Bytes) : lexLe a b = true ∨ lexLe b a = true := by
  unfold lexLe
  rcases lexLt_trichotomy a b with h | h | h
  · left; simp [lexLt_asymm a b h]
  · subst h; simp [lexLt_irrefl]
  · right; simp [lexLt_asymm b a h]

theorem lexLe_trans (a b c : Bytes) (h1 : lexLe a b = true) (h2 : lexLe b c = true) :
    lexLe a c = true := by
  unfold lexLe at *
  simp only [Bool.not_eq_true'] at *
  rcases lexLt_trichotomy a b with h | h | h
  · rcases lexLt_trichotomy b c with h' | h' | h'
    · exact lexLt_asymm a c (lexLt_trans a b c h h')
    · subst h'; exact lexLt_asymm a b h
    · rw [h'] at h2; cases h2
  · subst h; exact h2
  · rw [h] at h1; cases h1

theorem lexLe_antisymm (a b : Bytes) (h1 : lexLe a b = true) (h2 : lexLe b a = true) : a = b := by
  unfold lexLe at *
  simp only [Bool.not_eq_true'] at *
  rcases lexLt_trichotomy a b with h | h | h
  · rw [h] at h2; cases h2
  · exact h
  · rw [h] at h1; cases h1

theorem lexLe_of_lexLt {a b : Bytes} (h : lexLt a b = true) : lexLe a b = true := by
  unfold lexLe; simp [lexLt_asymm a b h]

theorem fileName_lexLt_of_digits (t1 t2 b1 b2 : Int) (h0 : 0 < t1) (h12 : t1 < t2)
    (hl : (Nat.digits 10 t1.toNat).length = (Nat.digits 10 t2.toNat).length) :
    lexLt (fileName t1 b1) (fileName t2 b2) = true := by
  unfold fileName
  rw [fmtD_of_nonneg (by omega : 0 ≤ t1), fmtD_of_nonneg (by omega : 0 ≤ t2)]
  apply lexLt_append_of_length_eq
  · rw [length_decimal (by omega), length_decimal (by omega), hl]
  · exact decimal_lexLt (by omega) (by omega) hl

/-- File names of timestamps from 10^18 ns (2001-09-09) to the largest `int64`
are ordered like the timestamps. -/
theorem fileName_lexLt_19 (t1 t2 b1 b2 : Int) (h1 : 10 ^ 18 ≤ t1) (h12 : t1 < t2)
    (h2 : t2 < 2 ^ 63) : lexLt (fileName t1 b1) (fileName t2 b2) = true := by
  apply fileName_lexLt_of_digits t1 t2 b1 b2 (by omega) h12
  have e1 : (10 : Nat) ^ 18 ≤ t1.toNat := by omega
  have e2 : t2.toNat < 10 ^ 19 := by
    have : (2 : Int) ^ 63 < 10 ^ 19 := by norm_num
    omega
  rw [digits_length_19 e1 (by omega), digits_length_19 (by omega) e2]

theorem fileName_lexLt_of_length (t1 t2 b1 b2 : Int) (h0 : 0 < t1) (h12 : t1 < t2)
    (hl : (fmtD t1).length = (fmtD t2).length) :
    lexLt (fileName t1 b1) (fileName t2 b2) = true := by
  apply fileName_lexLt_of_digits t1 t2 b1 b2 h0 h12
  rw [fmtD_of_nonneg (by omega : 0 ≤ t1), fmtD_of_nonneg (by omega : 0 ≤ t2),
    length_decimal (by omega), length_decimal (by omega)] at hl
  exact hl

/-- C5 (amended). For timestamps `0 < t1 < t2` that print with the same number
of decimal digits (every `UnixNano` from 2001-09-09 to the largest `int64` has
19), the file name built for `t1` is byte-wise smaller than the one built for
`t2`, whatever the second timestamp in each name, and the names differ. -/
theorem fileName_strictMono (t1 t2 b1 b2 : Int) (h0 : 0 < t1) (h12 : t1 < t2)
    (hl : (fmtD t1).length = (fmtD t2).length) :
    lexLt (fileName t1 b1) (fileName t2 b2) = true
    ∧ lexLt (fileName t2 b2) (fileName t1 b1) = false
    ∧ fileName t1 b1 ≠ fileName t2 b2 := by
  have h := fileName_lexLt_of_length t1 t2 b1 b2 h0 h12 hl
  refine ⟨h, lexLt_asymm _ _ h, ?_⟩
  intro heq
  rw [heq, lexLt_irrefl] at h
  cases h

/-- Two enqueues one nanosecond apart in November 2025. -/
theorem fileName_strictMono_witness :
    lexLt (fileName 1762246800000000000 1762246800000000007)
        (fileName 1762246800000000001 1762246800000000003) = true
    ∧ lexLt (fileName 1762246800000000001 1762246800000000003)
        (fileName 1762246800000000000 1762246800000000007) = false
    ∧ fileName 1762246800000000000 1762246800000000007
        ≠ fileName 1762246800000000001 1762246800000000003 :=
  fileName_strictMono 1762246800000000000 1762246800000000001 1762246800000000007
    1762246800000000003 (by decide) (by decide) (by decide)

/-- C5 as stated fails where the number of digits grows: the name for
999999999999999999 ns (2001-09-09 01:46:39.999999999 UTC) is byte-wise greater
than the name for the next nanosecond, 10^18. -/
theorem fileName_not_monotone :
    (999999999999999999 : Int) < 1000000000000000000
    ∧ lexLt (fileName 999999999999999999 999999999999999999)
        (fileName 1000000000000000000 1000000000000000000) = false
    ∧ lexLt (fileName 1000000000000000000 1000000000000000000)
        (fileName 999999999999999999 999999999999999999) = true := by
  decide

/-! ## Listing, `DequeueBatch`, `Ack`, `Depth` -/

theorem readDir_sorted (fs : Dir) :
    (readDir fs).Pairwise (fun a b => lexLe a.name b.name = true) := by
  unfold readDir
  haveI : IsTotal Entry (fun a b => lexLe a.name b.name = true) :=
    ⟨fun a b => lexLe_total a.name b.name⟩
  haveI : IsTrans Entry (fun a b => lexLe a.name b.name = true) :=
    ⟨fun a b c => lexLe_trans a.name b.name c.name⟩
  exact List.sorted_insertionSort _ _

theorem items_sorted (fs : Dir) :
    (items fs).Pairwise (fun a b => lexLe a.name b.name = true) := by
  unfold items
  exact (readDir_sorted fs).filter _

theorem items_perm (fs : Dir) : (items fs).Perm (fs.filter Entry.isItem) := by
  unfold items
  exact (readDir_perm fs).filter _

theorem mem_items {fs : Dir} {e : Entry} : e ∈ items fs ↔ e ∈ fs ∧ e.isItem = true := by
  unfold items
  rw [List.mem_filter, mem_readDir]

theorem items_nodup_names {fs : Dir} (h : fs.WF) : ((items fs).map Entry.name).Nodup := by
  have := WF_filter (WF_readDir h) Entry.isItem
  exact this

theorem items_strict {fs : Dir} (h : fs.WF) :
    (items fs).Pairwise (fun a b => lexLt a.name b.name = true) := by
  have hs := items_sorted fs
  have hn : (items fs).Pairwise (fun a b => a.name ≠ b.name) := by
    have := items_nodup_names h
    rw [List.Nodup, List.pairwise_map] at this
    exact this
  refine (hs.and hn).imp ?_
  intro a b hab
  rcases lexLt_trichotomy a.name b.name with h1 | h1 | h1
  · exact h1
  · exact absurd h1 hab.2
  · have := hab.1
    unfold lexLe at this
    rw [h1] at this
    cases this

theorem sortStrings_itemNames (fs : Dir) : sortStrings (itemNames fs) = (items fs).map Entry.name := by
  unfold sortStrings itemNames
  apply List.Sorted.insertionSort_eq
  show List.Pairwise _ _
  rw [List.pairwise_map]
  exact items_sorted fs

theorem osReadFile_of_mem {fs : Dir} (h : fs.WF) (dir : Bytes) {e : Entry} (he : e ∈ fs)
    (hd : e.isDir = false) : osReadFile dir fs (joinPath dir e.name) = .ok e.data := by
  unfold osReadFile
  rw [osStat_of_mem h dir he]
  simp [hd]

theorem readItems_eq {fs : Dir} (h : fs.WF) (dir : Bytes) :
    ∀ (L : List Entry), (∀ e ∈ L, e ∈ fs ∧ e.isItem = true) →
      readItems dir fs (L.map Entry.name) = .ok (L.map (Entry.toItem dir)) := by
  intro L
  induction L with
  | nil => intro _; rfl
  | cons e es ih =>
    intro hL
    have he := hL e (List.mem_cons_self _ _)
    simp only [List.map_cons, readItems]
    rw [osReadFile_of_mem h dir he.1 (isItem_isDir he.2)]
    simp only
    rw [ih (fun x hx => hL x (List.mem_cons_of_mem _ hx))]
    rfl

theorem DequeueBatch_eq (q : DiskQueue) {fs : Dir} (h : fs.WF) (limit : Int) :
    q.DequeueBatch fs limit
      = .ok (((items fs).take (batchLimit limit)).map (Entry.toItem q.dir)) := by
  unfold DiskQueue.DequeueBatch batchLimit
  simp only [sortStrings_itemNames]
  have hpos : (0 : Int) < (if limit ≤ 0 then 100 else limit) := by
    split <;> omega
  generalize (if limit ≤ 0 then (100 : Int) else limit) = lim at hpos
  by_cases hc : (((items fs).map Entry.name).length : Int) > lim
  · rw [if_pos hc, ← List.map_take]
    exact readItems_eq h q.dir _ (fun e he => mem_items.mp (List.mem_of_mem_take he))
  · rw [if_neg hc]
    have hle : (items fs).length ≤ lim.toNat := by
      simp only [List.length_map] at hc
      omega
    rw [List.take_of_length_le hle]
    exact readItems_eq h q.dir _ (fun e he => mem_items.mp he)

theorem Depth_eq (q : DiskQueue) (fs : Dir) : q.Depth fs = (items fs).length := rfl

/-- C6 (amended). For a limit above zero `DequeueBatch` returns, without error
and without touching the directory, the first `min(limit, n)` of the `n` stored
items in ascending byte-wise file-name order, each with its path and its stored
bytes; an empty store gives the empty sequence.  This is oldest first whenever
the file names of the stored items are ordered like their modification times. -/
theorem DequeueBatch_first_by_name (q : DiskQueue) (fs : Dir) (limit : Int) (hwf : fs.WF)
    (hl : 0 < limit) :
    q.DequeueBatch fs limit = .ok (((items fs).take limit.toNat).map (Entry.toItem q.dir))
    ∧ ((items fs).take limit.toNat).length = min limit.toNat (q.Depth fs)
    ∧ (items fs).Perm (fs.filter Entry.isItem)
    ∧ (items fs).Pairwise (fun a b => lexLt a.name b.name = true)
    ∧ ((∀ e ∈ fs, e.isItem = false) → q.DequeueBatch fs limit = .ok [])
    ∧ ((∀ a ∈ fs, ∀ b ∈ fs, lexLt a.name b.name = true → a.modTime ≤ b.modTime) →
        (items fs).Pairwise (fun a b => a.modTime ≤ b.modTime)) := by
  have hb : batchLimit limit = limit.toNat := by
    unfold batchLimit
    rw [if_neg (by omega)]
  have heq := DequeueBatch_eq q hwf limit
  rw [hb] at heq
  refine ⟨heq, ?_, items_perm fs, items_strict hwf, ?_, ?_⟩
  · rw [List.length_take, Depth_eq]
  · intro hnone
    have : items fs = [] := by
      apply List.eq_nil_iff_forall_not_mem.mpr
      intro e he
      have := mem_items.mp he
      rw [hnone e this.1] at this
      cases this.2
    rw [heq, this]
    simp
  · intro hmono
    have hs := items_strict hwf
    rw [List.pairwise_iff_forall_sublist] at hs ⊢
    intro a b hab
    have ha : a ∈ items fs := hab.subset (by simp)
    have hb2 : b ∈ items fs := hab.subset (by simp)
    exact hmono a (mem_items.mp ha).1 b (mem_items.mp hb2).1 (hs hab)

/-- Three stored items and limit 2: the two with the smallest names come back. -/
theorem DequeueBatch_first_by_name_witness :
    (DiskQueue.mk [115] 1048576 hour).DequeueBatch
        [{ name := fileName 1762246800000000002 1762246800000000002,
           modTime := 1762246800000000002, data := [51] },
         { name := fileName 1762246800000000000 1762246800000000000,
           modTime := 1762246800000000000, data := [49] },
         { name := fileName 1762246800000000001 1762246800000000001,
           modTime := 1762246800000000001, data := [50] }] 2
      = .ok [⟨joinPath [115] (fileName 1762246800000000000 1762246800000000000), [49]⟩,
             ⟨joinPath [115] (fileName 1762246800000000001 1762246800000000001), [50]⟩] :=
  (DequeueBatch_first_by_name (DiskQueue.mk [115] 1048576 hour)
    [{ name := fileName 1762246800000000002 1762246800000000002,
       modTime := 1762246800000000002, data := [51] },
     { name := fileName 1762246800000000000 1762246800000000000,
       modTime := 1762246800000000000, data := [49] },
     { name := fileName 1762246800000000001 1762246800000000001,
       modTime := 1762246800000000001, data := [50] }] 2 (by decide) (by decide)).1.trans rfl

/-- C6 as stated fails: after an enqueue at 999999999999999999 ns and a second
one at 10^18 ns into an empty queue, `DequeueBatch(1)` returns the second,
newer item, because its file name is byte-wise smaller. -/
theorem DequeueBatch_newest_first :
    ((DiskQueue.mk [115] 1048576 hour).Enqueue (fun (b : Bytes) => Except.ok b)
        ((DiskQueue.mk [115] 1048576 hour).Enqueue (fun (b : Bytes) => Except.ok b) []
          ⟨999999999999999999, 999999999999999999, 999999999999999999, 999999999999999999⟩
          (some [49])).fs
        ⟨1000000000000000000, 1000000000000000000, 1000000000000000000, 1000000000000000000⟩
        (some [50]))
      = ⟨[{ name := fileName 999999999999999999 999999999999999999,
            modTime := 999999999999999999, data := [49] },
          { name := fileName 1000000000000000000 1000000000000000000,
            modTime := 1000000000000000000, data := [50] }], none⟩
    ∧ (DiskQueue.mk [115] 1048576 hour).DequeueBatch
        [{ name := fileName 999999999999999999 999999999999999999,
           modTime := 999999999999999999, data := [49] },
         { name := fileName 1000000000000000000 1000000000000000000,
           modTime := 1000000000000000000, data := [50] }] 1
      = .ok [⟨joinPath [115] (fileName 1000000000000000000 1000000000000000000), [50]⟩] := by
  refine ⟨by decide, rfl⟩

theorem Ack_of_mem (q : DiskQueue) {fs : Dir} (h : fs.WF) {e : Entry} (he : e ∈ fs)
    (hi : e.isItem = true) :
    q.Ack fs (joinPath q.dir e.name) = ⟨fs.filter (fun x => decide (x ≠ e)), none⟩ := by
  unfold DiskQueue.Ack
  have hne : (joinPath q.dir e.name == []) = false := by simp [joinPath_ne_nil]
  simp only [hne, Bool.false_eq_true, if_false]
  exact osRemove_of_mem h q.dir he (isItem_isDir hi)

theorem osStat_eq_none {dir : Bytes} {fs : Dir} {name : Bytes} (h : ∀ x ∈ fs, x.name ≠ name) :
    osStat dir fs (joinPath dir name) = none := by
  unfold osStat
  rw [List.find?_eq_none]
  intro x hx
  simp [joinPath_inj, h x hx]

/-- C7 (amended). For an item of the store, the first `Ack` of its path removes
exactly that item and returns no error; a second `Ack` of the same path leaves
the store exactly as the first call left it and returns the "not exist" error
of `os.Remove`. -/
theorem Ack_twice (q : DiskQueue) (fs : Dir) (e : Entry) (hwf : fs.WF) (he : e ∈ fs)
    (hi : e.isItem = true) :
    q.Ack fs (joinPath q.dir e.name) = ⟨fs.filter (fun x => decide (x ≠ e)), none⟩
    ∧ e ∉ (q.Ack fs (joinPath q.dir e.name)).fs
    ∧ q.Ack (q.Ack fs (joinPath q.dir e.name)).fs (joinPath q.dir e.name)
        = ⟨(q.Ack fs (joinPath q.dir e.name)).fs, some .notExist⟩ := by
  have h1 := Ack_of_mem q hwf he hi
  refine ⟨h1, ?_, ?_⟩
  · rw [h1]; simp
  · rw [h1]
    simp only
    unfold DiskQueue.Ack
    have hne : (joinPath q.dir e.name == []) = false := by simp [joinPath_ne_nil]
    simp only [hne, Bool.false_eq_true, if_false]
    unfold osRemove
    rw [osStat_eq_none]
    intro x hx hn
    have hx2 := List.mem_filter.mp hx
    have : x = e := WF_eq_of_name hwf hx2.1 he hn
    simp [this] at hx2

/-- Acknowledging the only item of a store twice. -/
theorem Ack_twice_witness :
    (DiskQueue.mk [115] 1048576 hour).Ack
        [{ name := fileName 1762246800000000000 1762246800000000000,
           modTime := 1762246800000000000, data := [49] }]
        (joinPath [115] (fileName 1762246800000000000 1762246800000000000))
      = ⟨[], none⟩ :=
  (Ack_twice (DiskQueue.mk [115] 1048576 hour)
    [{ name := fileName 1762246800000000000 1762246800000000000,
       modTime := 1762246800000000000, data := [49] }]
    { name := fileName 1762246800000000000 1762246800000000000,
      modTime := 1762246800000000000, data := [49] }
    (by decide) (by decide) (by decide)).1.trans (by decide)

/-- C7 as stated fails: the second `Ack` of the same path returns an error. -/
theorem Ack_second_call_errors :
    ((DiskQueue.mk [115] 1048576 hour).Ack
        ((DiskQueue.mk [115] 1048576 hour).Ack
          [{ name := fileName 1762246800000000000 1762246800000000000,
             modTime := 1762246800000000000, data := [49] }]
          (joinPath [115] (fileName 1762246800000000000 1762246800000000000))).fs
        (joinPath [115] (fileName 1762246800000000000 1762246800000000000))).err
      = some .notExist := by
  decide

theorem ackAll_eq (q : DiskQueue) :
    ∀ (L : List Entry) (fs : Dir), fs.WF → L.Nodup → (∀ e ∈ L, e ∈ fs ∧ e.isItem = true) →
      ackAll q (L.map (Entry.toItem q.dir)) fs = fs.filter (fun x => decide (x ∉ L)) := by
  intro L
  induction L with
  | nil => intro fs _ _ _; simp [ackAll]
  | cons e es ih =>
    intro fs hwf hnd hL
    have he := hL e (List.mem_cons_self _ _)
    have hnd2 := (List.nodup_cons.mp hnd).2
    have hnot := (List.nodup_cons.mp hnd).1
    simp only [List.map_cons, ackAll, Entry.toItem]
    rw [Ack_of_mem q hwf he.1 he.2]
    simp only
    have := ih (fs.filter (fun x => decide (x ≠ e))) (WF_filter hwf _) hnd2 (by
      intro x hx
      have hx2 := hL x (List.mem_cons_of_mem _ hx)
      refine ⟨List.mem_filter.mpr ⟨hx2.1, ?_⟩, hx2.2⟩
      have : x ≠ e := fun hxe => hnot (hxe ▸ hx)
      simpa using this)
    simp only [Entry.toItem] at this
    rw [this, List.filter_filter]
    apply List.filter_congr
    intro x _
    by_cases hxe : x = e
    · simp [hxe]
    · simp [hxe]

theorem items_filter_length (fs : Dir) (p : Entry → Bool) :
    (items (fs.filter p)).length = ((items fs).filter p).length := by
  have h1 : (items (fs.filter p)).Perm ((fs.filter p).filter Entry.isItem) := items_perm _
  have h2 : ((items fs).filter p).Perm ((fs.filter Entry.isItem).filter p) := (items_perm fs).filter p
  rw [h1.length_eq, h2.length_eq, List.filter_filter, List.filter_filter]
  congr 1
  apply List.filter_congr
  intro x _
  exact Bool.and_comm _ _

theorem filter_not_mem_take {l : List Entry} (h : l.Nodup) (k : Nat) :
    l.filter (fun x => decide (x ∉ l.take k)) = l.drop k := by
  conv_lhs => rw [← List.take_append_drop k l]
  rw [List.filter_append]
  have h1 : (l.take k).filter (fun x => decide (x ∉ (l.take k ++ l.drop k).take k)) = [] := by
    rw [List.take_append_drop]
    apply List.filter_eq_nil_iff.mpr
    intro x hx
    simp [hx]
  have h2 : (l.drop k).filter (fun x => decide (x ∉ (l.take k ++ l.drop k).take k)) = l.drop k := by
    rw [List.take_append_drop]
    apply List.filter_eq_self.mpr
    intro x hx
    have hdis := List.disjoint_take_drop h (le_refl k)
    have : x ∉ l.take k := fun hx2 => hdis hx2 hx
    simpa using this
  rw [h1, h2]
  rfl

theorem items_nodup {fs : Dir} (h : fs.WF) : (items fs).Nodup :=
  List.Nodup.of_map _ (items_nodup_names h)

/-- C8 (amended). `DequeueBatch(limit)` followed by `Ack` of every returned
item leaves `n - min(limit, n)` items, where `n` is the depth before and a
limit that is not positive counts as 100: the store is emptied exactly when it
held at most `limit` items.  `DequeueBatch` itself leaves the directory, and so
the depth, as it was. -/
theorem DequeueBatch_ackAll_depth (q : DiskQueue) (fs : Dir) (limit : Int) (hwf : fs.WF) :
    q.DequeueBatch fs limit
      = .ok (((items fs).take (batchLimit limit)).map (Entry.toItem q.dir))
    ∧ q.Depth (ackAll q (((items fs).take (batchLimit limit)).map (Entry.toItem q.dir)) fs)
      = q.Depth fs - min (batchLimit limit) (q.Depth fs)
    ∧ (q.Depth (ackAll q (((items fs).take (batchLimit limit)).map (Entry.toItem q.dir)) fs) = 0
        ↔ q.Depth fs ≤ batchLimit limit) := by
  have hdepth : q.Depth (ackAll q (((items fs).take (batchLimit limit)).map (Entry.toItem q.dir)) fs)
      = q.Depth fs - min (batchLimit limit) (q.Depth fs) := by
    rw [ackAll_eq q _ fs hwf ((items_nodup hwf).sublist (List.take_sublist _ _))
      (fun e he => mem_items.mp (List.mem_of_mem_take he))]
    rw [Depth_eq, Depth_eq, items_filter_length, filter_not_mem_take (items_nodup hwf),
      List.length_drop]
    omega
  refine ⟨DequeueBatch_eq q hwf limit, hdepth, ?_⟩
  rw [hdepth]
  omega

/-- Two stored items, a batch of one: one item is left. -/
theorem DequeueBatch_ackAll_depth_witness :
    (DiskQueue.mk [115] 1048576 hour).Depth
        (ackAll (DiskQueue.mk [115] 1048576 hour)
          (((items
            [{ name := fileName 1762246800000000000 1762246800000000000,
               modTime := 1762246800000000000, data := [49] },
             { name := fileName 1762246800000000001 1762246800000000001,
               modTime := 1762246800000000001, data := [50] }]).take (batchLimit 1)).map
            (Entry.toItem [115]))
          [{ name := fileName 1762246800000000000 1762246800000000000,
             modTime := 1762246800000000000, data := [49] },
           { name := fileName 1762246800000000001 1762246800000000001,
             modTime := 1762246800000000001, data := [50] }])
      = 1 :=
  (DequeueBatch_ackAll_depth (DiskQueue.mk [115] 1048576 hour)
    [{ name := fileName 1762246800000000000 1762246800000000000,
       modTime := 1762246800000000000, data := [49] },
     { name := fileName 1762246800000000001 1762246800000000001,
       modTime := 1762246800000000001, data := [50] }] 1 (by decide)).2.1.trans (by decide)

/-- C8 as stated fails: with two stored items, `DequeueBatch(1)` returns one
item, and after its `Ack` the depth is 1, not 0. -/
theorem DequeueBatch_ackAll_not_empty :
    (DiskQueue.mk [115] 1048576 hour).DequeueBatch
        [{ name := fileName 1762246800000000000 1762246800000000000,
           modTime := 1762246800000000000, data := [49] },
         { name := fileName 1762246800000000001 1762246800000000001,
           modTime := 1762246800000000001, data := [50] }] 1
      = .ok [⟨joinPath [115] (fileName 1762246800000000000 1762246800000000000), [49]⟩]
    ∧ (DiskQueue.mk [115] 1048576 hour).Depth
        (ackAll (DiskQueue.mk [115] 1048576 hour)
          [⟨joinPath [115] (fileName 1762246800000000000 1762246800000000000), [49]⟩]
          [{ name := fileName 1762246800000000000 1762246800000000000,
             modTime := 1762246800000000000, data := [49] },
           { name := fileName 1762246800000000001 1762246800000000001,
             modTime := 1762246800000000001, data := [50] }])
      = 1 := by
  refine ⟨rfl, by decide⟩

theorem fileName_hasSuffix (a b : Int) : hasSuffix (fileName a b) dotJson = true := by
  unfold hasSuffix fileName
  rw [List.isSuffixOf_iff_suffix]
  exact ⟨fmtD a ++ 95 :: fmtD b, by simp⟩

theorem freshEntry_isItem (clk : Clock) (data : Bytes) : (freshEntry clk data).isItem = true := by
  unfold Entry.isItem freshEntry
  simp [fileName_hasSuffix]

theorem evictLoop_of_fits (q : DiskQueue) (incoming : Int) (fuel : Nat) (fs : Dir) (total : Int)
    (h : total + incoming ≤ q.maxBytes) :
    evictLoop q incoming (fuel + 1) fs total = ⟨fs, none⟩ := by
  rw [evictLoop, if_neg (by omega)]

/-- An enqueue that finds nothing expired and enough room only adds the file. -/
theorem Enqueue_of_fits {P : Type} (marshal : P → Except QErr Bytes) (q : DiskQueue) {fs : Dir}
    (clk : Clock) {p : P} {data : Bytes} (hwf : fs.WF) (hm : marshal p = .ok data)
    (hnone : ∀ e ∈ fs, e.expired (clk.now - q.retention) = false)
    (hfit : dirSize fs + (data.length : Int) ≤ q.maxBytes) :
    q.Enqueue marshal fs clk (some p)
      = osWriteFile fs (fileName clk.nameA clk.nameB) data clk.mtime := by
  rw [Enqueue_some marshal q fs clk hm, enforceLimits_eq q hwf]
  have hf : fs.filter (fun x => !x.expired (clk.now - q.retention)) = fs := by
    apply List.filter_eq_self.mpr
    intro x hx
    simp [hnone x hx]
  rw [hf, evictLoop_of_fits q _ _ fs _ hfit]

/-- C9. For a payload that serializes to `data` with `data` within capacity,
`Enqueue` on the empty store succeeds and stores one file holding `data`;
`DequeueBatch(1)` then returns exactly one item, whose `Data` is `data` (so any
decoder inverting the serialization gives back the payload), and `Ack` of that
item's `Path` succeeds and empties the store. -/
theorem Enqueue_DequeueBatch_roundtrip {P : Type} (marshal : P → Except QErr Bytes)
    (q : DiskQueue) (clk : Clock) (p : P) (data : Bytes) (hm : marshal p = .ok data)
    (hfit : (data.length : Int) ≤ q.maxBytes) :
    q.Enqueue marshal [] clk (some p) = ⟨[freshEntry clk data], none⟩
    ∧ q.DequeueBatch (q.Enqueue marshal [] clk (some p)).fs 1
        = .ok [⟨joinPath q.dir (fileName clk.nameA clk.nameB), data⟩]
    ∧ q.Ack (q.Enqueue marshal [] clk (some p)).fs (joinPath q.dir (fileName clk.nameA clk.nameB))
        = ⟨[], none⟩
    ∧ ∀ (unmarshal : Bytes → Option P), unmarshal data = some p →
        ∀ its, q.DequeueBatch (q.Enqueue marshal [] clk (some p)).fs 1 = .ok its →
          its.map (fun it => unmarshal it.Data) = [some p] := by
  have hnil : Dir.WF [] := by simp [Dir.WF]
  have h1 : q.Enqueue marshal [] clk (some p) = ⟨[freshEntry clk data], none⟩ := by
    rw [Enqueue_of_fits marshal q clk hnil hm (by simp) (by rw [dirSize_nil]; omega)]
    rfl
  have hwf : Dir.WF [freshEntry clk data] := by simp [Dir.WF]
  have hitems : items [freshEntry clk data] = [freshEntry clk data] := by
    unfold items readDir
    simp [freshEntry_isItem]
  have h2 : q.DequeueBatch [freshEntry clk data] 1
      = .ok [⟨joinPath q.dir (fileName clk.nameA clk.nameB), data⟩] := by
    rw [DequeueBatch_eq q hwf 1, hitems]
    rfl
  refine ⟨h1, ?_, ?_, ?_⟩
  · rw [h1]; exact h2
  · rw [h1]
    have := Ack_of_mem q hwf (List.mem_singleton.mpr rfl) (freshEntry_isItem clk data)
    simp only [freshEntry] at this ⊢
    rw [this]
    simp
  · intro unmarshal hu its hits
    rw [h1] at hits
    simp only at hits
    rw [h2] at hits
    cases hits
    simp [hu]

/-- The unit test `TestDiskQueueEnqueueDequeue`: a queue of 1 MB and one hour,
the payload `{"category":"os"}`. -/
theorem Enqueue_DequeueBatch_roundtrip_witness :
    (DiskQueue.mk [115] 1048576 hour).Enqueue (fun (b : Bytes) => Except.ok b) []
        ⟨1762246800000000000, 1762246800000000001, 1762246800000000002, 1762246800000000003⟩
        (some [123, 34, 99, 97, 116, 101, 103, 111, 114, 121, 34, 58, 34, 111, 115, 34, 125])
      = ⟨[freshEntry
            ⟨1762246800000000000, 1762246800000000001, 1762246800000000002, 1762246800000000003⟩
            [123, 34, 99, 97, 116, 101, 103, 111, 114, 121, 34, 58, 34, 111, 115, 34, 125]],
          none⟩ :=
  (Enqueue_DequeueBatch_roundtrip (fun (b : Bytes) => Except.ok b)
    (DiskQueue.mk [115] 1048576 hour)
    ⟨1762246800000000000, 1762246800000000001, 1762246800000000002, 1762246800000000003⟩
    [123, 34, 99, 97, 116, 101, 103, 111, 114, 121, 34, 58, 34, 111, 115, 34, 125]
    [123, 34, 99, 97, 116, 101, 103, 111, 114, 121, 34, 58, 34, 111, 115, 34, 125]
    rfl (by decide)).1

/-! ## `gzipPayload` -/

/-- C10. `gzipPayload` returns the marker "gzip" exactly for bodies of at least
512 bytes, and the empty marker exactly for bodies of at most 511 bytes; the
body it returns is the input itself below the threshold and the compressed
input from 512 bytes on. -/
theorem gzipPayload_threshold (gz : Bytes → Bytes) (data : Bytes) :
    ((gzipPayload gz data).2 = "gzip" ↔ 512 ≤ data.length)
    ∧ ((gzipPayload gz data).2 = "" ↔ data.length ≤ 511)
    ∧ ((gzipPayload gz data).2 = "" ∨ (gzipPayload gz data).2 = "gzip")
    ∧ (gzipPayload gz data).1 = (if data.length ≤ 511 then data else gz data) := by
  unfold gzipPayload
  by_cases h : data.length < 512
  · rw [if_pos h, if_pos (by omega)]
    refine ⟨?_, ?_, ?_, rfl⟩
    · constructor
      · intro h1; simp at h1
      · intro h1; omega
    · constructor
      · intro _; omega
      · intro _; rfl
    · left; rfl
  · rw [if_neg h, if_neg (by omega)]
    refine ⟨?_, ?_, ?_, rfl⟩
    · constructor
      · intro _; omega
      · intro _; rfl
    · constructor
      · intro h1; simp at h1
      · intro h1; omega
    · right; rfl

/-! ## Oldest-first eviction -/

theorem CreationOrdered.sublist {l l' : List Entry} (h : CreationOrdered l) (hs : l'.Sublist l) :
    CreationOrdered l' :=
  ⟨h.1.sublist hs, fun e he => h.2 e (hs.subset he)⟩

theorem CreationOrdered.drop {l : List Entry} (h : CreationOrdered l) (k : Nat) :
    CreationOrdered (l.drop k) :=
  h.sublist (List.drop_sublist k l)

theorem CreationOrdered.WF {l : List Entry} (h : CreationOrdered l) : Dir.WF l := by
  unfold Dir.WF
  rw [List.Nodup, List.pairwise_map]
  exact h.1.imp (fun hab => hab.1)

theorem createdBefore_le {a b : Entry} (h : a.createdBefore b) : a.modTime ≤ b.modTime := by
  rcases h with h | h
  · exact le_of_lt h
  · exact le_of_eq h.1

theorem readDir_strict {fs : Dir} (h : fs.WF) :
    (readDir fs).Pairwise (fun a b => lexLt a.name b.name = true) := by
  have hs := readDir_sorted fs
  have hn : (readDir fs).Pairwise (fun a b => a.name ≠ b.name) := by
    have := WF_readDir h
    unfold Dir.WF at this
    rw [List.Nodup, List.pairwise_map] at this
    exact this
  refine (hs.and hn).imp ?_
  intro a b hab
  rcases lexLt_trichotomy a.name b.name with h1 | h1 | h1
  · exact h1
  · exact absurd h1 hab.2
  · have := hab.1
    unfold lexLe at this
    simp [h1] at this

theorem pickOldest_keep :
    ∀ (es : List Entry) (e : Entry), (∀ x ∈ es, e.modTime ≤ x.modTime) →
      pickOldest es (some e) = some e := by
  intro es
  induction es with
  | nil => intro e _; rfl
  | cons x xs ih =>
    intro e h
    unfold pickOldest
    have hx := h x (List.mem_cons_self _ _)
    have hxs : ∀ y ∈ xs, e.modTime ≤ y.modTime := fun y hy => h y (List.mem_cons_of_mem _ hy)
    split
    · simp only
      rw [if_neg (by omega)]
      exact ih e hxs
    · exact ih e hxs

theorem pickOldest_append :
    ∀ (A B : List Entry) (acc : Option Entry),
      pickOldest (A ++ B) acc = pickOldest B (pickOldest A acc) := by
  intro A
  induction A with
  | nil => intro B acc; rfl
  | cons e es ih =>
    intro B acc
    rw [List.cons_append]
    by_cases hi : e.isItem = true
    · cases acc with
      | none =>
        simp only [pickOldest, hi, if_true]
        exact ih B _
      | some o =>
        simp only [pickOldest, hi, if_true]
        by_cases hlt : e.modTime < o.modTime
        · simp only [hlt, if_true]; exact ih B _
        · simp only [hlt, if_false]; exact ih B _
    · cases acc with
      | none =>
        simp only [pickOldest, hi, Bool.false_eq_true, if_false]
        exact ih B _
      | some o =>
        simp only [pickOldest, hi, Bool.false_eq_true, if_false]
        exact ih B _

/-- The choice of `oldestFile` in a listing: the item whose modification time is
less than that of everything listed before it and not greater than that of
everything listed after it. -/
theorem pickOldest_first_least {A B : List Entry} {e : Entry} (he : e.isItem = true)
    (hA : ∀ x ∈ A, e.modTime < x.modTime) (hB : ∀ x ∈ B, e.modTime ≤ x.modTime) :
    pickOldest (A ++ e :: B) none = some e := by
  rw [pickOldest_append]
  cases h : pickOldest A none with
  | none =>
    rw [pickOldest, if_pos he]
    exact pickOldest_keep B e hB
  | some a =>
    rcases pickOldest_mem h with h0 | ⟨ha, _⟩
    · cases h0
    · rw [pickOldest, if_pos he, if_pos (hA a ha)]
      exact pickOldest_keep B e hB

/-- Among items in creation order `oldestFile` picks the first. -/
theorem CreationOrdered.pickOldest_cons {e : Entry} {es : List Entry}
    (h : CreationOrdered (e :: es)) : pickOldest (readDir (e :: es)) none = some e := by
  have hmem : e ∈ readDir (e :: es) := mem_readDir.mpr (List.mem_cons_self _ _)
  obtain ⟨A, B, hAB⟩ := List.append_of_mem hmem
  have hs := readDir_strict h.WF
  have hin : ∀ x, x ∈ A ∨ x ∈ B → x ∈ e :: es := by
    intro x hx
    apply mem_readDir.mp
    rw [hAB]
    rcases hx with hx | hx
    · exact List.mem_append_left _ hx
    · exact List.mem_append_right _ (List.mem_cons_of_mem _ hx)
  rw [hAB] at hs ⊢
  have hp := List.pairwise_append.mp hs
  have hcons := List.pairwise_cons.mp h.1
  apply pickOldest_first_least (h.2 e (List.mem_cons_self _ _))
  · intro x hx
    have hlt : lexLt x.name e.name = true := hp.2.2 x hx e (List.mem_cons_self _ _)
    rcases List.mem_cons.mp (hin x (Or.inl hx)) with h1 | h1
    · rw [h1, lexLt_irrefl] at hlt; cases hlt
    · rcases (hcons.1 x h1).2 with h2 | h2
      · exact h2
      · rw [lexLt_asymm _ _ h2.2] at hlt; cases hlt
  · intro x hx
    rcases List.mem_cons.mp (hin x (Or.inr hx)) with h1 | h1
    · rw [h1]
    · exact createdBefore_le (hcons.1 x h1).2

theorem filter_ne_head {e : Entry} {es : List Entry} (h : (e :: es).Nodup) :
    (e :: es).filter (fun x => decide (x ≠ e)) = es := by
  rw [List.filter_cons]
  simp only [ne_eq, not_true_eq_false, decide_False, Bool.false_eq_true, if_false]
  exact filter_ne_of_not_mem (List.nodup_cons.mp h).1

/-- On items in creation order one iteration of the eviction loop deletes the
first one. -/
theorem evictLoop_cons (q : DiskQueue) (incoming : Int) (fuel : Nat) {e : Entry}
    {es : List Entry} (h : CreationOrdered (e :: es)) (total : Int)
    (hover : total + incoming > q.maxBytes) :
    evictLoop q incoming (fuel + 1) (e :: es) total
      = evictLoop q incoming fuel es (total - e.size) := by
  rw [evictLoop_succ q incoming fuel h.WF, if_pos hover, h.pickOldest_cons]
  simp only
  rw [filter_ne_head (WF_nodup h.WF)]

theorem evictLoop_nil (q : DiskQueue) (incoming : Int) (fuel : Nat) (total : Int)
    (hover : total + incoming > q.maxBytes) :
    evictLoop q incoming (fuel + 1) [] total = ⟨[], some .spoolFull⟩ := by
  have hnil : Dir.WF [] := by simp [Dir.WF]
  rw [evictLoop_succ q incoming fuel hnil, if_pos hover]
  rfl

theorem evictLoop_drop (q : DiskQueue) (incoming : Int) :
    ∀ (fuel : Nat) (l : List Entry) (total : Int), CreationOrdered l →
      ∃ j, j ≤ l.length ∧ (evictLoop q incoming fuel l total).fs = l.drop j := by
  intro fuel
  induction fuel with
  | zero => intro l total _; exact ⟨0, Nat.zero_le _, by simp [evictLoop]⟩
  | succ n ih =>
    intro l total h
    by_cases hover : total + incoming > q.maxBytes
    · cases l with
      | nil => exact ⟨0, Nat.zero_le _, by rw [evictLoop_nil q incoming n total hover]; rfl⟩
      | cons e es =>
        rw [evictLoop_cons q incoming n h total hover]
        obtain ⟨j, hj, hdrop⟩ := ih es (total - e.size) (h.sublist (List.sublist_cons_self e es))
        exact ⟨j + 1, by simp; omega, by rw [hdrop]; rfl⟩
    · exact ⟨0, Nat.zero_le _, by rw [evictLoop_of_fits q incoming n l total (by omega)]; rfl⟩

theorem prune_drop (cutoff : Int) :
    ∀ (l : List Entry), CreationOrdered l →
      ∃ j, j ≤ l.length ∧ l.filter (fun x => !x.expired cutoff) = l.drop j := by
  intro l
  induction l with
  | nil => intro _; exact ⟨0, Nat.le_refl _, rfl⟩
  | cons e es ih =>
    intro h
    by_cases hexp : e.expired cutoff = true
    · obtain ⟨j, hj, hdrop⟩ := ih (h.sublist (List.sublist_cons_self e es))
      refine ⟨j + 1, by simp; omega, ?_⟩
      rw [List.filter_cons]
      simp only [hexp, Bool.not_true, Bool.false_eq_true, if_false]
      rw [hdrop]; rfl
    · refine ⟨0, Nat.zero_le _, ?_⟩
      rw [List.drop_zero]
      apply List.filter_eq_self.mpr
      intro x hx
      have hitem : e.isItem = true := h.2 e (List.mem_cons_self _ _)
      have hecut : ¬ (e.modTime < cutoff) := by
        intro hlt
        apply hexp
        simp [Entry.expired, hitem, hlt]
      rcases List.mem_cons.mp hx with hx1 | hx1
      · subst hx1; simpa using hexp
      · have hle := createdBefore_le ((List.pairwise_cons.mp h.1).1 x hx1).2
        have : ¬ (x.modTime < cutoff) := by omega
        simp [Entry.expired, this]

/-- On items in creation order a successful `Enqueue` whose file name is new
drops items from the front and appends the new file, and what is then stored
is within capacity. -/
theorem Enqueue_drop_append {P : Type} (marshal : P → Except QErr Bytes) (q : DiskQueue)
    {l : List Entry} (clk : Clock) {p : P} (h : CreationOrdered l)
    (hnew : ∀ x ∈ l, x.name ≠ fileName clk.nameA clk.nameB)
    (hok : (q.Enqueue marshal l clk (some p)).err = none) :
    ∃ j, j ≤ l.length ∧
      (q.Enqueue marshal l clk (some p)).fs = l.drop j ++ [freshEntry clk (bytesOf marshal p)]
      ∧ dirSize (l.drop j ++ [freshEntry clk (bytesOf marshal p)]) ≤ q.maxBytes := by
  cases hm : marshal p with
  | error err =>
    unfold DiskQueue.Enqueue at hok
    simp [hm] at hok
  | ok data =>
    have hb : bytesOf marshal p = data := by unfold bytesOf; rw [hm]
    rw [hb]
    rw [Enqueue_some marshal q l clk hm, enforceLimits_eq q h.WF] at hok ⊢
    obtain ⟨j1, hj1, hd1⟩ := prune_drop (clk.now - q.retention) l h
    have hle : dirSize (l.drop j1) ≤ dirSize l := by
      rw [← hd1]; exact dirSize_filter_le _ _
    rw [hd1] at hok ⊢
    obtain ⟨j2, hj2, hd2⟩ := evictLoop_drop q (data.length : Int) ((l.drop j1).length + 1)
      (l.drop j1) (dirSize l) (h.drop j1)
    have hfit := evictLoop_fits q (data.length : Int) ((l.drop j1).length + 1)
      (l.drop j1) (dirSize l) (h.drop j1).WF hle
    generalize evictLoop q (data.length : Int) ((l.drop j1).length + 1) (l.drop j1) (dirSize l)
      = out at hok hd2 hfit ⊢
    obtain ⟨fs1, err1⟩ := out
    simp only at hd2
    subst hd2
    cases err1 with
    | some err => simp at hok
    | none =>
      simp only at hfit ⊢
      have hfit2 := hfit trivial
      rw [List.drop_drop] at hfit2
      refine ⟨j1 + j2, ?_, ?_, ?_⟩
      · rw [List.length_drop] at hj2; omega
      · rw [List.drop_drop]
        rw [osWriteFile_new (fun x hx => hnew x (List.mem_of_mem_drop hx))]
        rfl
      · rw [dirSize_append, dirSize_cons, dirSize_nil,
          isItem_walkBytes (freshEntry_isItem clk data)]
        have : (freshEntry clk data).size = (data.length : Int) := rfl
        omega

theorem created_cons {P : Type} (marshal : P → Except QErr Bytes) (c : Clock × P)
    (rest : List (Clock × P)) :
    created marshal (c :: rest) = freshEntry c.1 (bytesOf marshal c.2) :: created marshal rest := rfl

theorem enqueueAll_drop {P : Type} (marshal : P → Except QErr Bytes) (q : DiskQueue) :
    ∀ (calls : List (Clock × P)) (pre : List Entry) (k0 : Nat) (fs' : Dir),
      CreationOrdered (pre ++ created marshal calls) → k0 ≤ pre.length →
      enqueueAll marshal q calls (pre.drop k0) = some fs' →
      ∃ k, k ≤ (pre ++ created marshal calls).length
        ∧ fs' = (pre ++ created marshal calls).drop k
        ∧ (calls ≠ [] → fs' ≠ [] ∧ dirSize fs' ≤ q.maxBytes) := by
  intro calls
  induction calls with
  | nil =>
    intro pre k0 fs' _ hk hrun
    simp only [enqueueAll, Option.some.injEq] at hrun
    refine ⟨k0, ?_, ?_, ?_⟩
    · simp [created]; omega
    · simp [created, hrun]
    · intro hne; exact absurd rfl hne
  | cons c rest ih =>
    intro pre k0 fs' hco hk hrun
    obtain ⟨clk, p⟩ := c
    rw [created_cons] at hco ⊢
    simp only at hco ⊢
    have hpre : CreationOrdered (pre.drop k0) :=
      hco.sublist ((List.drop_sublist k0 pre).trans (List.sublist_append_left _ _))
    have hnew : ∀ x ∈ pre.drop k0, x.name ≠ fileName clk.nameA clk.nameB := by
      intro x hx
      have hx2 : x ∈ pre := List.mem_of_mem_drop hx
      exact ((List.pairwise_append.mp hco.1).2.2 x hx2 (freshEntry clk (bytesOf marshal p))
        (List.mem_cons_self _ _)).1
    unfold enqueueAll at hrun
    cases herr : (q.Enqueue marshal (pre.drop k0) clk (some p)).err with
    | some err =>
      have : q.Enqueue marshal (pre.drop k0) clk (some p)
          = ⟨(q.Enqueue marshal (pre.drop k0) clk (some p)).fs, some err⟩ := by
        rw [← herr]
      rw [this] at hrun
      simp at hrun
    | none =>
      obtain ⟨j, hj, hfs, hsz⟩ := Enqueue_drop_append marshal q clk hpre hnew herr
      have : q.Enqueue marshal (pre.drop k0) clk (some p)
          = ⟨(q.Enqueue marshal (pre.drop k0) clk (some p)).fs, none⟩ := by
        rw [← herr]
      rw [this, hfs] at hrun
      simp only at hrun
      rw [List.length_drop] at hj
      have hdrop : List.drop j (List.drop k0 pre) ++ [freshEntry clk (bytesOf marshal p)]
          = (pre ++ [freshEntry clk (bytesOf marshal p)]).drop (k0 + j) := by
        rw [List.drop_drop, List.drop_append_of_le_length (by omega)]
      have hco2 : CreationOrdered
          ((pre ++ [freshEntry clk (bytesOf marshal p)]) ++ created marshal rest) := by
        rw [List.append_assoc]; exact hco
      have hlast : rest = [] → fs' ≠ [] ∧ dirSize fs' ≤ q.maxBytes := by
        intro hrest
        rw [hrest] at hrun
        simp only [enqueueAll, Option.some.injEq] at hrun
        rw [← hrun]
        exact ⟨by simp, hsz⟩
      rw [hdrop] at hrun
      obtain ⟨k, hk1, hk2, hk3⟩ := ih (pre ++ [freshEntry clk (bytesOf marshal p)]) (k0 + j) fs'
        hco2 (by simp; omega) hrun
      rw [List.append_assoc] at hk1 hk2
      refine ⟨k, hk1, hk2, fun _ => ?_⟩
      by_cases hrest : rest = []
      · exact hlast hrest
      · exact hk3 hrest

theorem created_ordered {P : Type} (marshal : P → Except QErr Bytes) (calls : List (Clock × P))
    (h : Chronological (calls.map Prod.fst)) : CreationOrdered (created marshal calls) := by
  unfold CreationOrdered created
  constructor
  · rw [List.pairwise_map]
    unfold Chronological at h
    rw [List.pairwise_map] at h
    exact h.imp (fun hab => hab)
  · intro e he
    obtain ⟨c, _, hc⟩ := List.mem_map.mp he
    rw [← hc]
    exact freshEntry_isItem _ _

/-- Clock readings whose file-name timestamps are positive, increase from call
to call and print with the same number of digits (19 for every `UnixNano` from
2001-09-09 to the largest `int64`), and whose modification times do not
decrease, are chronological. -/
theorem chronological_of_timestamps (clks : List Clock)
    (h : clks.Pairwise (fun a b =>
      a.nameA < b.nameA ∧ (fmtD a.nameA).length = (fmtD b.nameA).length ∧ a.mtime ≤ b.mtime))
    (hpos : ∀ c ∈ clks, 0 < c.nameA) : Chronological clks := by
  unfold Chronological
  have hr : clks.Pairwise (fun a _ => 0 < a.nameA) := by
    rw [List.pairwise_iff_forall_sublist]
    intro a b hab
    exact hpos a (hab.subset (by simp))
  refine (h.and hr).imp ?_
  intro a b hab
  have hlt := fileName_lexLt_of_length a.nameA b.nameA a.nameB b.nameB hab.2 hab.1.1 hab.1.2.1
  refine ⟨?_, ?_⟩
  · intro heq
    rw [heq, lexLt_irrefl] at hlt
    cases hlt
  · rcases lt_or_eq_of_le hab.1.2.2 with h1 | h1
    · exact Or.inl h1
    · exact Or.inr ⟨h1, hlt⟩

/-- C4 (amended). Take a run of successful `Enqueue` calls into an empty store
between which the clock does not step back: the files get pairwise different
names, the modification times do not decrease from call to call, and of two
files with the same modification time the later written has the greater name.
The store after the last call is a suffix of the written files in creation
order (the order of the calls, which is here the order by modification time
and, among equal times, by file name): the first `k` files are gone and all
later ones are there.  The suffix is not empty, the file written last is always
kept, what is kept is within capacity, and every file that is gone was created
before every file that is left. -/
theorem enqueueAll_oldest_first {P : Type} (marshal : P → Except QErr Bytes) (q : DiskQueue)
    (calls : List (Clock × P)) (fs' : Dir) (hchrono : Chronological (calls.map Prod.fst))
    (hrun : enqueueAll marshal q calls [] = some fs') :
    ∃ k, k ≤ calls.length ∧ (calls ≠ [] → k < calls.length)
      ∧ fs' = (created marshal calls).drop k
      ∧ (calls ≠ [] → storedBytes fs' ≤ q.maxBytes)
      ∧ ∀ x ∈ (created marshal calls).take k, ∀ y ∈ fs', x.createdBefore y := by
  have hco := created_ordered marshal calls hchrono
  obtain ⟨k, hk, hfs, hne⟩ := enqueueAll_drop marshal q calls [] 0 fs' (by simpa using hco)
    (Nat.le_refl _) (by simpa using hrun)
  simp only [List.nil_append] at hk hfs
  have hlen : (created marshal calls).length = calls.length := by simp [created]
  refine ⟨k, by omega, ?_, hfs, ?_, ?_⟩
  · intro hc
    have h1 := (hne hc).1
    rw [hfs] at h1
    have h2 : (List.drop k (created marshal calls)).length ≠ 0 := by
      intro h0; exact h1 (List.length_eq_zero.mp h0)
    rw [List.length_drop] at h2
    omega
  · intro hc
    exact le_trans (storedBytes_le_dirSize _) (hne hc).2
  · intro x hx y hy
    rw [hfs] at hy
    have hp := hco.1
    rw [← List.take_append_drop k (created marshal calls)] at hp
    exact ((List.pairwise_append.mp hp).2.2 x hx y hy).2

theorem dirSize_fresh (clk : Clock) (data : Bytes) (fs : Dir) :
    dirSize (freshEntry clk data :: fs) = (data.length : Int) + dirSize fs := by
  rw [dirSize_cons]
  rfl

theorem size_fresh (clk : Clock) (data : Bytes) :
    (freshEntry clk data).size = (data.length : Int) := rfl

theorem evictLoop_of_fits_pos (q : DiskQueue) (incoming : Int) {fuel : Nat} (hf : 0 < fuel)
    (fs : Dir) (total : Int) (h : total + incoming ≤ q.maxBytes) :
    evictLoop q incoming fuel fs total = ⟨fs, none⟩ := by
  cases fuel with
  | zero => omega
  | succ n => exact evictLoop_of_fits q incoming n fs total h

theorem osWriteFile_fresh {fs : Dir} (clk : Clock) (data : Bytes)
    (h : ∀ x ∈ fs, x.name ≠ fileName clk.nameA clk.nameB) :
    osWriteFile fs (fileName clk.nameA clk.nameB) data clk.mtime
      = ⟨fs ++ [freshEntry clk data], none⟩ :=
  osWriteFile_new h data clk.mtime

/-- With room for the payload and nothing expired, `Enqueue` appends the file. -/
theorem Enqueue_append {P : Type} (marshal : P → Except QErr Bytes) (q : DiskQueue) {fs : Dir}
    (clk : Clock) {p : P} {data : Bytes} (hwf : fs.WF) (hm : marshal p = .ok data)
    (hnone : ∀ e ∈ fs, e.expired (clk.now - q.retention) = false)
    (hfit : dirSize fs + (data.length : Int) ≤ q.maxBytes)
    (hnew : ∀ x ∈ fs, x.name ≠ fileName clk.nameA clk.nameB) :
    q.Enqueue marshal fs clk (some p) = ⟨fs ++ [freshEntry clk data], none⟩ := by
  rw [Enqueue_of_fits marshal q clk hwf hm hnone hfit, osWriteFile_fresh clk data hnew]

/-- With nothing expired and room for the payload once the item `e` is deleted,
where `e` is the item `oldestFile` picks, `Enqueue` deletes `e` and appends the
file. -/
theorem Enqueue_evict_one {P : Type} (marshal : P → Except QErr Bytes) (q : DiskQueue) {fs : Dir}
    (clk : Clock) {p : P} {data : Bytes} (e : Entry) (hwf : fs.WF) (hm : marshal p = .ok data)
    (hnone : ∀ x ∈ fs, x.expired (clk.now - q.retention) = false)
    (hover : dirSize fs + (data.length : Int) > q.maxBytes)
    (hpick : pickOldest (readDir fs) none = some e)
    (hfit : dirSize fs - e.size + (data.length : Int) ≤ q.maxBytes)
    (hnew : ∀ x ∈ fs, x.name ≠ fileName clk.nameA clk.nameB) :
    q.Enqueue marshal fs clk (some p)
      = ⟨fs.filter (fun x => decide (x ≠ e)) ++ [freshEntry clk data], none⟩ := by
  rw [Enqueue_some marshal q fs clk hm, enforceLimits_eq q hwf]
  have hf : fs.filter (fun x => !x.expired (clk.now - q.retention)) = fs := by
    apply List.filter_eq_self.mpr
    intro x hx
    simp [hnone x hx]
  rw [hf, evictLoop_succ q _ _ hwf, if_pos hover, hpick]
  simp only
  have hpos : 0 < fs.length := by
    have := pickOldest_mem hpick
    simp at this
    exact List.length_pos_of_mem (mem_readDir.mp this.1)
  rw [evictLoop_of_fits_pos q _ hpos _ _ hfit]
  simp only
  rw [osWriteFile_fresh clk data (fun x hx => hnew x (List.mem_filter.mp hx).1)]

theorem filter_ne_pair_fst {a b : Entry} (h : a ≠ b) :
    [a, b].filter (fun x => decide (x ≠ a)) = [b] := by
  simp [h, Ne.symm h]

theorem filter_ne_pair_snd {a b : Entry} (h : a ≠ b) :
    [a, b].filter (fun x => decide (x ≠ b)) = [a] := by
  simp [h]

theorem ne_of_name_ne {a b : Entry} (h : a.name ≠ b.name) : a ≠ b :=
  fun hab => h (congrArg Entry.name hab)

/-! ### The scenario: three payloads of 1 MiB, capacity 2 MiB, retention one hour -/

theorem scenario_first :
    (DiskQueue.mk [115] 2097152 hour).Enqueue (fun (b : Bytes) => Except.ok b) []
        (clockAt 1762246800000000000) (some mebibyte)
      = ⟨[freshEntry (clockAt 1762246800000000000) mebibyte], none⟩ :=
  Enqueue_append _ _ _ (by decide) rfl (by simp)
    (by rw [dirSize_nil, mebibyte_length]; decide) (by simp)

theorem scenario_second :
    (DiskQueue.mk [115] 2097152 hour).Enqueue (fun (b : Bytes) => Except.ok b)
        [freshEntry (clockAt 1762246800000000000) mebibyte]
        (clockAt 1762246801000000000) (some mebibyte)
      = ⟨[freshEntry (clockAt 1762246800000000000) mebibyte,
          freshEntry (clockAt 1762246801000000000) mebibyte], none⟩ :=
  Enqueue_append _ _ _ (by decide) rfl
    (by intro e he; rw [List.mem_singleton.mp he]; decide)
    (by rw [dirSize_fresh, dirSize_nil, mebibyte_length]; decide)
    (by intro x hx; rw [List.mem_singleton.mp hx]; decide)

theorem scenario_third :
    (DiskQueue.mk [115] 2097152 hour).Enqueue (fun (b : Bytes) => Except.ok b)
        [freshEntry (clockAt 1762246800000000000) mebibyte,
         freshEntry (clockAt 1762246801000000000) mebibyte]
        (clockAt 1762246802000000000) (some mebibyte)
      = ⟨[freshEntry (clockAt 1762246801000000000) mebibyte,
          freshEntry (clockAt 1762246802000000000) mebibyte], none⟩ := by
  rw [Enqueue_evict_one _ _ _ (freshEntry (clockAt 1762246800000000000) mebibyte) (by decide) rfl
    (by
      intro x hx
      simp only [List.mem_cons, List.mem_singleton, List.not_mem_nil, or_false] at hx
      rcases hx with h | h <;> (rw [h]; decide))
    (by rw [dirSize_fresh, dirSize_fresh, dirSize_nil, mebibyte_length]; decide)
    (CreationOrdered.pickOldest_cons (by decide))
    (by rw [dirSize_fresh, dirSize_fresh, dirSize_nil, size_fresh, mebibyte_length]; decide)
    (by
      intro x hx
      simp only [List.mem_cons, List.mem_singleton, List.not_mem_nil, or_false] at hx
      rcases hx with h | h <;> (rw [h]; decide))]
  rw [filter_ne_pair_fst (ne_of_name_ne (by decide))]
  rfl

theorem scenario_run :
    enqueueAll (fun (b : Bytes) => Except.ok b) (DiskQueue.mk [115] 2097152 hour)
        [(clockAt 1762246800000000000, mebibyte), (clockAt 1762246801000000000, mebibyte),
         (clockAt 1762246802000000000, mebibyte)] []
      = some [freshEntry (clockAt 1762246801000000000) mebibyte,
              freshEntry (clockAt 1762246802000000000) mebibyte] := by
  rw [enqueueAll, scenario_first]
  simp only
  rw [enqueueAll, scenario_second]
  simp only
  rw [enqueueAll, scenario_third]
  simp only
  rw [enqueueAll]

/-- The scenario of the specification: three payloads of 1 MiB each, one second
apart, into a queue made by `NewDiskQueue(dir, 2, time.Hour)`.  The run
succeeds, the depth afterwards is 2, and the files left are the second and the
third, a suffix of the three written that is within the 2097152 bytes. -/
theorem enqueueAll_oldest_first_witness :
    NewDiskQueue [115] 2 hour = .ok (DiskQueue.mk [115] 2097152 hour)
    ∧ enqueueAll (fun (b : Bytes) => Except.ok b) (DiskQueue.mk [115] 2097152 hour)
        [(clockAt 1762246800000000000, mebibyte), (clockAt 1762246801000000000, mebibyte),
         (clockAt 1762246802000000000, mebibyte)] []
      = some [freshEntry (clockAt 1762246801000000000) mebibyte,
              freshEntry (clockAt 1762246802000000000) mebibyte]
    ∧ (DiskQueue.mk [115] 2097152 hour).Depth
        [freshEntry (clockAt 1762246801000000000) mebibyte,
         freshEntry (clockAt 1762246802000000000) mebibyte] = 2
    ∧ ∃ k, k ≤ 3
      ∧ ([(clockAt 1762246800000000000, mebibyte), (clockAt 1762246801000000000, mebibyte),
          (clockAt 1762246802000000000, mebibyte)] ≠ [] → k < 3)
      ∧ [freshEntry (clockAt 1762246801000000000) mebibyte,
         freshEntry (clockAt 1762246802000000000) mebibyte]
        = (created (fun (b : Bytes) => Except.ok b)
            [(clockAt 1762246800000000000, mebibyte), (clockAt 1762246801000000000, mebibyte),
             (clockAt 1762246802000000000, mebibyte)]).drop k
      ∧ ([(clockAt 1762246800000000000, mebibyte), (clockAt 1762246801000000000, mebibyte),
          (clockAt 1762246802000000000, mebibyte)] ≠ [] →
          storedBytes [freshEntry (clockAt 1762246801000000000) mebibyte,
            freshEntry (clockAt 1762246802000000000) mebibyte] ≤ 2097152)
      ∧ ∀ x ∈ (created (fun (b : Bytes) => Except.ok b)
            [(clockAt 1762246800000000000, mebibyte), (clockAt 1762246801000000000, mebibyte),
             (clockAt 1762246802000000000, mebibyte)]).take k,
          ∀ y ∈ [freshEntry (clockAt 1762246801000000000) mebibyte,
                 freshEntry (clockAt 1762246802000000000) mebibyte],
            x.createdBefore y :=
  ⟨rfl, scenario_run, by decide,
    enqueueAll_oldest_first (fun (b : Bytes) => Except.ok b) (DiskQueue.mk [115] 2097152 hour)
      [(clockAt 1762246800000000000, mebibyte), (clockAt 1762246801000000000, mebibyte),
       (clockAt 1762246802000000000, mebibyte)] _ (by decide) scenario_run⟩

/-! ### Eviction after the clock stepped back -/

theorem stepback_second :
    (DiskQueue.mk [115] 2097152 hour).Enqueue (fun (b : Bytes) => Except.ok b)
        [freshEntry (clockAt 1762246802000000000) mebibyte]
        (clockAt 1762246801000000000) (some mebibyte)
      = ⟨[freshEntry (clockAt 1762246802000000000) mebibyte,
          freshEntry (clockAt 1762246801000000000) mebibyte], none⟩ :=
  Enqueue_append _ _ _ (by decide) rfl
    (by intro e he; rw [List.mem_singleton.mp he]; decide)
    (by rw [dirSize_fresh, dirSize_nil, mebibyte_length]; decide)
    (by intro x hx; rw [List.mem_singleton.mp hx]; decide)

theorem stepback_third :
    (DiskQueue.mk [115] 2097152 hour).Enqueue (fun (b : Bytes) => Except.ok b)
        [freshEntry (clockAt 1762246802000000000) mebibyte,
         freshEntry (clockAt 1762246801000000000) mebibyte]
        (clockAt 1762246800000000000) (some mebibyte)
      = ⟨[freshEntry (clockAt 1762246802000000000) mebibyte,
          freshEntry (clockAt 1762246800000000000) mebibyte], none⟩ := by
  rw [Enqueue_evict_one _ _ _ (freshEntry (clockAt 1762246801000000000) mebibyte) (by decide) rfl
    (by
      intro x hx
      simp only [List.mem_cons, List.mem_singleton, List.not_mem_nil, or_false] at hx
      rcases hx with h | h <;> (rw [h]; decide))
    (by rw [dirSize_fresh, dirSize_fresh, dirSize_nil, mebibyte_length]; decide)
    (by rfl)
    (by rw [dirSize_fresh, dirSize_fresh, dirSize_nil, size_fresh, mebibyte_length]; decide)
    (by
      intro x hx
      simp only [List.mem_cons, List.mem_singleton, List.not_mem_nil, or_false] at hx
      rcases hx with h | h <;> (rw [h]; decide))]
  rw [filter_ne_pair_snd (ne_of_name_ne (by decide))]
  rfl

/-- C4 as stated fails. A queue made by `NewDiskQueue(dir, 2, time.Hour)` takes
three payloads of 1 MiB while the wall clock is set back by a second before the
second call and again before the third, so that the files carry the
modification times 1762246802, 1762246801 and 1762246800 s.  All three calls
succeed.  The third call evicts the second file, the one with the least
modification time in the directory, and then writes a file that is older
still.  What is left is the first and the third file: not a suffix of the three
in the order of the calls, and not a suffix in the order of the modification
times (third, second, first) either, the third file that is left being older
than the second that was evicted. -/
theorem eviction_after_clock_step_back :
    enqueueAll (fun (b : Bytes) => Except.ok b) (DiskQueue.mk [115] 2097152 hour)
        [(clockAt 1762246802000000000, mebibyte), (clockAt 1762246801000000000, mebibyte),
         (clockAt 1762246800000000000, mebibyte)] []
      = some [freshEntry (clockAt 1762246802000000000) mebibyte,
              freshEntry (clockAt 1762246800000000000) mebibyte]
    ∧ (¬ ∃ k, [freshEntry (clockAt 1762246802000000000) mebibyte,
               freshEntry (clockAt 1762246800000000000) mebibyte]
          = (created (fun (b : Bytes) => Except.ok b)
              [(clockAt 1762246802000000000, mebibyte), (clockAt 1762246801000000000, mebibyte),
               (clockAt 1762246800000000000, mebibyte)]).drop k)
    ∧ (freshEntry (clockAt 1762246800000000000) mebibyte).modTime
        < (freshEntry (clockAt 1762246801000000000) mebibyte).modTime
    ∧ (freshEntry (clockAt 1762246801000000000) mebibyte).modTime
        < (freshEntry (clockAt 1762246802000000000) mebibyte).modTime
    ∧ (¬ ∃ k, List.Perm
          [freshEntry (clockAt 1762246802000000000) mebibyte,
           freshEntry (clockAt 1762246800000000000) mebibyte]
          ([freshEntry (clockAt 1762246800000000000) mebibyte,
            freshEntry (clockAt 1762246801000000000) mebibyte,
            freshEntry (clockAt 1762246802000000000) mebibyte].drop k)) := by
  refine ⟨?_, ?_, by decide, by decide, ?_⟩
  · rw [enqueueAll, Enqueue_append (fun (b : Bytes) => Except.ok b)
      (DiskQueue.mk [115] 2097152 hour) (clockAt 1762246802000000000) (by decide) rfl (by simp)
      (by rw [dirSize_nil, mebibyte_length]; decide) (by simp)]
    simp only [List.nil_append]
    rw [enqueueAll, stepback_second]
    simp only
    rw [enqueueAll, stepback_third]
    simp only
    rw [enqueueAll]
  · rintro ⟨k, hk⟩
    have hn := congrArg (List.map Entry.name) hk
    have hlen := congrArg List.length hk
    simp only [created, List.map_cons, List.map_nil, List.length_drop, List.length_cons,
      List.length_nil] at hlen
    have hk1 : k = 1 := by omega
    subst hk1
    revert hn
    decide
  · rintro ⟨k, hk⟩
    have hlen := hk.length_eq
    simp only [List.length_drop, List.length_cons, List.length_nil] at hlen
    have hk1 : k = 1 := by omega
    subst hk1
    have hmem := hk.subset (List.mem_cons_of_mem _ (List.mem_cons_self _ _))
    rcases List.mem_cons.mp hmem with h | h
    · have hn := congrArg Entry.name h
      revert hn
      decide
    · have hn := congrArg Entry.name (List.mem_singleton.mp h)
      revert hn
      decide

/-! ### A tie of modification times where the file names grow by a digit -/

theorem filter_ne_singleton (a : Entry) : [a].filter (fun x => decide (x ≠ a)) = [] := by
  simp

theorem tie_first :
    (DiskQueue.mk [115] 1048576 hour).Enqueue (fun (b : Bytes) => Except.ok b) []
        ⟨999999999999999999, 999999999999999999, 999999999999999999, 999999999996000000⟩
        (some mebibyte)
      = ⟨[freshEntry
            ⟨999999999999999999, 999999999999999999, 999999999999999999, 999999999996000000⟩
            mebibyte], none⟩ :=
  Enqueue_append _ _ _ (by decide) rfl (by simp)
    (by rw [dirSize_nil, mebibyte_length]; decide) (by simp)

theorem tie_second :
    (DiskQueue.mk [115] 1048576 hour).Enqueue (fun (b : Bytes) => Except.ok b)
        [freshEntry
          ⟨999999999999999999, 999999999999999999, 999999999999999999, 999999999996000000⟩
          mebibyte]
        ⟨1000000000000000000, 1000000000000000000, 1000000000000000000, 999999999996000000⟩
        (some mebibyte)
      = ⟨[freshEntry
            ⟨1000000000000000000, 1000000000000000000, 1000000000000000000, 999999999996000000⟩
            mebibyte], none⟩ := by
  rw [Enqueue_evict_one _ _ _
    (freshEntry
      ⟨999999999999999999, 999999999999999999, 999999999999999999, 999999999996000000⟩
      mebibyte) (by decide) rfl
    (by intro x hx; rw [List.mem_singleton.mp hx]; decide)
    (by rw [dirSize_fresh, dirSize_nil, mebibyte_length]; decide)
    (by rfl)
    (by rw [dirSize_fresh, dirSize_nil, size_fresh, mebibyte_length]; decide)
    (by intro x hx; rw [List.mem_singleton.mp hx]; decide)]
  rw [filter_ne_singleton]
  rfl

/-- Why files of equal modification time must get increasing names. A queue of
1 MiB capacity takes two payloads of 1 MiB, the first at 999999999999999999 ns,
the second one nanosecond later at 10^18 ns, both files stamped with the same
modification time by the file system.  The second call evicts the first file and
leaves the second, whose name is byte-wise the smaller: with the tie broken by
file name the file that is left counts as created before the one evicted. -/
theorem eviction_tie_at_digit_boundary :
    enqueueAll (fun (b : Bytes) => Except.ok b) (DiskQueue.mk [115] 1048576 hour)
        [((⟨999999999999999999, 999999999999999999, 999999999999999999,
            999999999996000000⟩ : Clock), mebibyte),
         ((⟨1000000000000000000, 1000000000000000000, 1000000000000000000,
            999999999996000000⟩ : Clock), mebibyte)] []
      = some [freshEntry
                ⟨1000000000000000000, 1000000000000000000, 1000000000000000000,
                  999999999996000000⟩ mebibyte]
    ∧ (freshEntry
          ⟨1000000000000000000, 1000000000000000000, 1000000000000000000, 999999999996000000⟩
          mebibyte).createdBefore
        (freshEntry
          ⟨999999999999999999, 999999999999999999, 999999999999999999, 999999999996000000⟩
          mebibyte) := by
  refine ⟨?_, by decide⟩
  rw [enqueueAll, tie_first]
  simp only
  rw [enqueueAll, tie_second]
  simp only
  rw [enqueueAll]

/-! ## The fuel of the eviction loop is enough -/

theorem length_filter_ne_lt {fs : Dir} {e : Entry} (he : e ∈ fs) :
    (fs.filter (fun x => decide (x ≠ e))).length < fs.length := by
  rw [List.length_filter_lt_length_iff_exists]
  exact ⟨e, he, by simp⟩

/-- With more fuel than entries the eviction loop ends as the Go loop does: with
no error, or with "spool is full" on a directory without items and still over
the limit. -/
theorem evictLoop_terminates (q : DiskQueue) (incoming : Int) :
    ∀ (fuel : Nat) (fs : Dir) (total : Int), fs.WF → fs.length < fuel →
      (evictLoop q incoming fuel fs total).err = none
      ∨ ((evictLoop q incoming fuel fs total).err = some .spoolFull
          ∧ ∀ e ∈ (evictLoop q incoming fuel fs total).fs, e.isItem = false) := by
  intro fuel
  induction fuel with
  | zero => intro fs total _ h; omega
  | succ n ih =>
    intro fs total hwf hlen
    rw [evictLoop_succ q incoming n hwf]
    by_cases hc : total + incoming > q.maxBytes
    · rw [if_pos hc]
      cases hp : pickOldest (readDir fs) none with
      | none =>
        right
        refine ⟨rfl, ?_⟩
        intro e he
        exact pickOldest_eq_none.mp hp e (mem_readDir.mpr he)
      | some e =>
        simp only
        have hm := pickOldest_mem hp
        simp at hm
        have he : e ∈ fs := mem_readDir.mp hm.1
        exact ih _ _ (WF_filter hwf _) (by have := length_filter_ne_lt he; omega)
    · rw [if_neg hc]
      left; rfl

/-- The errors `Enqueue` can return for a payload that serializes: none, "spool
is full", or the failure of `os.WriteFile` on a directory of the same name. -/
theorem Enqueue_errors {P : Type} (marshal : P → Except QErr Bytes) (q : DiskQueue) {fs : Dir}
    (clk : Clock) {p : P} {data : Bytes} (hwf : fs.WF) (hm : marshal p = .ok data) :
    (q.Enqueue marshal fs clk (some p)).err = none
    ∨ (q.Enqueue marshal fs clk (some p)).err = some .spoolFull
    ∨ (q.Enqueue marshal fs clk (some p)).err = some .isDirectory := by
  rw [Enqueue_some marshal q fs clk hm, enforceLimits_eq q hwf]
  have h := evictLoop_terminates q (data.length : Int)
    ((fs.filter (fun x => !x.expired (clk.now - q.retention))).length + 1)
    (fs.filter (fun x => !x.expired (clk.now - q.retention))) (dirSize fs)
    (WF_filter hwf _) (Nat.lt_succ_self _)
  generalize evictLoop q (data.length : Int)
    ((fs.filter (fun x => !x.expired (clk.now - q.retention))).length + 1)
    (fs.filter (fun x => !x.expired (clk.now - q.retention))) (dirSize fs) = out at h
  obtain ⟨fs1, err1⟩ := out
  rcases h with h | h
  · simp only at h
    subst h
    simp only
    unfold osWriteFile
    split
    · split
      · right; right; rfl
      · left; rfl
    · left; rfl
  · simp only at h
    rw [h.1]
    right; left; rfl

/-! ## A failed or needless eviction -/

theorem filter_nonitem_filter_ne {fs : Dir} {e : Entry} (he : e.isItem = true) :
    (fs.filter (fun x => decide (x ≠ e))).filter (fun x => !x.isItem)
      = fs.filter (fun x => !x.isItem) := by
  rw [List.filter_filter]
  apply List.filter_congr
  intro x _
  by_cases hx : x = e
  · subst hx; simp [he]
  · simp [hx]

theorem evictLoop_keeps_others (q : DiskQueue) (incoming : Int) :
    ∀ (fuel : Nat) (fs : Dir) (total : Int), fs.WF →
      (evictLoop q incoming fuel fs total).fs.filter (fun x => !x.isItem)
        = fs.filter (fun x => !x.isItem) := by
  intro fuel
  induction fuel with
  | zero => intro fs total _; simp [evictLoop]
  | succ n ih =>
    intro fs total hwf
    rw [evictLoop_succ q incoming n hwf]
    split
    · cases hp : pickOldest (readDir fs) none with
      | none => rfl
      | some e =>
        simp only
        have hm := pickOldest_mem hp
        simp at hm
        rw [ih _ _ (WF_filter hwf _), filter_nonitem_filter_ne hm.2]
    · rfl

theorem filter_nonitem_prune (cutoff : Int) (fs : Dir) :
    (fs.filter (fun x => !x.expired cutoff)).filter (fun x => !x.isItem)
      = fs.filter (fun x => !x.isItem) := by
  rw [List.filter_filter]
  apply List.filter_congr
  intro x _
  unfold Entry.expired
  cases x.isItem <;> simp

/-- When `enforceLimits` fails with "spool is full", what is left of the
directory is what was there that is not an item. -/
theorem enforceLimits_spoolFull (q : DiskQueue) {fs : Dir} (hwf : fs.WF) (now incoming : Int)
    (h : (q.enforceLimits fs now incoming).err = some .spoolFull) :
    (q.enforceLimits fs now incoming).fs = fs.filter (fun x => !x.isItem) := by
  rw [enforceLimits_eq q hwf] at h ⊢
  have hk := evictLoop_keeps_others q incoming
    ((fs.filter (fun x => !x.expired (now - q.retention))).length + 1)
    (fs.filter (fun x => !x.expired (now - q.retention))) (dirSize fs) (WF_filter hwf _)
  have ht := evictLoop_terminates q incoming
    ((fs.filter (fun x => !x.expired (now - q.retention))).length + 1)
    (fs.filter (fun x => !x.expired (now - q.retention))) (dirSize fs) (WF_filter hwf _)
    (Nat.lt_succ_self _)
  rw [filter_nonitem_prune] at hk
  rw [← hk]
  rcases ht with ht | ht
  · rw [ht] at h; cases h
  · symm
    apply List.filter_eq_self.mpr
    intro x hx
    simp [ht.2 x hx]

theorem osWriteFile_err (fs : Dir) (name data : Bytes) (mtime : Int) :
    (osWriteFile fs name data mtime).err = none
    ∨ (osWriteFile fs name data mtime).err = some .isDirectory := by
  unfold osWriteFile
  split
  · split
    · right; rfl
    · left; rfl
  · left; rfl

/-- C19. When `Enqueue` returns "spool is full" (the serializer itself never
returns that error), the directory afterwards holds no item: it is what was
there that is not an item, the depth is 0, the payload was not written, and if
an item was stored before, the directory is not what it was. -/
theorem Enqueue_spoolFull_empties {P : Type} (marshal : P → Except QErr Bytes) (q : DiskQueue)
    (fs : Dir) (clk : Clock) (payload : Option P) (hwf : fs.WF)
    (hmar : ∀ p, marshal p ≠ .error .spoolFull)
    (hfull : (q.Enqueue marshal fs clk payload).err = some .spoolFull) :
    (q.Enqueue marshal fs clk payload).fs = fs.filter (fun x => !x.isItem)
    ∧ q.Depth (q.Enqueue marshal fs clk payload).fs = 0
    ∧ ((∃ e ∈ fs, e.isItem = true) → (q.Enqueue marshal fs clk payload).fs ≠ fs) := by
  have hfs : (q.Enqueue marshal fs clk payload).fs = fs.filter (fun x => !x.isItem) := by
    cases payload with
    | none => simp [DiskQueue.Enqueue] at hfull
    | some p =>
      cases hm : marshal p with
      | error err =>
        unfold DiskQueue.Enqueue at hfull
        simp only [hm] at hfull
        simp only [Option.some.injEq] at hfull
        exact absurd (hfull ▸ hm) (hmar p)
      | ok data =>
        rw [Enqueue_some marshal q fs clk hm] at hfull ⊢
        have hsf := enforceLimits_spoolFull q hwf clk.now (data.length : Int)
        generalize q.enforceLimits fs clk.now (data.length : Int) = out at hfull hsf
        obtain ⟨fs1, err1⟩ := out
        cases err1 with
        | some err =>
          simp only at hfull hsf ⊢
          exact hsf hfull
        | none =>
          simp only at hfull
          rcases osWriteFile_err fs1 (fileName clk.nameA clk.nameB) data clk.mtime with h | h
          · rw [h] at hfull; cases hfull
          · rw [h] at hfull; cases hfull
  refine ⟨hfs, ?_, ?_⟩
  · rw [hfs, Depth_eq]
    apply List.length_eq_zero.mpr
    apply List.eq_nil_iff_forall_not_mem.mpr
    intro e he
    have h1 := mem_items.mp he
    have h2 := (List.mem_filter.mp h1.1).2
    simp [h1.2] at h2
  · rintro ⟨e, he, hi⟩ heq
    rw [hfs] at heq
    have : e ∈ fs.filter (fun x => !x.isItem) := by rw [heq]; exact he
    have h2 := (List.mem_filter.mp this).2
    simp [hi] at h2

/-- A payload of 11 bytes into a queue of 10 bytes capacity that holds one
item: the call fails and the item is gone. -/
theorem Enqueue_spoolFull_empties_witness :
    (DiskQueue.mk [115] 10 hour).Depth
      ((DiskQueue.mk [115] 10 hour).Enqueue (fun (b : Bytes) => Except.ok b)
        [{ name := fileName 1762246800000000000 1762246800000000000,
           modTime := 1762246800000000000, data := [1, 2, 3, 4, 5, 6, 7, 8] }]
        (clockAt 1762246801000000000) (some [1, 2, 3, 4, 5, 6, 7, 8, 9, 10, 11])).fs = 0 :=
  (Enqueue_spoolFull_empties (fun (b : Bytes) => Except.ok b) (DiskQueue.mk [115] 10 hour)
    [{ name := fileName 1762246800000000000 1762246800000000000,
       modTime := 1762246800000000000, data := [1, 2, 3, 4, 5, 6, 7, 8] }]
    (clockAt 1762246801000000000) (some [1, 2, 3, 4, 5, 6, 7, 8, 9, 10, 11])
    (by decide) (by intro p h; cases h) (by decide)).2.1

/-- The total taken before the retention sweep makes the loop evict a live
item: with one expired item `x` and one live item `y`, over the limit only when
`x` is counted, `Enqueue` deletes both and succeeds. -/
theorem Enqueue_stale_total_evicts {P : Type} (marshal : P → Except QErr Bytes) (q : DiskQueue)
    (clk : Clock) (p : P) (data : Bytes) (x y : Entry) (hm : marshal p = .ok data)
    (hx : x.expired (clk.now - q.retention) = true) (hyi : y.isItem = true)
    (hy : y.expired (clk.now - q.retention) = false) (hne : x.name ≠ y.name)
    (hover : x.size + y.size + (data.length : Int) > q.maxBytes)
    (hfit : x.size + (data.length : Int) ≤ q.maxBytes) :
    q.Enqueue marshal [x, y] clk (some p) = ⟨[freshEntry clk data], none⟩ := by
  have hxi : x.isItem = true := by
    unfold Entry.expired at hx
    cases h : x.isItem <;> simp_all
  have hwf : Dir.WF [x, y] := by simp [Dir.WF, hne]
  have hwfy : Dir.WF [y] := by simp [Dir.WF]
  rw [Enqueue_some marshal q [x, y] clk hm, enforceLimits_eq q hwf]
  have hf : List.filter (fun e => !e.expired (clk.now - q.retention)) [x, y] = [y] := by
    simp [hx, hy]
  have hsize : dirSize [x, y] = x.size + y.size := by
    rw [dirSize_cons, dirSize_cons, dirSize_nil, isItem_walkBytes hxi, isItem_walkBytes hyi]
    omega
  rw [hf, hsize, List.length_singleton, evictLoop_succ q _ _ hwfy, if_pos hover]
  have hpick : pickOldest (readDir [y]) none = some y := by
    simp [readDir, pickOldest, hyi]
  rw [hpick]
  simp only
  have hnil : List.filter (fun e => decide (e ≠ y)) [y] = [] := by simp
  rw [hnil, evictLoop_of_fits_pos q _ (by decide) _ _ (by omega)]
  simp only
  rw [osWriteFile_fresh clk data (by simp)]
  rfl

/-- C20, the code at a failing input. A queue made by `NewDiskQueue(dir, 2,
time.Hour)` (capacity 2097152 bytes) holds an item of 1 MiB written two hours
ago and an item of 1 MiB written one second ago.  The live item and the 2-byte
payload `{}` fit the capacity, yet a successful `Enqueue` deletes the live item
together with the expired one. -/
theorem Enqueue_evicts_live_item :
    NewDiskQueue [115] 2 hour = .ok (DiskQueue.mk [115] 2097152 hour)
    ∧ Entry.expired
        ((clockAt 1762246801000000000).now - (DiskQueue.mk [115] 2097152 hour).retention)
        (freshEntry (clockAt 1762246800000000000) mebibyte) = false
    ∧ (mebibyte.length : Int) + 2 ≤ (DiskQueue.mk [115] 2097152 hour).maxBytes
    ∧ (DiskQueue.mk [115] 2097152 hour).Enqueue (fun (b : Bytes) => Except.ok b)
        [freshEntry (clockAt 1762239600000000000) mebibyte,
         freshEntry (clockAt 1762246800000000000) mebibyte]
        (clockAt 1762246801000000000) (some [123, 125])
      = ⟨[freshEntry (clockAt 1762246801000000000) [123, 125]], none⟩ := by
  refine ⟨rfl, by decide, by rw [mebibyte_length]; decide, ?_⟩
  apply Enqueue_stale_total_evicts _ _ _ [123, 125] [123, 125] _ _ rfl
  · decide
  · decide
  · decide
  · decide
  · rw [size_fresh, size_fresh, mebibyte_length]; decide
  · rw [size_fresh, mebibyte_length]; decide

/-! ## `BackoffDelay` -/

theorem wrap64_of_range {x : Int} (h1 : -(2 ^ 63) ≤ x) (h2 : x < 2 ^ 63) : wrap64 x = x := by
  unfold wrap64
  rw [Int.emod_eq_of_lt (by omega) (by omega)]
  omega

/-- C11 (amended). For every attempt counter `1 ≤ n ≤ 96038` and every outcome
of the jitter, `BackoffDelay(n)` lies in the half-open interval from `n²`
seconds to `n²` seconds plus 500 milliseconds.  (From 96039 on, `n²` seconds is
more than a `time.Duration` holds.) -/
theorem BackoffDelay_bounds (n : Int) (r : Fin 500) (h1 : 1 ≤ n) (h2 : n ≤ 96038) :
    n * n * second ≤ BackoffDelay n r ∧ BackoffDelay n r < n * n * second + 500 * millisecond := by
  have hr : (r.val : Int) < 500 := by exact_mod_cast r.isLt
  have hr0 : (0 : Int) ≤ (r.val : Int) := by omega
  have hsq1 : 1 ≤ n * n := by nlinarith
  have hsq2 : n * n ≤ 9223297444 := by nlinarith
  unfold BackoffDelay second millisecond
  simp only
  rw [if_neg (by omega)]
  rw [wrap64_of_range (x := n * n) (by omega) (by omega)]
  rw [wrap64_of_range (x := n * n * 1000000000) (by omega) (by omega)]
  rw [wrap64_of_range (x := (r.val : Int) * 1000000) (by omega) (by omega)]
  rw [wrap64_of_range (by omega) (by omega)]
  constructor <;> omega

/-- The third attempt with a jitter of 250 ms: between 9 s and 9.5 s. -/
theorem BackoffDelay_bounds_witness :
    3 * 3 * second ≤ BackoffDelay 3 250 ∧ BackoffDelay 3 250 < 3 * 3 * second + 500 * millisecond :=
  BackoffDelay_bounds 3 250 (by decide) (by decide)

/-- C11 as stated fails for large counters: at attempt 96039 the product
`96039² s` overflows `time.Duration` and the delay is negative. -/
theorem BackoffDelay_overflow :
    (1 : Int) ≤ 96039 ∧ BackoffDelay 96039 0 = -9223254552709551616
    ∧ ¬ (96039 * 96039 * second ≤ BackoffDelay 96039 0) := by
  decide

/-- A counter that is not positive counts as 1. -/
theorem BackoffDelay_nonpositive (n : Int) (r : Fin 500) (h : n ≤ 0) :
    BackoffDelay n r = BackoffDelay 1 r := by
  unfold BackoffDelay
  simp only
  rw [if_pos h, if_neg (by decide)]

/-! ## `doJSON` and `SendEvents` -/

/-- C16. When the HTTP client returns a response, `doJSON` fails exactly when
the status is at least 400, provided the body decodes whenever a result is
expected; the error then carries the response body and nothing else of the
response, whether the status is 4xx or 5xx. -/
theorem doJSON_status {P O : Type} (c : Client) (marshal : P → Except TErr Bytes)
    (gz : Bytes → Bytes) (roundTrip : Request → Except TErr Response)
    (decode : Bytes → Except TErr O) (method path : String) (payload : P) (wantOut : Bool)
    (apiKey : String) (body : Bytes) (resp : Response)
    (hm : marshal payload = .ok body) (hresp : ∀ req, roundTrip req = .ok resp)
    (hdec : wantOut = true → resp.status < 400 → ∃ v, decode resp.body = .ok v) :
    ((c.doJSON marshal gz roundTrip decode method path payload wantOut apiKey).err ≠ none
        ↔ 400 ≤ resp.status)
    ∧ (400 ≤ resp.status →
        (c.doJSON marshal gz roundTrip decode method path payload wantOut apiKey).err
          = some (.requestFailed resp.body)) := by
  unfold Client.doJSON
  simp only [hm, hresp]
  by_cases hs : resp.status ≥ 400
  · simp only [if_pos hs]
    exact ⟨⟨fun _ => hs, fun _ => by simp⟩, fun _ => trivial⟩
  · simp only [if_neg hs]
    have hlt : resp.status < 400 := by omega
    cases hw : wantOut with
    | false =>
      simp only [Bool.false_eq_true, if_false]
      exact ⟨⟨fun h => absurd rfl h, fun h => absurd h hs⟩, fun h => absurd h hs⟩
    | true =>
      obtain ⟨v, hv⟩ := hdec hw hlt
      simp only [if_true, hv]
      exact ⟨⟨fun h => absurd rfl h, fun h => absurd h hs⟩, fun h => absurd h hs⟩

/-- A heartbeat answered with status 503 and body `busy`. -/
theorem doJSON_status_witness :
    ((Client.mk "key" "eventsec-agent/1.0").doJSON (fun (b : Bytes) => Except.ok b)
        (fun b => b) (fun _ => Except.ok ⟨503, [98, 117, 115, 121]⟩)
        (fun _ => (Except.ok () : Except TErr Unit)) "POST" "/agents/1/heartbeat"
        [123, 125] false "key").err
      = some (.requestFailed [98, 117, 115, 121]) :=
  (doJSON_status (Client.mk "key" "eventsec-agent/1.0") (fun (b : Bytes) => Except.ok b)
    (fun b => b) (fun _ => Except.ok ⟨503, [98, 117, 115, 121]⟩)
    (fun _ => (Except.ok () : Except TErr Unit)) "POST" "/agents/1/heartbeat"
    [123, 125] false "key" [123, 125] ⟨503, [98, 117, 115, 121]⟩ rfl (fun _ => rfl)
    (fun h => by cases h)).2 (by decide)

theorem SendEvents_cons_ok (c : Client) (marshal : EventBody → Except TErr Bytes)
    (gz : Bytes → Bytes) (roundTrip : Nat → Request → Except TErr Response) (i : Nat)
    (event : Event) (rest : List Event) (h : c.sendEvent marshal gz roundTrip i event = none) :
    c.SendEvents marshal gz roundTrip i (event :: rest)
      = ⟨event :: (c.SendEvents marshal gz roundTrip (i + 1) rest).calls,
          (c.SendEvents marshal gz roundTrip (i + 1) rest).err⟩ := by
  rw [Client.SendEvents, h]

theorem SendEvents_cons_err (c : Client) (marshal : EventBody → Except TErr Bytes)
    (gz : Bytes → Bytes) (roundTrip : Nat → Request → Except TErr Response) (i : Nat)
    (event : Event) (rest : List Event) (err : TErr)
    (h : c.sendEvent marshal gz roundTrip i event = some err) :
    c.SendEvents marshal gz roundTrip i (event :: rest) = ⟨[event], some err⟩ := by
  rw [Client.SendEvents, h]

theorem SendEvents_all_ok (c : Client) (marshal : EventBody → Except TErr Bytes)
    (gz : Bytes → Bytes) (roundTrip : Nat → Request → Except TErr Response) :
    ∀ (events : List Event) (i : Nat),
      (∀ k e, events[k]? = some e → c.sendEvent marshal gz roundTrip (i + k) e = none) →
      c.SendEvents marshal gz roundTrip i events = ⟨events, none⟩ := by
  intro events
  induction events with
  | nil => intro i _; rfl
  | cons e rest ih =>
    intro i h
    have h0 := h 0 e (by simp)
    rw [Nat.add_zero] at h0
    rw [SendEvents_cons_ok c marshal gz roundTrip i e rest h0]
    have := ih (i + 1) (fun k x hk => by
      have := h (k + 1) x (by simpa using hk)
      rw [Nat.add_assoc, Nat.add_comm 1 k]
      exact this)
    rw [this]

theorem SendEvents_first_failure (c : Client) (marshal : EventBody → Except TErr Bytes)
    (gz : Bytes → Bytes) (roundTrip : Nat → Request → Except TErr Response) :
    ∀ (events : List Event) (i n : Nat) (bad : Event) (err : TErr),
      events[n]? = some bad →
      (∀ k e, k < n → events[k]? = some e → c.sendEvent marshal gz roundTrip (i + k) e = none) →
      c.sendEvent marshal gz roundTrip (i + n) bad = some err →
      c.SendEvents marshal gz roundTrip i events = ⟨events.take (n + 1), some err⟩ := by
  intro events
  induction events with
  | nil => intro i n bad err hn; simp at hn
  | cons e rest ih =>
    intro i n bad err hn hbefore hbad
    cases n with
    | zero =>
      simp only [List.getElem?_cons_zero, Option.some.injEq] at hn
      subst hn
      rw [Nat.add_zero] at hbad
      rw [SendEvents_cons_err c marshal gz roundTrip i e rest err hbad]
      simp
    | succ m =>
      have h0 := hbefore 0 e (Nat.succ_pos m) (by simp)
      rw [Nat.add_zero] at h0
      rw [SendEvents_cons_ok c marshal gz roundTrip i e rest h0]
      have := ih (i + 1) m bad err (by simpa using hn)
        (fun k x hk hx => by
          have := hbefore (k + 1) x (by omega) (by simpa using hx)
          rw [Nat.add_assoc, Nat.add_comm 1 k]
          exact this)
        (by rw [Nat.add_assoc, Nat.add_comm 1 m]; exact hbad)
      rw [this]
      simp

theorem SendEvents_calls_take (c : Client) (marshal : EventBody → Except TErr Bytes)
    (gz : Bytes → Bytes) (roundTrip : Nat → Request → Except TErr Response) :
    ∀ (events : List Event) (i : Nat),
      (c.SendEvents marshal gz roundTrip i events).calls
        = events.take (c.SendEvents marshal gz roundTrip i events).calls.length := by
  intro events
  induction events with
  | nil => intro i; rfl
  | cons e rest ih =>
    intro i
    cases h : c.sendEvent marshal gz roundTrip i e with
    | some err =>
      rw [SendEvents_cons_err c marshal gz roundTrip i e rest err h]
      simp
    | none =>
      rw [SendEvents_cons_ok c marshal gz roundTrip i e rest h]
      simp only [List.length_cons, List.take_succ_cons]
      rw [← ih (i + 1)]

theorem SendEvents_err_none_iff (c : Client) (marshal : EventBody → Except TErr Bytes)
    (gz : Bytes → Bytes) (roundTrip : Nat → Request → Except TErr Response) :
    ∀ (events : List Event) (i : Nat),
      (c.SendEvents marshal gz roundTrip i events).err = none
        ↔ ∀ k e, events[k]? = some e → c.sendEvent marshal gz roundTrip (i + k) e = none := by
  intro events
  induction events with
  | nil => intro i; simp [Client.SendEvents]
  | cons e rest ih =>
    intro i
    cases h : c.sendEvent marshal gz roundTrip i e with
    | some err =>
      rw [SendEvents_cons_err c marshal gz roundTrip i e rest err h]
      constructor
      · intro h1; cases h1
      · intro h1
        have := h1 0 e (by simp)
        rw [Nat.add_zero, h] at this
        cases this
    | none =>
      rw [SendEvents_cons_ok c marshal gz roundTrip i e rest h]
      simp only
      rw [ih (i + 1)]
      constructor
      · intro h1 k x hk
        cases k with
        | zero =>
          simp only [List.getElem?_cons_zero, Option.some.injEq] at hk
          subst hk
          exact h
        | succ m =>
          have := h1 m x (by simpa using hk)
          rw [Nat.add_assoc, Nat.add_comm 1 m] at this
          exact this
      · intro h1 k x hk
        have := h1 (k + 1) x (by simpa using hk)
        rw [Nat.add_assoc, Nat.add_comm 1 k]
        exact this

/-- C15. `SendEvents` calls `doJSON` for the events one at a time in list
order: the calls made are an initial segment of the list; it returns no error
exactly when the send of every event succeeds, and then every event was sent;
when the send of event number `n` is the first to fail, exactly the events up
to and including that one were sent, none after it, and its error is
returned. -/
theorem SendEvents_first_error (c : Client) (marshal : EventBody → Except TErr Bytes)
    (gz : Bytes → Bytes) (roundTrip : Nat → Request → Except TErr Response)
    (events : List Event) (i : Nat) :
    (c.SendEvents marshal gz roundTrip i events).calls
        = events.take (c.SendEvents marshal gz roundTrip i events).calls.length
    ∧ ((c.SendEvents marshal gz roundTrip i events).err = none
        ↔ ∀ k e, events[k]? = some e → c.sendEvent marshal gz roundTrip (i + k) e = none)
    ∧ ((c.SendEvents marshal gz roundTrip i events).err = none
        → (c.SendEvents marshal gz roundTrip i events).calls = events)
    ∧ (∀ (n : Nat) (bad : Event) (err : TErr), events[n]? = some bad →
        (∀ k e, k < n → events[k]? = some e →
          c.sendEvent marshal gz roundTrip (i + k) e = none) →
        c.sendEvent marshal gz roundTrip (i + n) bad = some err →
        c.SendEvents marshal gz roundTrip i events = ⟨events.take (n + 1), some err⟩) := by
  refine ⟨SendEvents_calls_take c marshal gz roundTrip events i,
    SendEvents_err_none_iff c marshal gz roundTrip events i, ?_, ?_⟩
  · intro h
    have := (SendEvents_err_none_iff c marshal gz roundTrip events i).mp h
    rw [SendEvents_all_ok c marshal gz roundTrip events i this]
  · intro n bad err hn hbefore hbad
    exact SendEvents_first_failure c marshal gz roundTrip events i n bad err hn hbefore hbad

/-- Three events, the server rejecting the second request: two calls are made
and the error of the second is returned. -/
theorem SendEvents_stops_at_second :
    (Client.mk "key" "eventsec-agent/1.0").SendEvents (fun _ => Except.ok [123, 125]) (fun b => b)
        (fun i _ => if i = 1 then Except.ok ⟨500, [110, 111]⟩ else Except.ok ⟨200, []⟩) 0
        [⟨[49], [97], [49], [49], [104], [108], 1, [], some []⟩,
         ⟨[49], [98], [50], [49], [104], [108], 2, [], some []⟩,
         ⟨[49], [99], [51], [49], [104], [108], 3, [], some []⟩]
      = ⟨[⟨[49], [97], [49], [49], [104], [108], 1, [], some []⟩,
          ⟨[49], [98], [50], [49], [104], [108], 2, [], some []⟩],
         some (.requestFailed [110, 111])⟩ := by
  decide

/-! ## The `select` of the run loop -/

/-- C14 (amended). In every iteration the `select` takes exactly one branch, and
it is a branch whose condition holds: the loop terminates only when shutdown
has been requested, heartbeat and inventory work start only when their timer is
due, and the spool flush runs exactly in the iterations in which neither
shutdown nor a timer is ready.  The branch strict priority would take is always
among the possible ones, and it is the only possible one when at most one of
shutdown and the two timers is ready. -/
theorem select_one_ready_branch (r : Ready) :
    (∀ b ∈ selectable r,
        (b = .shutdown → r.done = true) ∧ (b = .heartbeat → r.heartbeat = true)
        ∧ (b = .inventory → r.inventory = true)
        ∧ (b = .flush ↔ (r.done = false ∧ r.heartbeat = false ∧ r.inventory = false)))
    ∧ selectable r ≠ []
    ∧ priorityChoice r ∈ selectable r
    ∧ (((if r.done then 1 else 0) + (if r.heartbeat then 1 else 0)
          + (if r.inventory then 1 else 0) : Nat) ≤ 1 → selectable r = [priorityChoice r]) := by
  obtain ⟨d, h, i⟩ := r
  cases d <;> cases h <;> cases i <;> decide

/-- C14 as stated fails: with shutdown requested and the heartbeat timer due,
the `select` may start the heartbeat instead of terminating, and with both
timers due it may take the inventory before the heartbeat. -/
theorem select_no_priority :
    Branch.heartbeat ∈ selectable ⟨true, true, false⟩
    ∧ priorityChoice ⟨true, true, false⟩ = Branch.shutdown
    ∧ Branch.inventory ∈ selectable ⟨false, true, true⟩
    ∧ priorityChoice ⟨false, true, true⟩ = Branch.heartbeat := by
  decide

/-! ## Enrollment bootstrap -/

theorem storedIdentifier_of_reusable {cfg : Config} {st : StateDir} (h2 : reusable cfg st = true) :
    ∃ stored, st.serverAgentID = some stored ∧ stored ≠ []
      ∧ storedIdentifier cfg st = some stored := by
  unfold reusable holds at h2
  unfold storedIdentifier
  cases hs : st.serverAgentID with
  | none => rw [hs] at h2; simp at h2
  | some stored =>
    rw [hs] at h2
    simp only [Bool.and_eq_true, bne_iff_ne, ne_eq, Bool.or_eq_true] at h2
    refine ⟨stored, rfl, h2.1, ?_⟩
    simp only [ne_eq, h2.1, not_false_eq_true, if_true]
    by_cases hk : cfg.APIKey = []
    · have hst : st.apiKey.isSome = true := by
        rcases h2.2 with h | h
        · exact absurd hk h
        · cases hk0 : st.apiKey with
          | none => rw [hk0] at h; simp at h
          | some _ => rfl
      simp [hk, hst]
    · simp [hk]

/-- Where the file `api_key` is not an empty file, the code falls through to
the enrollment whenever condition (2) fails. -/
theorem storedIdentifier_of_not_reusable {cfg : Config} {st : StateDir}
    (hcred : st.apiKey ≠ some []) (h2 : reusable cfg st = false) :
    storedIdentifier cfg st = none := by
  unfold reusable holds at h2
  unfold storedIdentifier
  cases hs : st.serverAgentID with
  | none => rfl
  | some stored =>
    rw [hs] at h2
    simp only [Bool.and_eq_false_iff, bne_eq_false_iff_eq, Bool.or_eq_false_iff] at h2
    simp only
    by_cases hst : stored = []
    · simp [hst]
    · rcases h2 with h | h
      · exact absurd h hst
      · have hnone : st.apiKey.isSome = false := by
          cases hk : st.apiKey with
          | none => rfl
          | some key =>
            have h3 := h.2
            rw [hk] at h3
            simp only [bne_eq_false_iff_eq] at h3
            rw [hk, h3] at hcred
            exact absurd rfl hcred
        simp [hst, h.1, hnone]

theorem ensureEnrollment_pre (enroll : EnrollRequest → Except TErr EnrollResponse) (cfg : Config)
    (st : StateDir) (keyFails idFails : Bool) (hostname os ip version : Bytes)
    (h1 : preProvisioned cfg = true) :
    ensureEnrollment enroll cfg st keyFails idFails hostname os ip version
      = ⟨cfg.ServerAgentID, none,
          (SaveServerAgentID idFails (SaveAPIKey keyFails st cfg.APIKey).1 cfg.ServerAgentID).1,
          none, none⟩ := by
  unfold preProvisioned at h1
  simp only [Bool.and_eq_true, bne_iff_ne, ne_eq] at h1
  unfold ensureEnrollment
  rw [if_neg (by intro h; exact h1.1 h.2), if_pos ⟨h1.1, h1.2⟩]

theorem ensureEnrollment_reuse (enroll : EnrollRequest → Except TErr EnrollResponse) (cfg : Config)
    (st : StateDir) (keyFails idFails : Bool) (hostname os ip version : Bytes)
    (hkey : cfg.APIKey ≠ [] ∨ cfg.EnrollmentKey ≠ []) (h1 : preProvisioned cfg = false)
    (h2 : reusable cfg st = true) :
    ∃ stored, st.serverAgentID = some stored ∧ stored ≠ []
      ∧ ensureEnrollment enroll cfg st keyFails idFails hostname os ip version
          = ⟨stored, none, st, none, none⟩ := by
  obtain ⟨stored, hs, hne, hsi⟩ := storedIdentifier_of_reusable h2
  refine ⟨stored, hs, hne, ?_⟩
  unfold preProvisioned at h1
  unfold ensureEnrollment
  rw [if_neg (by intro h; rcases hkey with hk | hk; exact hk h.2; exact hk h.1)]
  rw [if_neg (by intro h; simp [h.1, h.2] at h1), hsi]

theorem ensureEnrollment_live_ok (enroll : EnrollRequest → Except TErr EnrollResponse)
    (cfg : Config) (st : StateDir) (hostname os ip version : Bytes) (resp : EnrollResponse)
    (hkey : cfg.APIKey ≠ [] ∨ cfg.EnrollmentKey ≠ []) (h1 : preProvisioned cfg = false)
    (hnone : storedIdentifier cfg st = none)
    (hresp : enroll ⟨cfg.EnrollmentKey, hostname, os, ip, version⟩ = .ok resp) :
    ensureEnrollment enroll cfg st false false hostname os ip version
      = ⟨fmtD resp.AgentID, none, ⟨some resp.APIKey, some (fmtD resp.AgentID)⟩,
          some resp.APIKey, some ⟨cfg.EnrollmentKey, hostname, os, ip, version⟩⟩ := by
  unfold preProvisioned at h1
  unfold ensureEnrollment
  rw [if_neg (by intro h; rcases hkey with hk | hk; exact hk h.2; exact hk h.1)]
  rw [if_neg (by intro h; simp [h.1, h.2] at h1), hnone]
  simp only [hresp, SaveAPIKey, SaveServerAgentID, Bool.false_eq_true, if_false]

theorem ensureEnrollment_live_err (enroll : EnrollRequest → Except TErr EnrollResponse)
    (cfg : Config) (st : StateDir) (keyFails idFails : Bool) (hostname os ip version : Bytes)
    (err : TErr)
    (hkey : cfg.APIKey ≠ [] ∨ cfg.EnrollmentKey ≠ []) (h1 : preProvisioned cfg = false)
    (hnone : storedIdentifier cfg st = none)
    (hresp : enroll ⟨cfg.EnrollmentKey, hostname, os, ip, version⟩ = .error err) :
    ensureEnrollment enroll cfg st keyFails idFails hostname os ip version
      = ⟨[], some (.transport err), st, none,
          some ⟨cfg.EnrollmentKey, hostname, os, ip, version⟩⟩ := by
  unfold preProvisioned at h1
  unfold ensureEnrollment
  rw [if_neg (by intro h; rcases hkey with hk | hk; exact hk h.2; exact hk h.1)]
  rw [if_neg (by intro h; simp [h.1, h.2] at h1), hnone]
  simp only [hresp]

/-- After an answered enrollment a failed write of `api_key` or of
`server_agent_id` makes `ensureEnrollment` return the empty identifier and the
error of the write. -/
theorem ensureEnrollment_live_write_fails (enroll : EnrollRequest → Except TErr EnrollResponse)
    (cfg : Config) (st : StateDir) (keyFails idFails : Bool) (hostname os ip version : Bytes)
    (resp : EnrollResponse)
    (hkey : cfg.APIKey ≠ [] ∨ cfg.EnrollmentKey ≠ []) (h1 : preProvisioned cfg = false)
    (hnone : storedIdentifier cfg st = none)
    (hresp : enroll ⟨cfg.EnrollmentKey, hostname, os, ip, version⟩ = .ok resp)
    (hfail : keyFails = true ∨ idFails = true) :
    (ensureEnrollment enroll cfg st keyFails idFails hostname os ip version).id = []
    ∧ (ensureEnrollment enroll cfg st keyFails idFails hostname os ip version).err
        = some .stateWrite
    ∧ (ensureEnrollment enroll cfg st keyFails idFails hostname os ip version).exchange
        = some ⟨cfg.EnrollmentKey, hostname, os, ip, version⟩ := by
  unfold preProvisioned at h1
  unfold ensureEnrollment
  rw [if_neg (by intro h; rcases hkey with hk | hk; exact hk h.2; exact hk h.1)]
  rw [if_neg (by intro h; simp [h.1, h.2] at h1), hnone]
  simp only [hresp, SaveAPIKey, SaveServerAgentID]
  cases keyFails with
  | true => simp
  | false =>
    cases idFails with
    | true => simp
    | false => simp at hfail

/-- The bootstrap decision where the file `api_key` of the state directory is
not an empty file.  With a credential or an enrollment key configured,
`ensureEnrollment` makes the enrollment exchange exactly when neither (1) the
configuration supplies both a credential and a server identifier nor (2) the
state directory holds a server identifier and a credential is configured or
held.  Under (1) it returns the configured identifier; otherwise under (2) the
stored one; otherwise, when the server answers and both files are written, the
identifier the server returned, which it stores together with the returned
credential. -/
theorem ensureEnrollment_decision (enroll : EnrollRequest → Except TErr EnrollResponse)
    (cfg : Config) (st : StateDir) (keyFails idFails : Bool) (hostname os ip version : Bytes)
    (hkey : cfg.APIKey ≠ [] ∨ cfg.EnrollmentKey ≠ []) (hcred : st.apiKey ≠ some []) :
    ((ensureEnrollment enroll cfg st keyFails idFails hostname os ip version).exchange ≠ none
        ↔ (preProvisioned cfg = false ∧ reusable cfg st = false))
    ∧ (preProvisioned cfg = true →
        (ensureEnrollment enroll cfg st keyFails idFails hostname os ip version).id
          = cfg.ServerAgentID
        ∧ (ensureEnrollment enroll cfg st keyFails idFails hostname os ip version).err = none)
    ∧ (preProvisioned cfg = false → reusable cfg st = true →
        some (ensureEnrollment enroll cfg st keyFails idFails hostname os ip version).id
          = st.serverAgentID
        ∧ (ensureEnrollment enroll cfg st keyFails idFails hostname os ip version).err = none
        ∧ (ensureEnrollment enroll cfg st keyFails idFails hostname os ip version).state = st)
    ∧ (preProvisioned cfg = false → reusable cfg st = false →
        ∀ resp, enroll ⟨cfg.EnrollmentKey, hostname, os, ip, version⟩ = .ok resp →
          (ensureEnrollment enroll cfg st false false hostname os ip version).id
            = fmtD resp.AgentID
          ∧ (ensureEnrollment enroll cfg st false false hostname os ip version).err = none
          ∧ (ensureEnrollment enroll cfg st false false hostname os ip version).state
              = ⟨some resp.APIKey, some (fmtD resp.AgentID)⟩) := by
  refine ⟨?_, ?_, ?_, ?_⟩
  · cases h1 : preProvisioned cfg with
    | true =>
      rw [ensureEnrollment_pre enroll cfg st keyFails idFails hostname os ip version h1]
      simp
    | false =>
      cases h2 : reusable cfg st with
      | true =>
        obtain ⟨stored, _, _, heq⟩ :=
          ensureEnrollment_reuse enroll cfg st keyFails idFails hostname os ip version hkey h1 h2
        rw [heq]
        simp
      | false =>
        have hnone := storedIdentifier_of_not_reusable hcred h2
        cases hr : enroll ⟨cfg.EnrollmentKey, hostname, os, ip, version⟩ with
        | error err =>
          rw [ensureEnrollment_live_err enroll cfg st keyFails idFails hostname os ip version err
            hkey h1 hnone hr]
          simp
        | ok resp =>
          cases hk : keyFails with
          | true =>
            rw [← hk, (ensureEnrollment_live_write_fails enroll cfg st keyFails idFails hostname os
              ip version resp hkey h1 hnone hr (Or.inl hk)).2.2]
            simp
          | false =>
            cases hi : idFails with
            | true =>
              rw [← hk, ← hi, (ensureEnrollment_live_write_fails enroll cfg st keyFails idFails
                hostname os ip version resp hkey h1 hnone hr (Or.inr hi)).2.2]
              simp
            | false =>
              rw [ensureEnrollment_live_ok enroll cfg st hostname os ip version resp hkey h1
                hnone hr]
              simp
  · intro h1
    rw [ensureEnrollment_pre enroll cfg st keyFails idFails hostname os ip version h1]
    exact ⟨rfl, rfl⟩
  · intro h1 h2
    obtain ⟨stored, hs, _, heq⟩ :=
      ensureEnrollment_reuse enroll cfg st keyFails idFails hostname os ip version hkey h1 h2
    rw [heq, hs]
    exact ⟨rfl, rfl, rfl⟩
  · intro h1 h2 resp hr
    rw [ensureEnrollment_live_ok enroll cfg st hostname os ip version resp hkey h1
      (storedIdentifier_of_not_reusable hcred h2) hr]
    exact ⟨rfl, rfl, rfl⟩

/-- C17 fails on the code where the file `api_key` is empty. An agent configured
with an enrollment key only enrolls against a server whose answer carries
`agent_id` 5 and no `api_key`: the exchange succeeds and leaves
`server_agent_id` = "5" and an empty `api_key` file.  At the next start, with
the same configuration and that state, neither (1) nor (2) holds, no credential
being supplied or held, so the specification has the agent enroll; `ensureEnrollment`
makes no exchange, returns "5" and sets no credential on the client.  The
second test of the code asks only whether `api_key` can be read. -/
theorem ensureEnrollment_empty_credential :
    ensureEnrollment (fun _ => Except.ok ⟨5, []⟩) ⟨[], [101], []⟩ ⟨none, none⟩ false false
        [104] [108] [] [100]
      = ⟨[53], none, ⟨some [], some [53]⟩, some [], some ⟨[101], [104], [108], [], [100]⟩⟩
    ∧ preProvisioned ⟨[], [101], []⟩ = false
    ∧ reusable ⟨[], [101], []⟩ ⟨some [], some [53]⟩ = false
    ∧ ensureEnrollment (fun _ => Except.ok ⟨7, [107]⟩) ⟨[], [101], []⟩ ⟨some [], some [53]⟩
        false false [104] [108] [] [100]
      = ⟨[53], none, ⟨some [], some [53]⟩, none, none⟩ := by
  decide

/-! ## `schema.Validate` -/

theorem newUUID_ne_nil (b : List Nat) : newUUID b ≠ [] := by
  unfold newUUID
  simp

theorem Validate_eq_none_iff (event : Event) :
    Validate event = none
      ↔ (event.SchemaVersion ≠ [] ∧ event.EventType ≠ [] ∧ event.EventID ≠ []
          ∧ event.AgentID ≠ [] ∧ event.Host ≠ [] ∧ event.OS ≠ []
          ∧ event.TimestampUTC ≠ zeroTime ∧ event.Attributes ≠ none) := by
  unfold Validate
  constructor
  · intro h
    split at h
    · cases h
    · split at h
      · cases h
      · split at h
        · cases h
        · split at h
          · cases h
          · split at h
            · cases h
            · split at h
              · cases h
              · split at h
                · cases h
                · split at h
                  · cases h
                  · exact ⟨by assumption, by assumption, by assumption, by assumption,
                      by assumption, by assumption, by assumption, by assumption⟩
  · rintro ⟨h1, h2, h3, h4, h5, h6, h7, h8⟩
    rw [if_neg h1, if_neg h2, if_neg h3, if_neg h4, if_neg h5, if_neg h6, if_neg h7, if_neg h8]

/-- C18. `Validate` returns an error exactly when a required field is missing:
an empty `schema_version`, `event_type`, `event_id`, `agent_id`, `host` or `os`,
a zero `timestamp_utc`, or nil `attributes`.  The zero `Event` is rejected, and
the event `NewEvent` builds from a non-empty event type, agent id, host and OS
name and a non-nil attribute map is accepted (the clock not reading the zero
time). -/
theorem Validate_required_fields (event : Event) (rnd : List Nat) (now : Int)
    (eventType agentID host osName : Bytes) (attributes : Attrs)
    (ht : eventType ≠ []) (ha : agentID ≠ []) (hh : host ≠ []) (ho : osName ≠ [])
    (hnow : now ≠ zeroTime) :
    (Validate event ≠ none
        ↔ (event.SchemaVersion = [] ∨ event.EventType = [] ∨ event.EventID = []
            ∨ event.AgentID = [] ∨ event.Host = [] ∨ event.OS = []
            ∨ event.TimestampUTC = zeroTime ∨ event.Attributes = none))
    ∧ Validate zeroEvent ≠ none
    ∧ Validate (NewEvent rnd now eventType agentID host osName (some attributes)) = none := by
  refine ⟨?_, by decide, ?_⟩
  · rw [Ne, Validate_eq_none_iff]
    constructor
    · intro h
      by_contra hcon
      apply h
      simp only [not_or] at hcon
      exact hcon
    · rintro h ⟨h1, h2, h3, h4, h5, h6, h7, h8⟩
      rcases h with h | h | h | h | h | h | h | h
      · exact h1 h
      · exact h2 h
      · exact h3 h
      · exact h4 h
      · exact h5 h
      · exact h6 h
      · exact h7 h
      · exact h8 h
  · rw [Validate_eq_none_iff]
    unfold NewEvent
    have hv : CurrentSchemaVersion ≠ [] := by decide
    exact ⟨hv, ht, newUUID_ne_nil rnd, ha, hh, ho, hnow, by simp⟩

/-- The unit test `TestValidateEvent`: the event built from "inventory",
"agent-1", "host", "linux" and a map with one key is accepted. -/
theorem Validate_required_fields_witness :
    Validate (NewEvent [1, 2, 3, 4, 5, 6, 7, 8, 9, 10, 11, 12, 13, 14, 15, 16] 1762246800000000000
        [105, 110, 118, 101, 110, 116, 111, 114, 121] [97, 103, 101, 110, 116, 45, 49]
        [104, 111, 115, 116] [108, 105, 110, 117, 120]
        (some [([111, 107], [116, 114, 117, 101])])) = none :=
  (Validate_required_fields zeroEvent [1, 2, 3, 4, 5, 6, 7, 8, 9, 10, 11, 12, 13, 14, 15, 16]
    1762246800000000000 [105, 110, 118, 101, 110, 116, 111, 114, 121]
    [97, 103, 101, 110, 116, 45, 49] [104, 111, 115, 116] [108, 105, 110, 117, 120]
    [([111, 107], [116, 114, 117, 101])]
    (by decide) (by decide) (by decide) (by decide) (by decide)).2.2

/-! ## `flushSpool` -/

/-- Acknowledging the path of an item removes the item if it is there and
changes nothing otherwise. -/
theorem Ack_fs (q : DiskQueue) {fs : Dir} (hwf : fs.WF) {e : Entry} (hi : e.isItem = true)
    (hname : ∀ x ∈ fs, x.name = e.name → x = e) :
    (q.Ack fs (joinPath q.dir e.name)).fs = fs.filter (fun x => decide (x ≠ e)) := by
  by_cases he : e ∈ fs
  · rw [Ack_of_mem q hwf he hi]
  · rw [filter_ne_of_not_mem he]
    unfold DiskQueue.Ack
    have hne : (joinPath q.dir e.name == []) = false := by simp [joinPath_ne_nil]
    simp only [hne, Bool.false_eq_true, if_false]
    unfold osRemove
    rw [osStat_eq_none (fun x hx hn => he (hname x hx hn ▸ hx))]

theorem ackAll_filter (q : DiskQueue) :
    ∀ (L : List Entry) (fs : Dir), fs.WF →
      (∀ e ∈ L, e.isItem = true ∧ ∀ x ∈ fs, x.name = e.name → x = e) →
      ackAll q (L.map (Entry.toItem q.dir)) fs = fs.filter (fun x => decide (x ∉ L)) := by
  intro L
  induction L with
  | nil => intro fs _ _; simp [ackAll]
  | cons e es ih =>
    intro fs hwf hL
    have he := hL e (List.mem_cons_self _ _)
    simp only [List.map_cons, ackAll, Entry.toItem]
    rw [Ack_fs q hwf he.1 he.2]
    have := ih (fs.filter (fun x => decide (x ≠ e))) (WF_filter hwf _) (by
      intro x hx
      have hx2 := hL x (List.mem_cons_of_mem _ hx)
      exact ⟨hx2.1, fun y hy hn => hx2.2 y (List.mem_filter.mp hy).1 hn⟩)
    simp only [Entry.toItem] at this
    rw [this, List.filter_filter]
    apply List.filter_congr
    intro x _
    by_cases hxe : x = e
    · simp [hxe]
    · simp [hxe]

theorem flushLoop_eq {S : Type} (unmarshal : Bytes → Option S) (q : DiskQueue) :
    ∀ (L : List Entry) (fs : Dir) (snapshots : List S), fs.WF →
      (∀ e ∈ L, e.isItem = true ∧ ∀ x ∈ fs, x.name = e.name → x = e) →
      flushLoop unmarshal q (L.map (Entry.toItem q.dir)) fs snapshots
        = (fs.filter (fun x => !(decide (x ∈ L) && (unmarshal x.data).isNone)),
           snapshots ++ validSnapshots unmarshal L) := by
  intro L
  induction L with
  | nil => intro fs snapshots _ _; simp [flushLoop, validSnapshots]
  | cons e es ih =>
    intro fs snapshots hwf hL
    have he := hL e (List.mem_cons_self _ _)
    have hes : ∀ x ∈ es, x.isItem = true ∧ ∀ y ∈ fs, y.name = x.name → y = x :=
      fun x hx => hL x (List.mem_cons_of_mem _ hx)
    simp only [List.map_cons, flushLoop, Entry.toItem]
    cases hu : unmarshal e.data with
    | none =>
      simp only
      rw [Ack_fs q hwf he.1 he.2]
      have := ih (fs.filter (fun x => decide (x ≠ e))) snapshots (WF_filter hwf _) (by
        intro x hx
        exact ⟨(hes x hx).1, fun y hy hn => (hes x hx).2 y (List.mem_filter.mp hy).1 hn⟩)
      simp only [Entry.toItem] at this
      rw [this, List.filter_filter]
      congr 1
      · apply List.filter_congr
        intro x _
        by_cases hxe : x = e
        · subst hxe; simp [hu]
        · simp [hxe]
      · simp [validSnapshots, List.filterMap_cons, hu]
    | some snap =>
      simp only
      have := ih fs (snapshots ++ [snap]) hwf hes
      simp only [Entry.toItem] at this
      rw [this]
      congr 1
      · apply List.filter_congr
        intro x _
        by_cases hxe : x = e
        · subst hxe; simp [hu]
        · simp [hxe]
      · simp [validSnapshots, List.filterMap_cons, hu]

theorem flushBatch_spec {fs : Dir} (hwf : fs.WF) :
    ∀ e ∈ flushBatch fs, e.isItem = true ∧ ∀ x ∈ fs, x.name = e.name → x = e := by
  intro e he
  have hm := mem_items.mp (List.mem_of_mem_take he)
  exact ⟨hm.2, fun x hx hn => WF_eq_of_name hwf hx hm.1 hn⟩

theorem DequeueBatch_50 (q : DiskQueue) {fs : Dir} (hwf : fs.WF) :
    q.DequeueBatch fs 50 = .ok ((flushBatch fs).map (Entry.toItem q.dir)) :=
  DequeueBatch_eq q hwf 50

/-- What `flushSpool` does when the push fails. -/
theorem flushSpool_push_failed {S : Type} (push : List S → Option TErr)
    (unmarshal : Bytes → Option S) (q : DiskQueue) {fs : Dir} (hwf : fs.WF)
    (hne : flushBatch fs ≠ []) (err : TErr)
    (hpush : push (validSnapshots unmarshal (flushBatch fs)) = some err) :
    flushSpool push unmarshal q fs
      = ⟨fs.filter (fun x => !(decide (x ∈ flushBatch fs) && (unmarshal x.data).isNone)),
          [validSnapshots unmarshal (flushBatch fs)], some (.transport err)⟩ := by
  unfold flushSpool
  rw [DequeueBatch_50 q hwf]
  simp only
  rw [if_neg (by
    rw [List.length_map]
    exact fun h => hne (List.length_eq_zero.mp h))]
  rw [flushLoop_eq unmarshal q _ fs [] hwf (flushBatch_spec hwf)]
  simp only [List.nil_append, hpush]

/-- What `flushSpool` does when the push succeeds. -/
theorem flushSpool_push_ok {S : Type} (push : List S → Option TErr)
    (unmarshal : Bytes → Option S) (q : DiskQueue) {fs : Dir} (hwf : fs.WF)
    (hne : flushBatch fs ≠ [])
    (hpush : push (validSnapshots unmarshal (flushBatch fs)) = none) :
    flushSpool push unmarshal q fs
      = ⟨fs.filter (fun x => decide (x ∉ flushBatch fs)),
          [validSnapshots unmarshal (flushBatch fs)], none⟩ := by
  unfold flushSpool
  rw [DequeueBatch_50 q hwf]
  simp only
  rw [if_neg (by
    rw [List.length_map]
    exact fun h => hne (List.length_eq_zero.mp h))]
  rw [flushLoop_eq unmarshal q _ fs [] hwf (flushBatch_spec hwf)]
  simp only [List.nil_append, hpush]
  rw [ackAll_filter q _ _ (WF_filter hwf _) (by
    intro e he
    have := flushBatch_spec hwf e he
    exact ⟨this.1, fun x hx hn => this.2 x (List.mem_filter.mp hx).1 hn⟩)]
  rw [List.filter_filter]
  congr 1
  apply List.filter_congr
  intro x _
  by_cases hx : x ∈ flushBatch fs
  · simp [hx]
  · simp [hx]

theorem flushSpool_empty {S : Type} (push : List S → Option TErr)
    (unmarshal : Bytes → Option S) (q : DiskQueue) {fs : Dir} (hwf : fs.WF)
    (hnil : flushBatch fs = []) :
    flushSpool push unmarshal q fs = ⟨fs, [], none⟩ := by
  unfold flushSpool
  rw [DequeueBatch_50 q hwf, hnil]
  simp

/-- C12. For a batch that is not empty, `flushSpool` hands the snapshots of the
items that decode to one push, in dequeue order.  An item of the batch that
does not decode is gone from the store whatever the push returns; an item that
decodes is gone exactly when the push succeeds, so after a failed push every
valid item is still stored; entries outside the batch stay; and `flushSpool`
returns an error exactly when the push fails. -/
theorem flushSpool_ack_policy {S : Type} (push : List S → Option TErr)
    (unmarshal : Bytes → Option S) (q : DiskQueue) (fs : Dir) (hwf : fs.WF)
    (hne : flushBatch fs ≠ []) :
    (flushSpool push unmarshal q fs).pushed = [validSnapshots unmarshal (flushBatch fs)]
    ∧ (∀ e ∈ flushBatch fs, unmarshal e.data = none → e ∉ (flushSpool push unmarshal q fs).fs)
    ∧ (∀ e ∈ flushBatch fs, unmarshal e.data ≠ none →
        (e ∉ (flushSpool push unmarshal q fs).fs
          ↔ push (validSnapshots unmarshal (flushBatch fs)) = none))
    ∧ (∀ x ∈ fs, x ∉ flushBatch fs → x ∈ (flushSpool push unmarshal q fs).fs)
    ∧ ((flushSpool push unmarshal q fs).err = none
        ↔ push (validSnapshots unmarshal (flushBatch fs)) = none) := by
  have hin : ∀ e ∈ flushBatch fs, e ∈ fs :=
    fun e he => (mem_items.mp (List.mem_of_mem_take he)).1
  cases hp : push (validSnapshots unmarshal (flushBatch fs)) with
  | some err =>
    rw [flushSpool_push_failed push unmarshal q hwf hne err hp]
    refine ⟨rfl, ?_, ?_, ?_, ?_⟩
    · intro e he hu hmem
      have := (List.mem_filter.mp hmem).2
      simp [he, hu] at this
    · intro e he hu
      constructor
      · intro hnot
        exfalso
        apply hnot
        apply List.mem_filter.mpr
        refine ⟨hin e he, ?_⟩
        cases hv : unmarshal e.data with
        | none => exact absurd hv hu
        | some v => simp
      · intro h; cases h
    · intro x hx hnot
      exact List.mem_filter.mpr ⟨hx, by simp [hnot]⟩
    · simp
  | none =>
    rw [flushSpool_push_ok push unmarshal q hwf hne hp]
    refine ⟨rfl, ?_, ?_, ?_, ?_⟩
    · intro e he _ hmem
      have := (List.mem_filter.mp hmem).2
      simp [he] at this
    · intro e he _
      constructor
      · intro _; trivial
      · intro _ hmem
        have := (List.mem_filter.mp hmem).2
        simp [he] at this
    · intro x hx hnot
      exact List.mem_filter.mpr ⟨hx, by simpa using hnot⟩
    · simp

/-- The scenario of the specification: the spool holds a corrupted item and a
valid one (a snapshot decodes when it starts with an opening brace) and the
push fails.  One batch with the valid snapshot alone is pushed. -/
theorem flushSpool_ack_policy_witness :
    (flushSpool (fun (_ : List Bytes) => some TErr.transport)
        (fun b => if b.head? = some 123 then some b else none)
        (DiskQueue.mk [115] 1048576 hour)
        [{ name := fileName 1762246800000000000 1762246800000000000,
           modTime := 1762246800000000000, data := [110, 111, 116, 32, 106, 115, 111, 110] },
         { name := fileName 1762246801000000000 1762246801000000000,
           modTime := 1762246801000000000, data := [123, 125] }]).pushed
      = [[[123, 125]]] :=
  (flushSpool_ack_policy (fun (_ : List Bytes) => some TErr.transport)
    (fun b => if b.head? = some 123 then some b else none)
    (DiskQueue.mk [115] 1048576 hour)
    [{ name := fileName 1762246800000000000 1762246800000000000,
       modTime := 1762246800000000000, data := [110, 111, 116, 32, 106, 115, 111, 110] },
     { name := fileName 1762246801000000000 1762246801000000000,
       modTime := 1762246801000000000, data := [123, 125] }]
    (by decide) (by decide)).1.trans (by decide)

/-- The same scenario, the directory afterwards: after a failed push the
corrupted item is gone and the valid one is kept; after a successful push both
are gone. -/
theorem flushSpool_scenario :
    (flushSpool (fun (_ : List Bytes) => some TErr.transport)
        (fun b => if b.head? = some 123 then some b else none)
        (DiskQueue.mk [115] 1048576 hour)
        [{ name := fileName 1762246800000000000 1762246800000000000,
           modTime := 1762246800000000000, data := [110, 111, 116, 32, 106, 115, 111, 110] },
         { name := fileName 1762246801000000000 1762246801000000000,
           modTime := 1762246801000000000, data := [123, 125] }]).fs
      = [{ name := fileName 1762246801000000000 1762246801000000000,
           modTime := 1762246801000000000, data := [123, 125] }]
    ∧ (flushSpool (fun (_ : List Bytes) => none)
        (fun b => if b.head? = some 123 then some b else none)
        (DiskQueue.mk [115] 1048576 hour)
        [{ name := fileName 1762246800000000000 1762246800000000000,
           modTime := 1762246800000000000, data := [110, 111, 116, 32, 106, 115, 111, 110] },
         { name := fileName 1762246801000000000 1762246801000000000,
           modTime := 1762246801000000000, data := [123, 125] }]).fs
      = [] := by
  decide

/-! ## `sendInventory` -/

theorem created_append_singleton {S : Type} (marshal : S → Except QErr Bytes) (c : Clock × S)
    (rest : List (Clock × S)) (pre : Dir) :
    (pre ++ [freshEntry c.1 (bytesOf marshal c.2)]) ++ created marshal rest
      = pre ++ created marshal (c :: rest) := by
  rw [created_cons, List.append_assoc]
  rfl

theorem spoolAll_append {S : Type} (marshal : S → Except QErr Bytes) (q : DiskQueue) :
    ∀ (calls : List (Clock × S)) (pre : Dir),
      Dir.WF (pre ++ created marshal calls) →
      (∀ c ∈ calls, ∃ data, marshal c.2 = .ok data) →
      (∀ e ∈ pre ++ created marshal calls, ∀ c ∈ calls, c.1.now - q.retention ≤ e.modTime) →
      dirSize (pre ++ created marshal calls) ≤ q.maxBytes →
      spoolAll marshal q calls pre = pre ++ created marshal calls := by
  intro calls
  induction calls with
  | nil => intro pre _ _ _ _; simp [spoolAll, created]
  | cons c rest ih =>
    intro pre hwf hser hfresh hfit
    obtain ⟨data, hm⟩ := hser c (List.mem_cons_self _ _)
    have hb : bytesOf marshal c.2 = data := by unfold bytesOf; rw [hm]
    have hwfpre : Dir.WF pre := by
      unfold Dir.WF at *
      rw [List.map_append] at hwf
      exact (List.nodup_append.mp hwf).1
    have hnew : ∀ x ∈ pre, x.name ≠ fileName c.1.nameA c.1.nameB := by
      intro x hx hn
      unfold Dir.WF at hwf
      rw [List.map_append, created_cons, List.map_cons] at hwf
      have hdis := (List.nodup_append.mp hwf).2.2
      exact hdis (List.mem_map_of_mem Entry.name hx)
        (by rw [hn]; exact List.mem_cons_self _ _)
    have hnone : ∀ e ∈ pre, e.expired (c.1.now - q.retention) = false := by
      intro e he
      have := hfresh e (List.mem_append_left _ he) c (List.mem_cons_self _ _)
      unfold Entry.expired
      have hlt : ¬ (e.modTime < c.1.now - q.retention) := by omega
      simp [hlt]
    have hsz : dirSize pre + (data.length : Int) ≤ q.maxBytes := by
      rw [dirSize_append, created_cons, dirSize_fresh, hb] at hfit
      have := dirSize_nonneg (created marshal rest)
      omega
    obtain ⟨clk, snap⟩ := c
    rw [spoolAll, Enqueue_append marshal q clk hwfpre hm hnone hsz hnew]
    simp only
    rw [← hb]
    have key := created_append_singleton marshal (clk, snap) rest pre
    rw [← key]
    apply ih
    · rw [key]; exact hwf
    · exact fun x hx => hser x (List.mem_cons_of_mem _ hx)
    · intro e he x hx
      rw [key] at he
      exact hfresh e he x (List.mem_cons_of_mem _ hx)
    · rw [key]; exact hfit

theorem dirSize_created {S : Type} (marshal : S → Except QErr Bytes) (calls : List (Clock × S)) :
    dirSize (created marshal calls)
      = (calls.map (fun c => ((bytesOf marshal c.2).length : Int))).sum := by
  induction calls with
  | nil => rfl
  | cons c rest ih =>
    rw [created_cons, dirSize_fresh, ih]
    simp

theorem items_length_of_all_items {fs : Dir} (h : ∀ e ∈ fs, e.isItem = true) :
    (items fs).length = fs.length := by
  rw [(items_perm fs).length_eq, List.filter_eq_self.mpr h]

theorem Depth_after_flush_ok (q : DiskQueue) {fs : Dir} (hwf : fs.WF)
    (hk : (items fs).length ≤ 50) :
    q.Depth (fs.filter (fun x => decide (x ∉ flushBatch fs))) = 0 := by
  unfold flushBatch
  rw [Depth_eq, items_filter_length, filter_not_mem_take (items_nodup hwf), List.length_drop]
  omega

/-- C13 (amended). Take snapshots that all serialize, whose file names are
pairwise different, whose serializations together fit the capacity, whose files
stay within the retention window during the calls, and at most 50 of them.
When the push fails, `sendInventory` on an empty spool leaves exactly one spool
item per snapshot, each holding that snapshot's serialization; a following
`flushSpool` whose push succeeds brings the depth back to 0. -/
theorem sendInventory_spills {S : Type} (push : List S → Option TErr)
    (marshal : S → Except QErr Bytes) (q : DiskQueue) (snapshots : List (Clock × S)) (err : TErr)
    (hpush : push (snapshots.map Prod.snd) = some err)
    (hser : ∀ c ∈ snapshots, ∃ data, marshal c.2 = .ok data)
    (hnames : (snapshots.map (fun c => fileName c.1.nameA c.1.nameB)).Nodup)
    (hfit : (snapshots.map (fun c => ((bytesOf marshal c.2).length : Int))).sum ≤ q.maxBytes)
    (hfresh : ∀ c ∈ snapshots, ∀ c' ∈ snapshots, c'.1.now - q.retention ≤ c.1.mtime)
    (hk : snapshots.length ≤ 50) :
    (sendInventory push marshal q [] snapshots).fs = created marshal snapshots
    ∧ (sendInventory push marshal q [] snapshots).err = some (.transport err)
    ∧ q.Depth (sendInventory push marshal q [] snapshots).fs = snapshots.length
    ∧ ∀ (push2 : List S → Option TErr) (unmarshal : Bytes → Option S),
        push2 (validSnapshots unmarshal (flushBatch (created marshal snapshots))) = none →
        q.Depth (flushSpool push2 unmarshal q (sendInventory push marshal q [] snapshots).fs).fs
          = 0 := by
  have hwf : Dir.WF (created marshal snapshots) := by
    unfold Dir.WF created
    rw [List.map_map]
    exact hnames
  have hall : ∀ e ∈ created marshal snapshots, e.isItem = true := by
    intro e he
    obtain ⟨c, _, hc⟩ := List.mem_map.mp he
    rw [← hc]
    exact freshEntry_isItem _ _
  have hfs : (sendInventory push marshal q [] snapshots).fs = created marshal snapshots := by
    unfold sendInventory
    rw [hpush]
    simp only
    have := spoolAll_append marshal q snapshots [] (by simpa using hwf) hser
      (by
        intro e he c hc
        rw [List.nil_append] at he
        obtain ⟨c0, hc0, he0⟩ := List.mem_map.mp he
        rw [← he0]
        exact hfresh c0 hc0 c hc)
      (by rw [List.nil_append, dirSize_created]; exact hfit)
    rw [this, List.nil_append]
  have hlen : (items (created marshal snapshots)).length = snapshots.length := by
    rw [items_length_of_all_items hall]
    simp [created]
  refine ⟨hfs, ?_, ?_, ?_⟩
  · unfold sendInventory
    rw [hpush]
  · rw [hfs, Depth_eq, hlen]
  · intro push2 unmarshal hp2
    rw [hfs]
    by_cases hb : flushBatch (created marshal snapshots) = []
    · rw [flushSpool_empty push2 unmarshal q hwf hb]
      simp only
      rw [Depth_eq]
      unfold flushBatch at hb
      have : items (created marshal snapshots) = [] := by
        rw [List.take_of_length_le (by omega)] at hb
        exact hb
      rw [this]
      rfl
    · rw [flushSpool_push_ok push2 unmarshal q hwf hb hp2]
      exact Depth_after_flush_ok q hwf (by omega)

/-- Two small snapshots, a failed push: two spool items, one per snapshot. -/
theorem sendInventory_spills_witness :
    (sendInventory (fun (_ : List Bytes) => some TErr.transport) (fun (b : Bytes) => Except.ok b)
        (DiskQueue.mk [115] 1048576 hour) []
        [(clockAt 1762246800000000000, [123, 125]),
         (clockAt 1762246800000001000, [123, 49, 125])]).fs
      = [freshEntry (clockAt 1762246800000000000) [123, 125],
         freshEntry (clockAt 1762246800000001000) [123, 49, 125]] :=
  (sendInventory_spills (fun (_ : List Bytes) => some TErr.transport)
    (fun (b : Bytes) => Except.ok b) (DiskQueue.mk [115] 1048576 hour)
    [(clockAt 1762246800000000000, [123, 125]),
     (clockAt 1762246800000001000, [123, 49, 125])] TErr.transport
    rfl (fun c _ => ⟨c.2, rfl⟩) (by decide) (by decide) (by decide) (by decide)).1.trans
    (by decide)

/-- C13 as stated fails: each of three snapshots of 1 MiB fits a queue of 2 MiB
made by `NewDiskQueue(dir, 2, time.Hour)`, but after the failed push the empty
spool holds two items, not three: the third `Enqueue` evicts the first file. -/
theorem sendInventory_loses_snapshot :
    ((mebibyte.length : Int) ≤ (DiskQueue.mk [115] 2097152 hour).maxBytes)
    ∧ (sendInventory (fun (_ : List Bytes) => some TErr.transport)
        (fun (b : Bytes) => Except.ok b) (DiskQueue.mk [115] 2097152 hour) []
        [(clockAt 1762246800000000000, mebibyte), (clockAt 1762246801000000000, mebibyte),
         (clockAt 1762246802000000000, mebibyte)]).fs
      = [freshEntry (clockAt 1762246801000000000) mebibyte,
         freshEntry (clockAt 1762246802000000000) mebibyte]
    ∧ (DiskQueue.mk [115] 2097152 hour).Depth
        [freshEntry (clockAt 1762246801000000000) mebibyte,
         freshEntry (clockAt 1762246802000000000) mebibyte] = 2 := by
  refine ⟨by rw [mebibyte_length]; decide, ?_, by decide⟩
  unfold sendInventory
  simp only
  rw [spoolAll, scenario_first]
  simp only
  rw [spoolAll, scenario_second]
  simp only
  rw [spoolAll, scenario_third]
  simp only
  rw [spoolAll]

end EventSec
